import Mathlib

/-!
Verification of the two-mode network-address validators
(`isIpValid` / `isIpPartiallyValid` / `isMacValid` / `isMacPartiallyValid`)
from `src/utils/validators.ts` of the network-parameters-demo repository
(the current iteration, the one exercised by `__tests__/validators.test.ts`,
which exports the `TEXT_*` message constants).

The JavaScript regular expressions are embedded as a small regex AST
(`NetVal.Rx`) together with a fuel-based backtracking recognizer `NetVal.parse`
that returns every suffix left over after matching a prefix; `NetVal.rmatch`
is anchored whole-string matching, which is how every `RegExp.test` call in
the source uses its pattern (all top-level patterns carry `^...$`).

The optional zod helpers (`z.ipv4()` and friends) are environment dependent;
following the design note of the specification they are modelled by the
always-present pure regex fallbacks that the source installs when the helpers
are absent (`z.string().regex(new RegExp(...))`).
-/

namespace NetVal

/-- `[0-9]` (the JS `\d` class). -/
def isDigitC (c : Char) : Bool := decide ('0' ≤ c) && decide (c ≤ '9')

/-- `[0-9a-fA-F]`. -/
def isHexC (c : Char) : Bool :=
  isDigitC c || (decide ('a' ≤ c) && decide (c ≤ 'f')) || (decide ('A' ≤ c) && decide (c ≤ 'F'))

/-- The JS `\s` class and the characters removed by `String.prototype.trim`,
restricted to the ASCII whitespace characters. -/
def isSpaceC (c : Char) : Bool :=
  c = ' ' || c = '\t' || c = '\n' || c = '\r' || c = '\x0b' || c = '\x0c'

/-- The JS `.` (any character but a line terminator). -/
def isDotAnyC (c : Char) : Bool := !(c = '\n' || c = '\r')

/-- `[0-9a-fA-F:]`, the character class of `IPV6_PARTIAL`. -/
def isHexColonC (c : Char) : Bool := isHexC c || c = ':'

/-- Regex abstract syntax: the fragment used by the validator patterns.
`rep a lo hi` is the bounded repetition `a{lo,hi}`, `look a` is the
lookahead `(?=a)`. -/
inductive Rx where
  | eps : Rx
  | chr (p : Char → Bool) : Rx
  | cat (a b : Rx) : Rx
  | alt (a b : Rx) : Rx
  | star (a : Rx) : Rx
  | rep (a : Rx) (lo hi : Nat) : Rx
  | look (a : Rx) : Rx

/-- A single literal character. -/
def lit (c : Char) : Rx := .chr (fun d => d = c)

/-- `a?`. -/
def opt (a : Rx) : Rx := .alt a .eps

/-- Backtracking recognizer: all suffixes remaining after `r` consumed some
prefix of `s`.  Fuel is only a structural-termination device; `fuelFor`
below always supplies enough. -/
def parse : Nat → Rx → List Char → List (List Char)
  | 0, _, _ => []
  | _ + 1, .eps, s => [s]
  | _ + 1, .chr _, [] => []
  | _ + 1, .chr p, c :: t => if p c then [t] else []
  | n + 1, .cat a b, s => (parse n a s).flatMap (fun t => parse n b t)
  | n + 1, .alt a b, s => parse n a s ++ parse n b s
  | n + 1, .star a, s =>
      s :: ((parse n a s).filter (fun t => t.length < s.length)).flatMap
        (fun t => parse n (.star a) t)
  | n + 1, .rep a lo hi, s =>
      if lo = 0 then
        if hi = 0 then [s]
        else
          s :: ((parse n a s).filter (fun t => t.length < s.length)).flatMap
            (fun t => parse n (.rep a 0 (hi - 1)) t)
      else
        if hi = 0 then []
        else (parse n a s).flatMap (fun t => parse n (.rep a (lo - 1) (hi - 1)) t)
  | n + 1, .look a, s => if (parse n a s).isEmpty then [] else [s]

/-- Size measure used for the fuel bound. -/
def rsize : Rx → Nat
  | .eps => 1
  | .chr _ => 1
  | .cat a b => rsize a + rsize b + 1
  | .alt a b => rsize a + rsize b + 1
  | .star a => rsize a + 1
  | .rep a _ hi => (rsize a + 1) * (hi + 1) + 1
  | .look a => rsize a + 1

/-- Sufficient fuel for `parse` on `r` and `s` (proved below). -/
def fuelFor (r : Rx) (s : List Char) : Nat := (rsize r + 1) * (s.length + 1)

/-- Anchored whole-string matching: how every `^...$` pattern is used via
`RegExp.test` in the source. -/
def rmatch (r : Rx) (s : List Char) : Bool :=
  (parse (fuelFor r s) r s).any (fun t => t.isEmpty)

/-! ### The grammar tables (`validators.ts`, constants section) -/

/-- `OCTET = (25[0-5]|2[0-4]\d|1\d{2}|[1-9]\d|\d)`. -/
def OCTET : Rx :=
  .alt (.cat (lit '2') (.cat (lit '5') (.chr (fun c => decide ('0' ≤ c) && decide (c ≤ '5')))))
    (.alt (.cat (lit '2') (.cat (.chr (fun c => decide ('0' ≤ c) && decide (c ≤ '4'))) (.chr isDigitC)))
      (.alt (.cat (lit '1') (.rep (.chr isDigitC) 2 2))
        (.alt (.cat (.chr (fun c => decide ('1' ≤ c) && decide (c ≤ '9'))) (.chr isDigitC))
          (.chr isDigitC))))

/-- `IPV4_FULL = OCTET(\.OCTET){3}`. -/
def IPV4_FULL : Rx := .cat OCTET (.rep (.cat (lit '.') OCTET) 3 3)

/-- `IPV4_PARTIAL = OCTET(\.OCTET){0,2}(\.OCTET?\.?)?`. -/
def IPV4_PARTIAL : Rx :=
  .cat OCTET (.cat (.rep (.cat (lit '.') OCTET) 0 2)
    (opt (.cat (lit '.') (.cat (opt OCTET) (opt (lit '.'))))))

/-- `H16 = [0-9a-fA-F]{1,4}`. -/
def H16 : Rx := .rep (.chr isHexC) 1 4

/-- `(H16:){lo,hi}`. -/
def h16Colon (lo hi : Nat) : Rx := .rep (.cat H16 (lit ':')) lo hi

/-- `(:H16){lo,hi}`. -/
def colonH16 (lo hi : Nat) : Rx := .rep (.cat (lit ':') H16) lo hi

/-- `IPV6_FULL`: the ten alternatives of the source constant, in order. -/
def IPV6_FULL : Rx :=
  .alt (.cat (h16Colon 7 7) H16)
    (.alt (.cat (h16Colon 1 7) (lit ':'))
      (.alt (.cat (h16Colon 1 6) (.cat (lit ':') H16))
        (.alt (.cat (h16Colon 1 5) (colonH16 1 2))
          (.alt (.cat (h16Colon 1 4) (colonH16 1 3))
            (.alt (.cat (h16Colon 1 3) (colonH16 1 4))
              (.alt (.cat (h16Colon 1 2) (colonH16 1 5))
                (.alt (.cat H16 (.cat (lit ':') (colonH16 1 6)))
                  (.alt (.cat (lit ':') (colonH16 1 7))
                    (.cat (lit ':') (lit ':'))))))))))

/-- `IPV6_PARTIAL = (?=.*:)[0-9a-fA-F:]{1,39}`. -/
def IPV6_PARTIAL : Rx :=
  .cat (.look (.cat (.star (.chr isDotAnyC)) (lit ':'))) (.rep (.chr isHexColonC) 1 39)

/-- `CIDR_SUFFIX_V4 = /(3[0-2]|[12]\d|\d)`. -/
def CIDR_SUFFIX_V4 : Rx :=
  .cat (lit '/')
    (.alt (.cat (lit '3') (.chr (fun c => decide ('0' ≤ c) && decide (c ≤ '2'))))
      (.alt (.cat (.chr (fun c => c = '1' || c = '2')) (.chr isDigitC))
        (.chr isDigitC)))

/-- `CIDR_SUFFIX_V6 = /(12[0-8]|1[01]\d|\d{1,2})`. -/
def CIDR_SUFFIX_V6 : Rx :=
  .cat (lit '/')
    (.alt (.cat (lit '1') (.cat (lit '2') (.chr (fun c => decide ('0' ≤ c) && decide (c ≤ '8')))))
      (.alt (.cat (lit '1') (.cat (.chr (fun c => c = '0' || c = '1')) (.chr isDigitC)))
        (.rep (.chr isDigitC) 1 2)))

/-- `IPV4_CIDR_FULL = IPV4_FULL CIDR_SUFFIX_V4`. -/
def IPV4_CIDR_FULL : Rx := .cat IPV4_FULL CIDR_SUFFIX_V4

/-- `IPV6_CIDR_FULL = IPV6_FULL CIDR_SUFFIX_V6`. -/
def IPV6_CIDR_FULL : Rx := .cat IPV6_FULL CIDR_SUFFIX_V6

/-- `IPV4_CIDR_PARTIAL = IPV4_FULL(/[0-9]{0,2})?` — a mask is admitted only
after a complete IPv4 quad. -/
def IPV4_CIDR_PARTIAL : Rx :=
  .cat IPV4_FULL (opt (.cat (lit '/') (.rep (.chr isDigitC) 0 2)))

/-- `IPV6_CIDR_PARTIAL = IPV6_PARTIAL(/[0-9]{0,3})?`. -/
def IPV6_CIDR_PARTIAL : Rx :=
  .cat IPV6_PARTIAL (opt (.cat (lit '/') (.rep (.chr isDigitC) 0 3)))

/-- `\s*`. -/
def WS : Rx := .star (.chr isSpaceC)

/-- `IPV4_RANGE_FULL = IPV4_FULL\s*-\s*IPV4_FULL`. -/
def IPV4_RANGE_FULL : Rx :=
  .cat IPV4_FULL (.cat WS (.cat (lit '-') (.cat WS IPV4_FULL)))

/-- `IPV6_RANGE_FULL = IPV6_FULL\s*-\s*IPV6_FULL`. -/
def IPV6_RANGE_FULL : Rx :=
  .cat IPV6_FULL (.cat WS (.cat (lit '-') (.cat WS IPV6_FULL)))

/-- `IPV4_RANGE_PARTIAL = IPV4_PARTIAL(\s*-\s*IPV4_PARTIAL?)?`. -/
def IPV4_RANGE_PARTIAL : Rx :=
  .cat IPV4_PARTIAL (opt (.cat WS (.cat (lit '-') (.cat WS (opt IPV4_PARTIAL)))))

/-- `IPV6_RANGE_PARTIAL = IPV6_PARTIAL(\s*-\s*IPV6_PARTIAL?)?`. -/
def IPV6_RANGE_PARTIAL : Rx :=
  .cat IPV6_PARTIAL (opt (.cat WS (.cat (lit '-') (.cat WS (opt IPV6_PARTIAL)))))

/-- `SINGLE_FULL`, the six alternatives in source order. -/
def SINGLE_FULL : Rx :=
  .alt IPV4_CIDR_FULL
    (.alt IPV4_RANGE_FULL
      (.alt IPV4_FULL
        (.alt IPV6_CIDR_FULL
          (.alt IPV6_RANGE_FULL IPV6_FULL))))

/-- `SINGLE_PARTIAL`, the four alternatives in source order. -/
def SINGLE_PARTIAL : Rx :=
  .alt IPV4_CIDR_PARTIAL
    (.alt IPV4_RANGE_PARTIAL
      (.alt IPV6_CIDR_PARTIAL IPV6_RANGE_PARTIAL))

/-- `FULL_LIST = ^\s*SINGLE_FULL(\s*,\s*SINGLE_FULL)*\s*$` (anchors realized
by whole-string matching). -/
def FULL_LIST : Rx :=
  .cat WS (.cat SINGLE_FULL
    (.cat (.star (.cat WS (.cat (lit ',') (.cat WS SINGLE_FULL)))) WS))

/-- `PARTIAL_LIST = ^\s*SINGLE_PARTIAL(\s*,\s*SINGLE_PARTIAL)*(\s*,\s*)?\s*$`. -/
def PARTIAL_LIST : Rx :=
  .cat WS (.cat SINGLE_PARTIAL
    (.cat (.star (.cat WS (.cat (lit ',') (.cat WS SINGLE_PARTIAL))))
      (.cat (opt (.cat WS (.cat (lit ',') WS))) WS)))

/-! ### JavaScript string primitives, on `List Char` -/

/-- `String.prototype.trim` (leading and trailing whitespace removed). -/
def jsTrim (s : List Char) : List Char :=
  ((s.dropWhile isSpaceC).reverse.dropWhile isSpaceC).reverse

/-- `value.replace(/\s+$/, "")`: trailing whitespace removed. -/
def trimEnd (s : List Char) : List Char :=
  (s.reverse.dropWhile isSpaceC).reverse

/-- `String.prototype.split` with a single-character separator: splits at
every occurrence, keeping empty fragments (`"".split(x) = [""]`). -/
def splitCh (sep : Char) : List Char → List (List Char)
  | [] => [[]]
  | c :: t =>
    if c = sep then [] :: splitCh sep t
    else
      match splitCh sep t with
      | [] => [[c]]
      | h :: r => (c :: h) :: r

/-- `value.split("::")`: leftmost, non-overlapping occurrences of `"::"`. -/
def splitDC : List Char → List (List Char)
  | ':' :: ':' :: t => [] :: splitDC t
  | c :: t =>
    match splitDC t with
    | [] => [[c]]
    | h :: r => (c :: h) :: r
  | [] => [[]]

/-- Number of matches of `/::/g` (leftmost, non-overlapping). -/
def countDC : List Char → Nat
  | ':' :: ':' :: t => countDC t + 1
  | _ :: t => countDC t
  | [] => 0

/-- `value.includes(":::")`. -/
def hasTripleColon : List Char → Bool
  | ':' :: ':' :: ':' :: _ => true
  | _ :: t => hasTripleColon t
  | [] => false

/-- `t.startsWith("::")`. -/
def startsDC : List Char → Bool
  | ':' :: ':' :: _ => true
  | _ => false

/-- `t.endsWith("::")`. -/
def endsDC (s : List Char) : Bool :=
  match s.reverse with
  | ':' :: ':' :: _ => true
  | _ => false

/-- `item.indexOf("-")` (`none` for `-1`). -/
def idxOfDash : List Char → Option Nat
  | [] => none
  | c :: t =>
    if c = '-' then some 0
    else (idxOfDash t).map (fun i => i + 1)

/-- Numeric value of a list of decimal digits. -/
def decVal (ds : List Char) : Nat :=
  ds.foldl (fun acc c => acc * 10 + (c.toNat - '0'.toNat)) 0

/-- Numeric value of one hex digit. -/
def hexDigitVal (c : Char) : Nat :=
  if isDigitC c then c.toNat - '0'.toNat
  else if decide ('a' ≤ c) && decide (c ≤ 'f') then c.toNat - 'a'.toNat + 10
  else c.toNat - 'A'.toNat + 10

/-- Numeric value of a list of hex digits. -/
def hexVal (ds : List Char) : Nat :=
  ds.foldl (fun acc c => acc * 16 + hexDigitVal c) 0

/-- `Number.parseInt(s, 10)` on the already-trimmed fragments the validator
feeds it (no sign can occur there: the fragments come from `split("-")` or
`split("/")`): the maximal leading run of decimal digits, `none` for `NaN`. -/
def parseDec (s : List Char) : Option Nat :=
  match s.takeWhile isDigitC with
  | [] => none
  | ds => some (decVal ds)

/-- `Number.parseInt(s, 16)` on colon-split fragments (no sign possible):
the maximal leading run of hex digits, `none` for `NaN`. -/
def parseHex (s : List Char) : Option Nat :=
  match s.takeWhile isHexC with
  | [] => none
  | ds => some (hexVal ds)

/-- Inverse of `splitCh`: rejoin fragments with the separator. -/
def joinSep (sep : Char) : List (List Char) → List Char
  | [] => []
  | [p] => p
  | p :: r => p ++ sep :: joinSep sep r

/-! ### Message constants (`TEXT_*` exports of the source) -/

def TEXT_INVALID_SUBNET : String := "Неверно определена подсеть"
def TEXT_INVALID_IP : String := "Некорректный IP-адрес"
def TEXT_RANGE_ALLOWED : String := "Допустимый диапазон IPv4 или IPv6"
def TEXT_RANGE_ORDER : String := "Неверный порядок IP в диапазоне"
def TEXT_IP_VERSION_MISMATCH : String := "IP версии должны совпадать"
def TEXT_ALLOWED_CHARS : String :=
  "Поле может содержать только цифры, буквы \"a-f\", \"A-F\" и символы .:/,-"
def TEXT_INVALID_MAC : String := "Некорректный MAC-адрес"

/-- The generic fallback message of `isIpPartiallyValid`. -/
def TEXT_IP_FORMAT : String := "Некорректный формат IP-адреса"

/-- The list-shaped fallback message of `isMacPartiallyValid`. -/
def TEXT_MAC_LIST : String := "Некорректный формат списка MAC-адресов"

/-! ### Full-token schemas (pure regex fallbacks of the zod helpers) -/

/-- `Ipv4TokenSchema` fallback: `^IPV4_FULL$`. -/
def isFullIpv4Token (t : List Char) : Bool := rmatch IPV4_FULL t

/-- `Ipv6TokenSchema` fallback: `^IPV6_FULL$`. -/
def isFullIpv6Token (t : List Char) : Bool := rmatch IPV6_FULL t

/-- `Cidrv4TokenSchema` fallback: `^IPV4_CIDR_FULL$`. -/
def isValidCidrV4Token (t : List Char) : Bool := rmatch IPV4_CIDR_FULL t

/-- `Cidrv6TokenSchema` fallback: `^IPV6_CIDR_FULL$`. -/
def isValidCidrV6Token (t : List Char) : Bool := rmatch IPV6_CIDR_FULL t

/-! ### Numeric conversions -/

/-- `ipv4ToNumber`: split on `.`, parse each part base 10, pack big-endian.
`none` models the `NaN` that JavaScript propagates when a part is missing or
unparseable. -/
def ipv4ToNumber (ip : List Char) : Option Nat :=
  let parts := (splitCh '.' ip).map parseDec
  match parts.getD 0 none, parts.getD 1 none, parts.getD 2 none, parts.getD 3 none with
  | some a, some b, some c, some d => some (((a * 256 + b) * 256 + c) * 256 + d)
  | _, _, _, _ => none

/-- One step of `result = (result << 16n) | value`. -/
def packGroup (acc : Option Nat) (g : Option Nat) : Option Nat :=
  match acc, g with
  | some r, some v => some ((r <<< 16) ||| v)
  | _, _ => none

/-- `ipv6ToBigInt`.  Without `::` every colon-group is
`BigInt(Number.parseInt(g, 16))`; with `::`, the missing all-zero groups are
interposed and an empty group falls back to `"0"` (`g || "0"`).  `none`
models the `NaN`/`BigInt`-exception path, which is unreachable from the
validators because every caller first checks `isFullIpv6Token`. -/
def ipv6ToBigInt (ip : List Char) : Option Nat :=
  if countDC ip = 0 then
    ((splitCh ':' ip).map parseHex).foldl packGroup (some 0)
  else
    let dcParts := splitDC ip
    let leftRaw := dcParts.getD 0 []
    let rightRaw := dcParts.getD 1 []
    let leftParts := if leftRaw = [] then [] else splitCh ':' leftRaw
    let rightParts := if rightRaw = [] then [] else splitCh ':' rightRaw
    let missing := 8 - (leftParts.length + rightParts.length)
    let groups := leftParts ++ List.replicate missing ['0'] ++ rightParts
    (groups.map (fun g => parseHex (if g = [] then ['0'] else g))).foldl packGroup (some 0)

/-! ### Shared semantic guards -/

/-- `hasIpVersionMismatchInRange`: some comma item splits on `-` into exactly
two nonempty (trimmed) sides of which exactly one contains a colon. -/
def hasIpVersionMismatchInRange (value : List Char) : Bool :=
  (splitCh ',' value).any fun item =>
    let rangeParts := splitCh '-' item
    rangeParts.length = 2 &&
      (let left := jsTrim (rangeParts.getD 0 [])
       let right := jsTrim (rangeParts.getD 1 [])
       !left.isEmpty && !right.isEmpty && (left.contains ':' != right.contains ':'))

/-- `hasRangeOrderViolation`: a two-sided range whose sides are both full
IPv4 (resp. both full IPv6) tokens with numeric start > numeric end. -/
def hasRangeOrderViolation (value : List Char) : Bool :=
  (splitCh ',' value).any fun raw =>
    let rangeParts := splitCh '-' raw
    rangeParts.length = 2 &&
      (let left := jsTrim (rangeParts.getD 0 [])
       let right := jsTrim (rangeParts.getD 1 [])
       !left.isEmpty && !right.isEmpty &&
        ((isFullIpv4Token left && isFullIpv4Token right &&
            (match ipv4ToNumber left, ipv4ToNumber right with
             | some s, some e => decide (e < s)
             | _, _ => false)) ||
         (isFullIpv6Token left && isFullIpv6Token right &&
            (match ipv6ToBigInt left, ipv6ToBigInt right with
             | some s, some e => decide (e < s)
             | _, _ => false))))

/-- `hasTrailingDotAfterFullIpv4`: some dash-fragment of some comma item,
trimmed, is a full IPv4 quad followed by one extra dot. -/
def hasTrailingDotAfterFullIpv4 (value : List Char) : Bool :=
  (splitCh ',' value).any fun item =>
    (splitCh '-' item).any fun part =>
      let t := jsTrim part
      !t.isEmpty && t.getLast? = some '.' && isFullIpv4Token (jsTrim t.dropLast)

/-! ### The partial-mode guard battery (`isIpPartialAllowed`) -/

/-- The range guard of `isIpPartialAllowed`: for an item containing a dash,
reject a left side ending in a dot, and reject ranges pairing a complete
IPv4 with a 1–2-dot in-progress IPv4 on the other side. -/
def rangeDashGuard (value : List Char) : Bool :=
  (splitCh ',' value).any fun item =>
    match idxOfDash item with
    | none => false
    | some di =>
      let left := jsTrim (item.take di)
      let right := jsTrim (item.drop (di + 1))
      left.getLast? = some '.' ||
        (!left.isEmpty && !right.isEmpty &&
          (let dotsLeft := left.count '.'
           let dotsRight := right.count '.'
           let leftFull := isFullIpv4Token left
           let rightFull := isFullIpv4Token right
           (leftFull && !rightFull && decide (0 < dotsRight) && decide (dotsRight < 3)) ||
             (rightFull && !leftFull && decide (0 < dotsLeft) && decide (dotsLeft < 3))))

/-- The bare-token list guard: with more than one comma item, every nonempty
item except the last must contain one of `. : / -`. -/
def bareItemGuard (value : List Char) : Bool :=
  let items := splitCh ',' value
  decide (1 < items.length) &&
    items.dropLast.any fun raw =>
      let token := jsTrim raw
      !token.isEmpty && !token.contains '.' && !token.contains ':' &&
        !token.contains '/' && !token.contains '-'

/-- The per-token condition of the IPv6 structural guard (the six
rejection tests the source applies to a trimmed colon-containing token). -/
def ipv6TokenCond (t : List Char) : Bool :=
  let groups := splitCh ':' t
  let nonEmpty := (groups.filter (fun g => !g.isEmpty)).length
  let m := countDC t
  (groups.headD [] = ([] : List Char) && decide (1 ≤ nonEmpty) && !startsDC t) ||
    (groups.getLastD [] = ([] : List Char) && decide (1 < nonEmpty) && !endsDC t) ||
    groups.any (fun g => decide (4 < g.length)) ||
    decide (1 < m) ||
    (decide (1 ≤ m) && decide (7 ≤ nonEmpty)) ||
    (decide (m = 0) && (decide (nonEmpty = 7) || decide (8 < nonEmpty)))

/-- The IPv6 structural guard, applied to every trimmed colon-containing
slash-fragment of every dash-fragment of every item. -/
def ipv6StructGuard (value : List Char) : Bool :=
  (splitCh ',' value).any fun item =>
    (splitCh '-' item).any fun rangePart =>
      (splitCh '/' rangePart).any fun part =>
        let t := jsTrim part
        !t.isEmpty && t.contains ':' && ipv6TokenCond t

/-- The IPv4 CIDR mask guard: a slash whose address side is a full IPv4 quad
and whose parsed mask exceeds 32 (an unparseable mask leaves the guard
untriggered, mirroring the `Number.isFinite` check). -/
def cidrV4MaskGuard (value : List Char) : Bool :=
  (splitCh ',' value).any fun item =>
    (splitCh '-' item).any fun rangePart =>
      let cidrParts := splitCh '/' rangePart
      decide (2 ≤ cidrParts.length) &&
        (let ipPart := jsTrim (cidrParts.getD 0 [])
         let maskPart := jsTrim (cidrParts.getD 1 [])
         !maskPart.isEmpty && isFullIpv4Token ipPart &&
          (match parseDec maskPart with
           | some mask => decide (32 < mask)
           | none => false))

/-- The IPv6 CIDR mask guard: same as `cidrV4MaskGuard` with bound 128 and a
full IPv6 address side. -/
def cidrV6MaskGuard (value : List Char) : Bool :=
  (splitCh ',' value).any fun item =>
    (splitCh '-' item).any fun rangePart =>
      let cidrParts := splitCh '/' rangePart
      decide (2 ≤ cidrParts.length) &&
        (let ipPart := jsTrim (cidrParts.getD 0 [])
         let maskPart := jsTrim (cidrParts.getD 1 [])
         !maskPart.isEmpty && isFullIpv6Token ipPart &&
          (match parseDec maskPart with
           | some mask => decide (128 < mask)
           | none => false))

/-- The dangling-dash exception: after stripping trailing whitespace the text
ends in `-`, and the dash-free nonempty text before it matches the partial
grammar on its own. -/
def danglingDashOk (value : List Char) : Bool :=
  let noRightSpaces := trimEnd value
  noRightSpaces.getLast? = some '-' &&
    (let pre := noRightSpaces.dropLast
     !pre.isEmpty && !pre.contains '-' && rmatch PARTIAL_LIST pre)

/-- `isIpPartialAllowed`: the ordered guard battery followed by the
permissive grammar test and the dangling-dash exception. -/
def isIpPartialAllowed (value : List Char) : Bool :=
  if jsTrim value = [] then true
  else if hasTrailingDotAfterFullIpv4 value then false
  else if rangeDashGuard value then false
  else if bareItemGuard value then false
  else if hasTripleColon value then false
  else if ipv6StructGuard value then false
  else if cidrV4MaskGuard value then false
  else if cidrV6MaskGuard value then false
  else if hasRangeOrderViolation value then false
  else if hasIpVersionMismatchInRange value then false
  else if rmatch PARTIAL_LIST value then true
  else danglingDashOk value

/-! ### The full validator (`IpFullSchema` / `isIpValid`) -/

/-- The per-token CIDR refinement of `IpFullSchema`: every trimmed
slash-containing dash-fragment must pass the family-appropriate full-CIDR
token schema. -/
def cidrTokensOk (value : List Char) : Bool :=
  (splitCh ',' value).all fun raw =>
    (splitCh '-' raw).all fun rangePart =>
      let t := jsTrim rangePart
      t.isEmpty || !t.contains '/' ||
        (if t.contains ':' then isValidCidrV6Token t else isValidCidrV4Token t)

/-- The IPv6 over-specification refinement of `IpFullSchema`: no
colon-containing fragment may have two `::` or a `::` next to seven or more
nonempty groups. -/
def ipv6OverspecOk (value : List Char) : Bool :=
  (splitCh ',' value).all fun raw =>
    (splitCh '-' raw).all fun rangePart =>
      (splitCh '/' rangePart).all fun part =>
        let t := jsTrim part
        t.isEmpty || !t.contains ':' ||
          (let groups := splitCh ':' t
           let nonEmpty := (groups.filter (fun g => !g.isEmpty)).length
           let m := countDC t
           !decide (1 < m) && !(decide (1 ≤ m) && decide (7 ≤ nonEmpty)))

/-- The `superRefine` body of `IpFullSchema`, applied to the trimmed value:
`true` iff no issue is raised. -/
def ipFullCheck (value : List Char) : Bool :=
  (rmatch FULL_LIST value && !hasTripleColon value) &&
    cidrTokensOk value &&
    ipv6OverspecOk value &&
    !hasRangeOrderViolation value &&
    !hasIpVersionMismatchInRange value

/-- `isIpValid`: empty (after trimming) is valid, otherwise the full schema
must accept. -/
def isIpValid (value : String) : Bool :=
  let v := jsTrim value.data
  if v = [] then true else ipFullCheck v

/-- The allowed-character class of the IP error classifier:
`[0-9a-fA-F:.,\s-]` plus the slash. -/
def isIpAllowedC (c : Char) : Bool :=
  isHexC c || c = ':' || c = '.' || c = ',' || isSpaceC c || c = '/' || c = '-'

/-- `isIpPartiallyValid`: empty verdict for valid input, otherwise the
classifier picks the first matching message. -/
def isIpPartiallyValid (value : String) : String :=
  let v := value.data
  if jsTrim v = [] then ""
  else if isIpValid value then ""
  else if isIpPartialAllowed v then ""
  else if hasIpVersionMismatchInRange v then TEXT_IP_VERSION_MISMATCH
  else if v.any (fun c => !isIpAllowedC c) then TEXT_ALLOWED_CHARS
  else if hasRangeOrderViolation v then TEXT_RANGE_ORDER
  else if v.contains '-' then TEXT_RANGE_ALLOWED
  else if v.contains '/' then TEXT_INVALID_SUBNET
  else TEXT_IP_FORMAT

/-! ### MAC subsystem -/

/-- `HEX2_RE = ^[0-9a-fA-F]{2}$`. -/
def hex2Ok (t : List Char) : Bool := t.length = 2 && t.all isHexC

/-- `HEX1_2_RE = ^[0-9a-fA-F]{1,2}$`. -/
def hex12Ok (t : List Char) : Bool :=
  (t.length = 1 || t.length = 2) && t.all isHexC

/-- `SingleMacFullSchema` acceptance: a trimmed nonempty token of exactly six
dash-separated two-hex-digit groups. -/
def isSingleMacFullOk (token : List Char) : Bool :=
  let t := jsTrim token
  !t.isEmpty &&
    (let parts := splitCh '-' t
     parts.length = 6 && parts.all hex2Ok)

/-- The per-segment loop of `SingleMacPartialSchema`: every segment but the
last needs exactly two hex digits, the last needs one or two, and only the
last may be empty. -/
def macSegsOk : List (List Char) → Bool
  | [] => true
  | [last] => last.isEmpty || hex12Ok last
  | p :: rest => !p.isEmpty && hex2Ok p && macSegsOk rest

/-- `SingleMacPartialSchema` acceptance: empty is accepted, otherwise at most
six dash-separated segments passing `macSegsOk`. -/
def isSingleMacPartialOk (token : List Char) : Bool :=
  let t := jsTrim token
  t.isEmpty ||
    (let parts := splitCh '-' t
     decide (parts.length ≤ 6) && macSegsOk parts)

/-- `MacFullSchema` / `isMacValid`: empty is valid; otherwise every comma
item, trimmed, must be nonempty and a full MAC. -/
def isMacValid (value : String) : Bool :=
  let v := value.data
  if jsTrim v = [] then true
  else
    (splitCh ',' v).all fun raw =>
      let token := jsTrim raw
      !token.isEmpty && isSingleMacFullOk token

/-- The item loop of `isMacPartialAllowed`: every item before the last must
be a full MAC; an empty last item (trailing comma) is accepted, otherwise
the last item must be a partial MAC. -/
def macItemsOk : List (List Char) → Bool
  | [] => true
  | [lastRaw] =>
    let token := jsTrim lastRaw
    token.isEmpty || isSingleMacPartialOk token
  | raw :: rest => isSingleMacFullOk (jsTrim raw) && macItemsOk rest

/-- `isMacPartialAllowed`. -/
def isMacPartialAllowed (value : List Char) : Bool :=
  if jsTrim value = [] then true
  else macItemsOk (splitCh ',' value)

/-- The allowed-character class of the MAC error classifier:
`[0-9a-fA-F,\s-]`. -/
def isMacAllowedC (c : Char) : Bool :=
  isHexC c || c = ',' || isSpaceC c || c = '-'

/-- `isMacPartiallyValid`: empty verdict for valid input, otherwise the MAC
classifier messages. -/
def isMacPartiallyValid (value : String) : String :=
  let v := value.data
  if jsTrim v = [] then ""
  else if isMacValid value then ""
  else if isMacPartialAllowed v then ""
  else if v.any (fun c => !isMacAllowedC c) then TEXT_ALLOWED_CHARS
  else if v.contains ',' then TEXT_MAC_LIST
  else TEXT_INVALID_MAC

/-! ### Error kinds (specification §3 / §6) -/

/-- The closed error enumeration of the specification. -/
inductive ErrorKind where
  | InvalidChars : ErrorKind
  | InvalidFormat : ErrorKind
  | InvalidSubnet : ErrorKind
  | RangeOrder : ErrorKind
  | VersionMismatch : ErrorKind
  | InvalidMac : ErrorKind
deriving DecidableEq

/-- The canonical message table of the specification: which `ErrorKind`
each partial-mode message denotes (`none` for the empty, valid verdict).
The range-shaped message `TEXT_RANGE_ALLOWED` and the generic fallback both
surface the `InvalidFormat` kind. -/
def ipKindOfMessage (m : String) : Option ErrorKind :=
  if m = "" then none
  else if m = TEXT_IP_VERSION_MISMATCH then some .VersionMismatch
  else if m = TEXT_ALLOWED_CHARS then some .InvalidChars
  else if m = TEXT_RANGE_ORDER then some .RangeOrder
  else if m = TEXT_INVALID_SUBNET then some .InvalidSubnet
  else some .InvalidFormat

/-- The kind reported by the partial address validator. -/
def ipVerdictKind (value : String) : Option ErrorKind :=
  ipKindOfMessage (isIpPartiallyValid value)

/-- `[0-9.]`, the character set of the IPv4 patterns. -/
def isDigitDotC (c : Char) : Bool := isDigitC c || c = '.'

/-! ### Operational semantics of the regex fragment -/

/-- `MMatch r s t`: pattern `r` matches a prefix of `s` leaving suffix `t`;
lookahead inspects `s` without consuming.  Iterations of `star`, and of
`rep` beyond its minimum count, must consume input — this leaves the
recognized language unchanged (empty factors can always be dropped) and
mirrors `parse` exactly. -/
inductive MMatch : Rx → List Char → List Char → Prop where
  | eps (s : List Char) : MMatch .eps s s
  | chr {p : Char → Bool} {c : Char} (t : List Char) (h : p c = true) :
      MMatch (.chr p) (c :: t) t
  | cat {a b : Rx} {s m t : List Char} (h1 : MMatch a s m) (h2 : MMatch b m t) :
      MMatch (.cat a b) s t
  | altL {a b : Rx} {s t : List Char} (h : MMatch a s t) : MMatch (.alt a b) s t
  | altR {a b : Rx} {s t : List Char} (h : MMatch b s t) : MMatch (.alt a b) s t
  | starNil {a : Rx} (s : List Char) : MMatch (.star a) s s
  | starCons {a : Rx} {s m t : List Char} (h1 : MMatch a s m)
      (hlt : m.length < s.length) (h2 : MMatch (.star a) m t) : MMatch (.star a) s t
  | repZ {a : Rx} {hi : Nat} (s : List Char) : MMatch (.rep a 0 hi) s s
  | rep0S {a : Rx} {hi : Nat} {s m t : List Char} (hhi : hi ≠ 0)
      (h1 : MMatch a s m) (hlt : m.length < s.length)
      (h2 : MMatch (.rep a 0 (hi - 1)) m t) : MMatch (.rep a 0 hi) s t
  | repS {a : Rx} {lo hi : Nat} {s m t : List Char} (hlo : lo ≠ 0) (hhi : hi ≠ 0)
      (h1 : MMatch a s m) (h2 : MMatch (.rep a (lo - 1) (hi - 1)) m t) :
      MMatch (.rep a lo hi) s t
  | look {a : Rx} {s m : List Char} (h : MMatch a s m) : MMatch (.look a) s s

/-- Every character consumable by `r` satisfies `p` (conservative,
compositional). -/
def impChars (p : Char → Bool) : Rx → Prop
  | .eps => True
  | .chr q => ∀ c, q c = true → p c = true
  | .cat a b => impChars p a ∧ impChars p b
  | .alt a b => impChars p a ∧ impChars p b
  | .star a => impChars p a
  | .rep a _ _ => impChars p a
  | .look _ => True

/-- Every word of `r` contains a character satisfying `p` (conservative,
compositional). -/
def needP (p : Char → Bool) : Rx → Prop
  | .eps => False
  | .chr q => ∀ c, q c = true → p c = true
  | .cat a b => needP p a ∨ needP p b
  | .alt a b => needP p a ∧ needP p b
  | .star _ => False
  | .rep a lo _ => lo ≠ 0 ∧ needP p a
  | .look _ => False

/-- `r` contains no lookahead node. -/
def lookFree : Rx → Bool
  | .eps => true
  | .chr _ => true
  | .cat a b => lookFree a && lookFree b
  | .alt a b => lookFree a && lookFree b
  | .star a => lookFree a
  | .rep a _ _ => lookFree a
  | .look _ => false

/-- Upper bound on the length a word of `r` can have (`none`: unbounded). -/
def maxLen : Rx → Option Nat
  | .eps => some 0
  | .chr _ => some 1
  | .cat a b =>
    match maxLen a, maxLen b with
    | some x, some y => some (x + y)
    | _, _ => none
  | .alt a b =>
    match maxLen a, maxLen b with
    | some x, some y => some (max x y)
    | _, _ => none
  | .star _ => none
  | .rep a _ hi => (maxLen a).map (fun x => x * hi)
  | .look _ => some 0


/-- The character class of the four non-range `SINGLE_FULL` alternatives. -/
def tokC (c : Char) : Bool := isDigitDotC c || isHexColonC c || c = '/'

/-- The character class of the two range alternatives of `SINGLE_FULL`. -/
def rangeC (c : Char) : Bool := tokC c || isSpaceC c || c = '-'

/-- Shape of one comma item of a `FULL_LIST` match: optional whitespace
around one `SINGLE_FULL` token. -/
def ItemOk (item : List Char) : Prop :=
  ∃ w1 s w2, item = w1 ++ s ++ w2 ∧ (∀ c ∈ w1, isSpaceC c = true) ∧
    (∀ c ∈ w2, isSpaceC c = true) ∧ MMatch SINGLE_FULL s []

/-! ### Split/join and trim lemmas -/

theorem splitCh_ne_nil (sep : Char) (s : List Char) : splitCh sep s ≠ [] := by
  cases s with
  | nil => simp [splitCh]
  | cons c t =>
    simp only [splitCh]
    split
    · simp
    · split <;> simp_all

theorem splitCh_cons_sep (sep : Char) (rest : List Char) :
    splitCh sep (sep :: rest) = [] :: splitCh sep rest := by
  simp [splitCh]

theorem splitCh_append_sep (sep : Char) (p rest : List Char)
    (hp : ∀ c ∈ p, c ≠ sep) :
    splitCh sep (p ++ sep :: rest) = p :: splitCh sep rest := by
  induction p with
  | nil => simp [splitCh]
  | cons c p' ih =>
    have hc : c ≠ sep := hp c (by simp)
    have ih' := ih (fun c hc' => hp c (by simp [hc']))
    simp only [List.cons_append, splitCh, if_neg hc, List.append_eq, ih']

theorem splitCh_no_sep (sep : Char) (p : List Char) (hp : ∀ c ∈ p, c ≠ sep) :
    splitCh sep p = [p] := by
  induction p with
  | nil => simp [splitCh]
  | cons c p' ih =>
    have hc : c ≠ sep := hp c (by simp)
    have ih' := ih (fun c hc' => hp c (by simp [hc']))
    simp only [splitCh, if_neg hc, ih']

theorem splitCh_joinSep (sep : Char) (l : List (List Char)) (hl : l ≠ [])
    (h : ∀ p ∈ l, ∀ c ∈ p, c ≠ sep) :
    splitCh sep (joinSep sep l) = l := by
  induction l with
  | nil => exact absurd rfl hl
  | cons p r ih =>
    cases r with
    | nil => exact splitCh_no_sep sep p (h p (by simp))
    | cons q r' =>
      have step : joinSep sep (p :: q :: r') = p ++ sep :: joinSep sep (q :: r') := rfl
      rw [step, splitCh_append_sep sep _ _ (h p (by simp)),
        ih (by simp) (fun x hx => h x (by simp [hx]))]

theorem joinSep_splitCh (sep : Char) (s : List Char) :
    joinSep sep (splitCh sep s) = s := by
  induction s with
  | nil => simp [splitCh, joinSep]
  | cons c t ih =>
    simp only [splitCh]
    split
    · rename_i hc
      subst hc
      cases h : splitCh c t with
      | nil => exact absurd h (splitCh_ne_nil c t)
      | cons p r => simp [joinSep, ← h, ih]
    · rename_i hc
      cases h : splitCh sep t with
      | nil => exact absurd h (splitCh_ne_nil sep t)
      | cons p r =>
        rw [h] at ih
        cases r with
        | nil => simp only [joinSep] at ih ⊢; simp [ih]
        | cons q r' => simp only [joinSep] at ih ⊢; simp [ih]

theorem mem_of_mem_splitCh {sep : Char} {s p : List Char}
    (hp : p ∈ splitCh sep s) {c : Char} (hc : c ∈ p) : c ∈ s := by
  induction s generalizing p with
  | nil =>
    simp [splitCh] at hp
    subst hp
    simp at hc
  | cons d t ih =>
    by_cases hd : d = sep
    · subst hd
      rw [splitCh_cons_sep] at hp
      rcases List.mem_cons.mp hp with h | h
      · subst h; simp at hc
      · exact List.mem_cons_of_mem d (ih h hc)
    · rcases hsp : splitCh sep t with _ | ⟨q, r⟩
      · exact absurd hsp (splitCh_ne_nil sep t)
      · have hp2 : p ∈ (d :: q) :: r := by simpa [splitCh, hd, hsp] using hp
        rcases List.mem_cons.mp hp2 with h | h
        · subst h
          rcases List.mem_cons.mp hc with h2 | h2
          · simp [h2]
          · exact List.mem_cons_of_mem d (ih (by simp [hsp]) h2)
        · exact List.mem_cons_of_mem d (ih (by simp [hsp, h]) hc)

theorem splitCh_parts_no_sep {sep : Char} {s p : List Char}
    (hp : p ∈ splitCh sep s) : ∀ c ∈ p, c ≠ sep := by
  induction s generalizing p with
  | nil =>
    simp [splitCh] at hp
    subst hp
    simp
  | cons d t ih =>
    by_cases hd : d = sep
    · subst hd
      rw [splitCh_cons_sep] at hp
      rcases List.mem_cons.mp hp with h | h
      · subst h; simp
      · exact ih h
    · rcases hsp : splitCh sep t with _ | ⟨q, r⟩
      · exact absurd hsp (splitCh_ne_nil sep t)
      · have hp2 : p ∈ (d :: q) :: r := by simpa [splitCh, hd, hsp] using hp
        rcases List.mem_cons.mp hp2 with h | h
        · subst h
          intro c hc
          rcases List.mem_cons.mp hc with h2 | h2
          · subst h2; exact hd
          · exact ih (by simp [hsp]) c h2
        · exact ih (by simp [hsp, h])

theorem jsTrim_of_all_space {s : List Char} (h : ∀ c ∈ s, isSpaceC c = true) :
    jsTrim s = [] := by
  unfold jsTrim
  have h1 : s.dropWhile isSpaceC = [] := List.dropWhile_eq_nil_iff.mpr h
  simp [h1]

theorem mem_dropWhile_of_mem {p : Char → Bool} {s : List Char} {c : Char}
    (hc : c ∈ s) (hpc : p c = false) : c ∈ s.dropWhile p := by
  have h0 : c ∈ s.takeWhile p ++ s.dropWhile p := by
    rw [List.takeWhile_append_dropWhile]
    exact hc
  rcases List.mem_append.mp h0 with h1 | h1
  · exact absurd (List.mem_takeWhile_imp h1) (by simp [hpc])
  · exact h1

theorem dropWhile_eq_self_of {p : Char → Bool} {l : List Char}
    (h : ∀ c ∈ l, p c = false) : l.dropWhile p = l := by
  cases l with
  | nil => rfl
  | cons c t => simp [List.dropWhile_cons, h c (by simp)]

theorem jsTrim_of_no_space {s : List Char} (h : ∀ c ∈ s, isSpaceC c = false) :
    jsTrim s = s := by
  unfold jsTrim
  rw [dropWhile_eq_self_of h,
    dropWhile_eq_self_of (fun c hc => h c (by simpa using hc)),
    List.reverse_reverse]

theorem jsTrim_eq_nil_iff {s : List Char} :
    jsTrim s = [] ↔ ∀ c ∈ s, isSpaceC c = true := by
  constructor
  · intro h c hc
    by_contra hcs
    have hcs2 : isSpaceC c = false := by
      cases hb : isSpaceC c
      · rfl
      · exact absurd hb hcs
    have h1 : c ∈ s.dropWhile isSpaceC := mem_dropWhile_of_mem hc hcs2
    unfold jsTrim at h
    have h2 : (s.dropWhile isSpaceC).reverse.dropWhile isSpaceC = [] := by
      simpa using congrArg List.reverse h
    have h3 : c ∈ (s.dropWhile isSpaceC).reverse := by simpa using h1
    have h4 := List.dropWhile_eq_nil_iff.mp h2 c h3
    exact hcs h4
  · exact jsTrim_of_all_space

theorem mem_jsTrim_of_nonspace {s : List Char} {c : Char} (hc : c ∈ s)
    (hcs : isSpaceC c = false) : c ∈ jsTrim s := by
  unfold jsTrim
  have h1 : c ∈ s.dropWhile isSpaceC := mem_dropWhile_of_mem hc hcs
  have h2 : c ∈ (s.dropWhile isSpaceC).reverse := by simpa using h1
  have h3 := mem_dropWhile_of_mem h2 hcs
  simpa using h3

/-! ### MAC structure characterizations -/

theorem isEmpty_false_iff {A : Type} {l : List A} : l.isEmpty = false ↔ l ≠ [] := by
  cases l <;> simp



theorem hexC_not_dash {c : Char} (h : isHexC c = true) : c ≠ '-' := by
  rintro rfl
  exact absurd h (by decide)

theorem hex2Ok_parts {g : List Char} (h : hex2Ok g = true) :
    g ≠ [] ∧ ∀ c ∈ g, isHexC c = true := by
  unfold hex2Ok at h
  rw [Bool.and_eq_true] at h
  obtain ⟨h1, h2⟩ := h
  refine ⟨?_, ?_⟩
  · rintro rfl; simp at h1
  · intro c hc
    exact List.all_eq_true.mp h2 c hc

theorem hex12Ok_chars {g : List Char} (h : hex12Ok g = true) :
    ∀ c ∈ g, isHexC c = true := by
  unfold hex12Ok at h
  rw [Bool.and_eq_true] at h
  intro c hc
  exact List.all_eq_true.mp h.2 c hc

/-- A full single MAC is exactly six dash-separated two-hex-digit groups. -/
theorem isSingleMacFullOk_iff (t : List Char) :
    isSingleMacFullOk t = true ↔
      ∃ groups : List (List Char), jsTrim t = joinSep '-' groups ∧
        groups.length = 6 ∧ ∀ g ∈ groups, hex2Ok g = true := by
  unfold isSingleMacFullOk
  constructor
  · intro h
    simp only [Bool.and_eq_true, decide_eq_true_eq, List.all_eq_true,
      Bool.not_eq_true', isEmpty_false_iff] at h
    obtain ⟨hne, hlen, hall⟩ := h
    exact ⟨splitCh '-' (jsTrim t), (joinSep_splitCh '-' (jsTrim t)).symm, hlen, hall⟩
  · rintro ⟨groups, hjoin, hlen, hall⟩
    have hgne : groups ≠ [] := by rintro rfl; simp at hlen
    have hsplit : splitCh '-' (jsTrim t) = groups := by
      rw [hjoin]
      exact splitCh_joinSep '-' groups hgne
        (fun p hp c hc => hexC_not_dash ((hex2Ok_parts (hall p hp)).2 c hc))
    have hne : jsTrim t ≠ [] := by
      rw [hjoin]
      cases groups with
      | nil => simp at hlen
      | cons g rest =>
        have hg := (hex2Ok_parts (hall g (by simp))).1
        cases rest with
        | nil => simpa [joinSep] using hg
        | cons q r =>
          cases g with
          | nil => exact absurd rfl hg
          | cons c gs => simp [joinSep]
    simp only [Bool.and_eq_true, decide_eq_true_eq, List.all_eq_true,
      Bool.not_eq_true', isEmpty_false_iff, hsplit]
    exact ⟨hne, hlen, hall⟩

theorem macSegsOk_append (gs : List (List Char)) (last : List Char) :
    macSegsOk (gs ++ [last]) = true ↔
      (∀ g ∈ gs, g ≠ [] ∧ hex2Ok g = true) ∧
        (last = [] ∨ hex12Ok last = true) := by
  induction gs with
  | nil =>
    simp only [List.nil_append, macSegsOk, Bool.or_eq_true, List.isEmpty_iff]
    simp
  | cons g gs' ih =>
    have step : macSegsOk (g :: (gs' ++ [last])) =
        (!g.isEmpty && hex2Ok g && macSegsOk (gs' ++ [last])) := by
      cases gs' <;> rfl
    rw [List.cons_append, step]
    simp only [Bool.and_eq_true, Bool.not_eq_true', isEmpty_false_iff, ih]
    constructor
    · rintro ⟨⟨h1, h2⟩, h3, h4⟩
      refine ⟨?_, h4⟩
      intro x hx
      rcases List.mem_cons.mp hx with h | h
      · subst h; exact ⟨h1, h2⟩
      · exact h3 x h
    · rintro ⟨h1, h2⟩
      exact ⟨⟨(h1 g (by simp)).1, (h1 g (by simp)).2⟩,
        fun x hx => h1 x (by simp [hx]), h2⟩

/-- A partial single MAC is empty, or one to six dash-separated groups of
which all but the last are two hex digits and the last is empty or one to
two hex digits. -/
theorem isSingleMacPartialOk_iff (t : List Char) :
    isSingleMacPartialOk t = true ↔
      jsTrim t = [] ∨
        ∃ gs last, jsTrim t = joinSep '-' (gs ++ [last]) ∧
          gs.length + 1 ≤ 6 ∧ (∀ g ∈ gs, g ≠ [] ∧ hex2Ok g = true) ∧
          (last = [] ∨ hex12Ok last = true) := by
  unfold isSingleMacPartialOk
  by_cases he : jsTrim t = []
  · simp [he]
  · simp only [he, List.isEmpty_iff, Bool.or_eq_true, false_or,
      Bool.and_eq_true, decide_eq_true_eq]
    constructor
    · rintro ⟨hlen, hsegs⟩
      have hpne : splitCh '-' (jsTrim t) ≠ [] := splitCh_ne_nil _ _
      obtain ⟨init, last, hil⟩ : ∃ init last,
          splitCh '-' (jsTrim t) = init ++ [last] :=
        ⟨(splitCh '-' (jsTrim t)).dropLast, (splitCh '-' (jsTrim t)).getLast hpne,
          (List.dropLast_append_getLast hpne).symm⟩
      rw [hil] at hlen hsegs
      rcases (macSegsOk_append init last).mp hsegs with ⟨h1, h2⟩
      refine ⟨init, last, ?_, ?_, h1, h2⟩
      · rw [← hil]
        exact (joinSep_splitCh '-' (jsTrim t)).symm
      · simpa using hlen
    · rintro ⟨gs, last, hj, hlen, hgs, hlast⟩
      have hnosep : ∀ p ∈ gs ++ [last], ∀ c ∈ p, c ≠ '-' := by
        intro p hp c hc
        rcases List.mem_append.mp hp with h | h
        · exact hexC_not_dash ((hex2Ok_parts ((hgs p h).2)).2 c hc)
        · rcases List.mem_singleton.mp h with rfl
          rcases hlast with h2 | h2
          · subst h2; simp at hc
          · exact hexC_not_dash (hex12Ok_chars h2 c hc)
      have hsplit : splitCh '-' (jsTrim t) = gs ++ [last] := by
        rw [hj]
        exact splitCh_joinSep '-' (gs ++ [last]) (by simp) hnosep
      rw [hsplit]
      refine ⟨by simpa using hlen, (macSegsOk_append gs last).mpr ⟨hgs, hlast⟩⟩

theorem macItemsOk_append (init : List (List Char)) (last : List Char) :
    macItemsOk (init ++ [last]) = true ↔
      (∀ raw ∈ init, isSingleMacFullOk (jsTrim raw) = true) ∧
        (jsTrim last = [] ∨ isSingleMacPartialOk (jsTrim last) = true) := by
  induction init with
  | nil =>
    simp only [List.nil_append, macItemsOk, Bool.or_eq_true, List.isEmpty_iff]
    simp
  | cons raw init' ih =>
    have step : macItemsOk (raw :: (init' ++ [last])) =
        (isSingleMacFullOk (jsTrim raw) && macItemsOk (init' ++ [last])) := by
      cases init' <;> rfl
    rw [List.cons_append, step]
    simp only [Bool.and_eq_true, ih]
    constructor
    · rintro ⟨h1, h2, h3⟩
      refine ⟨?_, h3⟩
      intro x hx
      rcases List.mem_cons.mp hx with h | h
      · subst h; exact h1
      · exact h2 x h
    · rintro ⟨h1, h2⟩
      exact ⟨h1 raw (by simp), fun x hx => h1 x (by simp [hx]), h2⟩

/-- The full MAC list validator, characterized item-wise: no item may be
empty (in particular no trailing comma), every item a full MAC. -/
theorem isMacValid_iff (value : String) :
    isMacValid value = true ↔
      jsTrim value.data = [] ∨
        ∀ raw ∈ splitCh ',' value.data,
          jsTrim raw ≠ [] ∧ isSingleMacFullOk (jsTrim raw) = true := by
  unfold isMacValid
  by_cases he : jsTrim value.data = []
  · simp [he]
  · simp only [he, if_false, List.all_eq_true, false_or, Bool.and_eq_true,
      Bool.not_eq_true', isEmpty_false_iff]

/-- The partial MAC verdict is empty exactly when the full validator accepts
or the item battery (`macItemsOk`) accepts. -/
theorem isMacPartiallyValid_empty_iff (value : String)
    (h : jsTrim value.data ≠ []) :
    isMacPartiallyValid value = "" ↔
      isMacValid value = true ∨ macItemsOk (splitCh ',' value.data) = true := by
  have hpa : isMacPartialAllowed value.data = macItemsOk (splitCh ',' value.data) := by
    unfold isMacPartialAllowed
    simp [h]
  by_cases h2 : isMacValid value = true
  · simp [isMacPartiallyValid, h, h2]
  · by_cases h3 : macItemsOk (splitCh ',' value.data) = true
    · simp [isMacPartiallyValid, h, h2, hpa, h3]
    · have h2f : isMacValid value = false := by
        cases hb : isMacValid value
        · rfl
        · exact absurd hb h2
      have hne : isMacPartiallyValid value ≠ "" := by
        simp only [isMacPartiallyValid]
        simp only [h, if_false, h2f, Bool.false_eq_true, hpa, h3]
        split
        · decide
        · split
          · decide
          · decide
      simp [hne, h2f, h3]

/-! ### Claim C1: monotonicity of strictness -/

/-- Full-IP acceptance short-circuits the partial validator. -/
theorem ip_full_implies_partial_valid (value : String) (h : isIpValid value = true) :
    isIpPartiallyValid value = "" := by
  unfold isIpPartiallyValid
  by_cases he : jsTrim value.data = []
  · simp [he]
  · simp [he, h]

/-- Full-MAC acceptance short-circuits the partial validator. -/
theorem mac_full_implies_partial_valid (value : String) (h : isMacValid value = true) :
    isMacPartiallyValid value = "" := by
  unfold isMacPartiallyValid
  by_cases he : jsTrim value.data = []
  · simp [he]
  · simp [he, h]

/-- **C1.** Monotonicity of strictness: every input accepted by the full
validator is accepted by the partial validator, for the IP pair
(`isIpValid` / `isIpPartiallyValid`) and the MAC pair
(`isMacValid` / `isMacPartiallyValid`). -/
theorem C1_full_valid_implies_partial_valid (value : String) :
    (isIpValid value = true → isIpPartiallyValid value = "") ∧
      (isMacValid value = true → isMacPartiallyValid value = "") :=
  ⟨ip_full_implies_partial_valid value, mac_full_implies_partial_valid value⟩

/-- Witness for C1 at the concrete inputs `"192.168.1.1"` and
`"AA-BB-CC-DD-EE-FF"`. -/
theorem C1_witness :
    isIpPartiallyValid "192.168.1.1" = "" ∧
      isMacPartiallyValid "AA-BB-CC-DD-EE-FF" = "" :=
  ⟨(C1_full_valid_implies_partial_valid "192.168.1.1").1 (by decide),
  (C1_full_valid_implies_partial_valid "AA-BB-CC-DD-EE-FF").2 (by decide)⟩

/-! ### Soundness and completeness of the recognizer -/

theorem mmatch_length {r : Rx} {s t : List Char} (h : MMatch r s t) :
    t.length ≤ s.length := by
  induction h with
  | eps s => exact le_rfl
  | chr t h => simp
  | cat h1 h2 ih1 ih2 => omega
  | altL h ih => exact ih
  | altR h ih => exact ih
  | starNil s => exact le_rfl
  | starCons h1 hlt h2 ih1 ih2 => omega
  | repZ s => exact le_rfl
  | rep0S hhi h1 hlt h2 ih1 ih2 => omega
  | repS hlo hhi h1 h2 ih1 ih2 => omega
  | look h ih => exact le_rfl

theorem mmatch_suffix {r : Rx} {s t : List Char} (h : MMatch r s t) :
    ∃ u, s = u ++ t := by
  induction h with
  | eps s => exact ⟨[], rfl⟩
  | chr t h => exact ⟨[_], rfl⟩
  | cat h1 h2 ih1 ih2 =>
    obtain ⟨u1, hu1⟩ := ih1
    obtain ⟨u2, hu2⟩ := ih2
    exact ⟨u1 ++ u2, by simp [hu1, hu2]⟩
  | altL h ih => exact ih
  | altR h ih => exact ih
  | starNil s => exact ⟨[], rfl⟩
  | starCons h1 hlt h2 ih1 ih2 =>
    obtain ⟨u1, hu1⟩ := ih1
    obtain ⟨u2, hu2⟩ := ih2
    exact ⟨u1 ++ u2, by simp [hu1, hu2]⟩
  | repZ s => exact ⟨[], rfl⟩
  | rep0S hhi h1 hlt h2 ih1 ih2 =>
    obtain ⟨u1, hu1⟩ := ih1
    obtain ⟨u2, hu2⟩ := ih2
    exact ⟨u1 ++ u2, by simp [hu1, hu2]⟩
  | repS hlo hhi h1 h2 ih1 ih2 =>
    obtain ⟨u1, hu1⟩ := ih1
    obtain ⟨u2, hu2⟩ := ih2
    exact ⟨u1 ++ u2, by simp [hu1, hu2]⟩
  | look h ih => exact ⟨[], rfl⟩

theorem parse_eps (n : Nat) (s : List Char) : parse (n + 1) .eps s = [s] := rfl

theorem parse_chr_nil (n : Nat) (p : Char → Bool) : parse (n + 1) (.chr p) [] = [] := rfl

theorem parse_chr (n : Nat) (p : Char → Bool) (c : Char) (t : List Char) :
    parse (n + 1) (.chr p) (c :: t) = if p c = true then [t] else [] := rfl

theorem parse_cat (n : Nat) (a b : Rx) (s : List Char) :
    parse (n + 1) (.cat a b) s = (parse n a s).flatMap (fun t => parse n b t) := rfl

theorem parse_alt (n : Nat) (a b : Rx) (s : List Char) :
    parse (n + 1) (.alt a b) s = parse n a s ++ parse n b s := rfl

theorem parse_star (n : Nat) (a : Rx) (s : List Char) :
    parse (n + 1) (.star a) s
      = s :: ((parse n a s).filter (fun t => t.length < s.length)).flatMap
          (fun t => parse n (.star a) t) := rfl

theorem parse_rep00 (n : Nat) (a : Rx) (s : List Char) :
    parse (n + 1) (.rep a 0 0) s = [s] := rfl

theorem parse_rep0 (n : Nat) (a : Rx) (hi : Nat) (s : List Char) (hhi : hi ≠ 0) :
    parse (n + 1) (.rep a 0 hi) s
      = s :: ((parse n a s).filter (fun t => t.length < s.length)).flatMap
          (fun t => parse n (.rep a 0 (hi - 1)) t) := by
  simp [parse, hhi]

theorem parse_repS (n : Nat) (a : Rx) (lo hi : Nat) (s : List Char)
    (hlo : lo ≠ 0) (hhi : hi ≠ 0) :
    parse (n + 1) (.rep a lo hi) s
      = (parse n a s).flatMap (fun t => parse n (.rep a (lo - 1) (hi - 1)) t) := by
  simp [parse, hlo, hhi]

theorem parse_repS0 (n : Nat) (a : Rx) (lo : Nat) (s : List Char) (hlo : lo ≠ 0) :
    parse (n + 1) (.rep a lo 0) s = [] := by
  simp [parse, hlo]

theorem parse_look (n : Nat) (a : Rx) (s : List Char) :
    parse (n + 1) (.look a) s
      = if (parse n a s).isEmpty = true then [] else [s] := rfl

theorem parse_sound : ∀ (n : Nat) (r : Rx) (s t : List Char),
    t ∈ parse n r s → MMatch r s t := by
  intro n
  induction n with
  | zero =>
    intro r s t h
    simp [parse] at h
  | succ n ih =>
    intro r s t h
    cases r with
    | eps =>
      rw [parse_eps] at h
      obtain rfl := List.mem_singleton.mp h
      exact .eps _
    | chr p =>
      cases s with
      | nil =>
        rw [parse_chr_nil] at h
        simp at h
      | cons c s2 =>
        rw [parse_chr] at h
        by_cases hc : p c = true
        · rw [if_pos hc] at h
          obtain rfl := List.mem_singleton.mp h
          exact .chr _ hc
        · rw [if_neg hc] at h
          simp at h
    | cat a b =>
      rw [parse_cat] at h
      obtain ⟨m, hm, ht⟩ := List.mem_flatMap.mp h
      exact .cat (ih a s m hm) (ih b m t ht)
    | alt a b =>
      rw [parse_alt] at h
      rcases List.mem_append.mp h with h | h
      · exact .altL (ih a s t h)
      · exact .altR (ih b s t h)
    | star a =>
      rw [parse_star] at h
      rcases List.mem_cons.mp h with h | h
      · subst h
        exact .starNil _
      · obtain ⟨m, hm2, ht⟩ := List.mem_flatMap.mp h
        have hm := List.mem_filter.mp hm2
        exact .starCons (ih a s m hm.1) (by simpa using hm.2) (ih _ m t ht)
    | rep a lo hi =>
      by_cases hlo : lo = 0
      · subst hlo
        by_cases hhi : hi = 0
        · subst hhi
          rw [parse_rep00] at h
          obtain rfl := List.mem_singleton.mp h
          exact .repZ _
        · rw [parse_rep0 n a hi s hhi] at h
          rcases List.mem_cons.mp h with h | h
          · subst h
            exact .repZ _
          · obtain ⟨m, hm2, ht⟩ := List.mem_flatMap.mp h
            have hm := List.mem_filter.mp hm2
            exact .rep0S hhi (ih a s m hm.1) (by simpa using hm.2) (ih _ m t ht)
      · by_cases hhi : hi = 0
        · subst hhi
          rw [parse_repS0 n a lo s hlo] at h
          simp at h
        · rw [parse_repS n a lo hi s hlo hhi] at h
          obtain ⟨m, hm, ht⟩ := List.mem_flatMap.mp h
          exact .repS hlo hhi (ih a s m hm) (ih _ m t ht)
    | look a =>
      rw [parse_look] at h
      by_cases he : (parse n a s).isEmpty = true
      · rw [if_pos he] at h
        simp at h
      · rw [if_neg he] at h
        have hne : parse n a s ≠ [] := by
          cases hp : parse n a s
          · rw [hp] at he
            simp at he
          · simp
        obtain ⟨m, hm⟩ := List.exists_mem_of_ne_nil _ hne
        obtain rfl := List.mem_singleton.mp h
        exact .look (ih a _ m hm)

theorem one_le_fuelFor (r : Rx) (s : List Char) : 1 ≤ fuelFor r s := by
  unfold fuelFor
  exact Nat.one_le_iff_ne_zero.mpr (Nat.mul_ne_zero (by omega) (by omega))

theorem fuelFor_cat_l (a b : Rx) (s : List Char) :
    fuelFor a s + 1 ≤ fuelFor (.cat a b) s := by
  unfold fuelFor
  have hr : rsize (Rx.cat a b) = rsize a + rsize b + 1 := rfl
  rw [hr]
  have h1 : 1 ≤ (rsize b + 1) * (s.length + 1) :=
    Nat.one_le_iff_ne_zero.mpr (Nat.mul_ne_zero (by omega) (by omega))
  have h2 : (rsize a + rsize b + 1 + 1) * (s.length + 1)
      = (rsize a + 1) * (s.length + 1) + (rsize b + 1) * (s.length + 1) := by ring
  omega

theorem fuelFor_cat_r (a b : Rx) (s m : List Char) (hm : m.length ≤ s.length) :
    fuelFor b m + 1 ≤ fuelFor (.cat a b) s := by
  unfold fuelFor
  have hr : rsize (Rx.cat a b) = rsize a + rsize b + 1 := rfl
  rw [hr]
  have h0 : (rsize b + 1) * (m.length + 1) ≤ (rsize b + 1) * (s.length + 1) :=
    Nat.mul_le_mul_left _ (by omega)
  have h1 : 1 ≤ (rsize a + 1) * (s.length + 1) :=
    Nat.one_le_iff_ne_zero.mpr (Nat.mul_ne_zero (by omega) (by omega))
  have h2 : (rsize a + rsize b + 1 + 1) * (s.length + 1)
      = (rsize a + 1) * (s.length + 1) + (rsize b + 1) * (s.length + 1) := by ring
  omega

theorem fuelFor_alt_l (a b : Rx) (s : List Char) :
    fuelFor a s + 1 ≤ fuelFor (.alt a b) s := by
  unfold fuelFor
  have hr : rsize (Rx.alt a b) = rsize a + rsize b + 1 := rfl
  rw [hr]
  have h1 : 1 ≤ (rsize b + 1) * (s.length + 1) :=
    Nat.one_le_iff_ne_zero.mpr (Nat.mul_ne_zero (by omega) (by omega))
  have h2 : (rsize a + rsize b + 1 + 1) * (s.length + 1)
      = (rsize a + 1) * (s.length + 1) + (rsize b + 1) * (s.length + 1) := by ring
  omega

theorem fuelFor_alt_r (a b : Rx) (s : List Char) :
    fuelFor b s + 1 ≤ fuelFor (.alt a b) s := by
  unfold fuelFor
  have hr : rsize (Rx.alt a b) = rsize a + rsize b + 1 := rfl
  rw [hr]
  have h1 : 1 ≤ (rsize a + 1) * (s.length + 1) :=
    Nat.one_le_iff_ne_zero.mpr (Nat.mul_ne_zero (by omega) (by omega))
  have h2 : (rsize a + rsize b + 1 + 1) * (s.length + 1)
      = (rsize a + 1) * (s.length + 1) + (rsize b + 1) * (s.length + 1) := by ring
  omega

theorem fuelFor_star_inner (a : Rx) (s : List Char) :
    fuelFor a s + 1 ≤ fuelFor (.star a) s := by
  unfold fuelFor
  have hr : rsize (Rx.star a) = rsize a + 1 := rfl
  rw [hr]
  have h2 : (rsize a + 1 + 1) * (s.length + 1)
      = (rsize a + 1) * (s.length + 1) + (s.length + 1) := by ring
  omega

theorem fuelFor_star_rec (a : Rx) (s m : List Char) (hm : m.length < s.length) :
    fuelFor (.star a) m + 1 ≤ fuelFor (.star a) s := by
  unfold fuelFor
  have h0 : (rsize (Rx.star a) + 1) * (m.length + 1 + 1)
      ≤ (rsize (Rx.star a) + 1) * (s.length + 1) :=
    Nat.mul_le_mul_left _ (by omega)
  have h2 : (rsize (Rx.star a) + 1) * (m.length + 1 + 1)
      = (rsize (Rx.star a) + 1) * (m.length + 1) + (rsize (Rx.star a) + 1) := by ring
  omega

theorem fuelFor_look_inner (a : Rx) (s : List Char) :
    fuelFor a s + 1 ≤ fuelFor (.look a) s := by
  unfold fuelFor
  have hr : rsize (Rx.look a) = rsize a + 1 := rfl
  rw [hr]
  have h2 : (rsize a + 1 + 1) * (s.length + 1)
      = (rsize a + 1) * (s.length + 1) + (s.length + 1) := by ring
  omega

theorem fuelFor_rep_inner (a : Rx) (lo hi : Nat) (s : List Char) :
    fuelFor a s + 1 ≤ fuelFor (.rep a lo hi) s := by
  unfold fuelFor
  have hr : rsize (Rx.rep a lo hi) = (rsize a + 1) * (hi + 1) + 1 := rfl
  rw [hr]
  have h0 : (rsize a + 1) * 1 * (s.length + 1)
      ≤ (rsize a + 1) * (hi + 1) * (s.length + 1) :=
    Nat.mul_le_mul_right _ (Nat.mul_le_mul_left _ (by omega))
  have h1 : (rsize a + 1) * 1 * (s.length + 1) = (rsize a + 1) * (s.length + 1) := by
    ring
  have h2 : ((rsize a + 1) * (hi + 1) + 1 + 1) * (s.length + 1)
      = (rsize a + 1) * (hi + 1) * (s.length + 1) + 2 * (s.length + 1) := by ring
  omega

theorem fuelFor_rep0_rec (a : Rx) (hi : Nat) (s m : List Char)
    (hm : m.length < s.length) :
    fuelFor (.rep a 0 (hi - 1)) m + 1 ≤ fuelFor (.rep a 0 hi) s := by
  unfold fuelFor
  have hr1 : rsize (Rx.rep a 0 (hi - 1)) = (rsize a + 1) * (hi - 1 + 1) + 1 := rfl
  have hr2 : rsize (Rx.rep a 0 hi) = (rsize a + 1) * (hi + 1) + 1 := rfl
  rw [hr1, hr2]
  have hx : (rsize a + 1) * (hi - 1 + 1) ≤ (rsize a + 1) * (hi + 1) :=
    Nat.mul_le_mul_left _ (by omega)
  have h0 : ((rsize a + 1) * (hi - 1 + 1) + 1 + 1) * (m.length + 1 + 1)
      ≤ ((rsize a + 1) * (hi + 1) + 1 + 1) * (s.length + 1) :=
    Nat.mul_le_mul (by omega) (by omega)
  have h2 : ((rsize a + 1) * (hi - 1 + 1) + 1 + 1) * (m.length + 1 + 1)
      = ((rsize a + 1) * (hi - 1 + 1) + 1 + 1) * (m.length + 1)
        + ((rsize a + 1) * (hi - 1 + 1) + 1 + 1) := by ring
  omega

theorem fuelFor_rep_rec (a : Rx) (lo hi : Nat) (hhi : hi ≠ 0) (s m : List Char)
    (hm : m.length ≤ s.length) :
    fuelFor (.rep a (lo - 1) (hi - 1)) m + 1 ≤ fuelFor (.rep a lo hi) s := by
  unfold fuelFor
  have hr1 : rsize (Rx.rep a (lo - 1) (hi - 1)) = (rsize a + 1) * (hi - 1 + 1) + 1 := rfl
  have hr2 : rsize (Rx.rep a lo hi) = (rsize a + 1) * (hi + 1) + 1 := rfl
  rw [hr1, hr2]
  have hx : (rsize a + 1) * (hi - 1 + 1) + (rsize a + 1) = (rsize a + 1) * (hi + 1) := by
    have : hi - 1 + 1 = hi := by omega
    rw [this]
    ring
  have h0 : ((rsize a + 1) * (hi - 1 + 1) + 1 + 1) * (m.length + 1)
      ≤ ((rsize a + 1) * (hi - 1 + 1) + 1 + 1) * (s.length + 1) :=
    Nat.mul_le_mul_left _ (by omega)
  have h1 : ((rsize a + 1) * (hi + 1) + 1 + 1) * (s.length + 1)
      = ((rsize a + 1) * (hi - 1 + 1) + 1 + 1) * (s.length + 1)
        + (rsize a + 1) * (s.length + 1) := by
    rw [← hx]
    ring
  have h3 : 1 ≤ (rsize a + 1) * (s.length + 1) :=
    Nat.one_le_iff_ne_zero.mpr (Nat.mul_ne_zero (by omega) (by omega))
  omega

theorem parse_complete {r : Rx} {s t : List Char} (h : MMatch r s t) :
    ∀ n, fuelFor r s ≤ n → t ∈ parse n r s := by
  induction h with
  | eps s =>
    intro n hn
    have h1 := one_le_fuelFor Rx.eps s
    cases n with
    | zero => omega
    | succ n2 => simp [parse]
  | chr t hc =>
    intro n hn
    rename_i p c
    have h1 := one_le_fuelFor (Rx.chr p) (c :: t)
    cases n with
    | zero => omega
    | succ n2 => simp [parse, hc]
  | cat h1 h2 ih1 ih2 =>
    intro n hn
    rename_i a b s m t
    have hp := one_le_fuelFor (Rx.cat a b) s
    cases n with
    | zero => omega
    | succ n2 =>
      have hm := mmatch_length h1
      have ha : fuelFor a s ≤ n2 := by
        have := fuelFor_cat_l a b s
        omega
      have hb : fuelFor b m ≤ n2 := by
        have := fuelFor_cat_r a b s m hm
        omega
      simp only [parse, List.mem_flatMap]
      exact ⟨m, ih1 n2 ha, ih2 n2 hb⟩
  | altL h ih =>
    intro n hn
    rename_i a b s t
    have hp := one_le_fuelFor (Rx.alt a b) s
    cases n with
    | zero => omega
    | succ n2 =>
      have ha : fuelFor a s ≤ n2 := by
        have := fuelFor_alt_l a b s
        omega
      simp only [parse, List.mem_append]
      exact Or.inl (ih n2 ha)
  | altR h ih =>
    intro n hn
    rename_i a b s t
    have hp := one_le_fuelFor (Rx.alt a b) s
    cases n with
    | zero => omega
    | succ n2 =>
      have hb : fuelFor b s ≤ n2 := by
        have := fuelFor_alt_r a b s
        omega
      simp only [parse, List.mem_append]
      exact Or.inr (ih n2 hb)
  | starNil s =>
    intro n hn
    rename_i a
    have hp := one_le_fuelFor (Rx.star a) s
    cases n with
    | zero => omega
    | succ n2 => simp [parse]
  | starCons h1 hlt h2 ih1 ih2 =>
    intro n hn
    rename_i a s m t
    have hp := one_le_fuelFor (Rx.star a) s
    cases n with
    | zero => omega
    | succ n2 =>
      have ha : fuelFor a s ≤ n2 := by
        have := fuelFor_star_inner a s
        omega
      have hs : fuelFor (Rx.star a) m ≤ n2 := by
        have := fuelFor_star_rec a s m hlt
        omega
      simp only [parse, List.mem_cons, List.mem_flatMap, List.mem_filter,
        decide_eq_true_eq]
      exact Or.inr ⟨m, ⟨ih1 n2 ha, hlt⟩, ih2 n2 hs⟩
  | repZ s =>
    intro n hn
    rename_i a hi
    have hp := one_le_fuelFor (Rx.rep a 0 hi) s
    cases n with
    | zero => omega
    | succ n2 =>
      by_cases hhi : hi = 0
      · subst hhi
        simp [parse]
      · simp [parse, hhi]
  | rep0S hhi h1 hlt h2 ih1 ih2 =>
    intro n hn
    rename_i a hi s m t
    have hp := one_le_fuelFor (Rx.rep a 0 hi) s
    cases n with
    | zero => omega
    | succ n2 =>
      have ha : fuelFor a s ≤ n2 := by
        have := fuelFor_rep_inner a 0 hi s
        omega
      have hs : fuelFor (Rx.rep a 0 (hi - 1)) m ≤ n2 := by
        have := fuelFor_rep0_rec a hi s m hlt
        omega
      rw [parse_rep0 n2 a hi s hhi]
      exact List.mem_cons_of_mem _ (List.mem_flatMap.mpr
        ⟨m, List.mem_filter.mpr ⟨ih1 n2 ha, by simpa using hlt⟩, ih2 n2 hs⟩)
  | repS hlo hhi h1 h2 ih1 ih2 =>
    intro n hn
    rename_i a lo hi s m t
    have hp := one_le_fuelFor (Rx.rep a lo hi) s
    cases n with
    | zero => omega
    | succ n2 =>
      have hm := mmatch_length h1
      have ha : fuelFor a s ≤ n2 := by
        have := fuelFor_rep_inner a lo hi s
        omega
      have hs : fuelFor (Rx.rep a (lo - 1) (hi - 1)) m ≤ n2 := by
        have := fuelFor_rep_rec a lo hi hhi s m hm
        omega
      simp only [parse, if_neg hlo, if_neg hhi, List.mem_flatMap]
      exact ⟨m, ih1 n2 ha, ih2 n2 hs⟩
  | look h ih =>
    intro n hn
    rename_i a s m
    have hp := one_le_fuelFor (Rx.look a) s
    cases n with
    | zero => omega
    | succ n2 =>
      have ha : fuelFor a s ≤ n2 := by
        have := fuelFor_look_inner a s
        omega
      have hmem := ih n2 ha
      have hne : (parse n2 a s).isEmpty = false := by
        cases hp2 : parse n2 a s
        · rw [hp2] at hmem
          simp at hmem
        · simp [hp2]
      simp [parse, hne]

/-- `rmatch` recognizes exactly the whole-string matches of the
operational semantics. -/
theorem rmatch_iff {r : Rx} {s : List Char} :
    rmatch r s = true ↔ MMatch r s [] := by
  unfold rmatch
  constructor
  · intro h
    obtain ⟨t, ht, hte⟩ := List.any_eq_true.mp h
    have he : t = [] := by
      cases t
      · rfl
      · simp at hte
    subst he
    exact parse_sound _ _ _ _ ht
  · intro h
    exact List.any_eq_true.mpr ⟨[], parse_complete h _ le_rfl, rfl⟩

/-! ### Generic word lemmas -/

theorem append_cancel_l {A : Type} : ∀ (a b c : List A), a ++ b = a ++ c → b = c := by
  intro a
  induction a with
  | nil => intro b c h; simpa using h
  | cons x a ih =>
    intro b c h
    simp only [List.cons_append, List.cons.injEq, true_and] at h
    exact ih b c h

theorem append_cancel_r {A : Type} {u v t : List A} (h : u ++ t = v ++ t) : u = v := by
  have h2 : t.reverse ++ u.reverse = t.reverse ++ v.reverse := by
    have := congrArg List.reverse h
    simpa using this
  have h3 := append_cancel_l t.reverse u.reverse v.reverse h2
  have := congrArg List.reverse h3
  simpa using this

theorem eq_nil_of_append_eq_self {A : Type} {u t : List A} (h : u ++ t = t) : u = [] := by
  have hl := congrArg List.length h
  simp at hl
  exact hl

theorem eq_singleton_of_append {A : Type} {u t : List A} {c : A}
    (h : u ++ t = c :: t) : u = [c] := by
  cases u with
  | nil =>
    have hl := congrArg List.length h
    simp at hl
  | cons x u2 =>
    simp only [List.cons_append, List.cons.injEq] at h
    obtain ⟨rfl, h2⟩ := h
    rw [eq_nil_of_append_eq_self h2]

/-- Characters consumed by a match all satisfy `p` when `impChars p r`. -/
theorem chars_of_match {p : Char → Bool} :
    ∀ {r s t}, MMatch r s t → impChars p r →
      ∃ u, s = u ++ t ∧ ∀ c ∈ u, p c = true := by
  intro r s t h
  induction h with
  | eps s => exact fun _ => ⟨[], rfl, by simp⟩
  | chr t hpc =>
    intro himp
    refine ⟨[_], rfl, ?_⟩
    intro c hc
    rcases List.mem_singleton.mp hc with rfl
    exact himp _ hpc
  | cat h1 h2 ih1 ih2 =>
    intro himp
    obtain ⟨u1, hu1, hc1⟩ := ih1 himp.1
    obtain ⟨u2, hu2, hc2⟩ := ih2 himp.2
    refine ⟨u1 ++ u2, by simp [hu1, hu2], ?_⟩
    intro c hc
    rcases List.mem_append.mp hc with h | h
    · exact hc1 c h
    · exact hc2 c h
  | altL h ih => exact fun himp => ih himp.1
  | altR h ih => exact fun himp => ih himp.2
  | starNil s => exact fun _ => ⟨[], rfl, by simp⟩
  | starCons h1 hlt h2 ih1 ih2 =>
    intro himp
    obtain ⟨u1, hu1, hc1⟩ := ih1 himp
    obtain ⟨u2, hu2, hc2⟩ := ih2 himp
    refine ⟨u1 ++ u2, by simp [hu1, hu2], ?_⟩
    intro c hc
    rcases List.mem_append.mp hc with h | h
    · exact hc1 c h
    · exact hc2 c h
  | repZ s => exact fun _ => ⟨[], rfl, by simp⟩
  | rep0S hhi h1 hlt h2 ih1 ih2 =>
    intro himp
    obtain ⟨u1, hu1, hc1⟩ := ih1 himp
    obtain ⟨u2, hu2, hc2⟩ := ih2 himp
    refine ⟨u1 ++ u2, by simp [hu1, hu2], ?_⟩
    intro c hc
    rcases List.mem_append.mp hc with h | h
    · exact hc1 c h
    · exact hc2 c h
  | repS hlo hhi h1 h2 ih1 ih2 =>
    intro himp
    obtain ⟨u1, hu1, hc1⟩ := ih1 himp
    obtain ⟨u2, hu2, hc2⟩ := ih2 himp
    refine ⟨u1 ++ u2, by simp [hu1, hu2], ?_⟩
    intro c hc
    rcases List.mem_append.mp hc with h | h
    · exact hc1 c h
    · exact hc2 c h
  | look h ih => exact fun _ => ⟨[], rfl, by simp⟩

/-- A match of a pattern with `needP p r` consumes some character
satisfying `p`. -/
theorem need_of_match {p : Char → Bool} :
    ∀ {r s t}, MMatch r s t → needP p r →
      ∃ u, s = u ++ t ∧ ∃ c ∈ u, p c = true := by
  intro r s t h
  induction h with
  | eps s => exact fun hn => absurd hn (by simp [needP])
  | chr t hpc =>
    intro hn
    exact ⟨[_], rfl, _, by simp, hn _ hpc⟩
  | cat h1 h2 ih1 ih2 =>
    intro hn
    rcases hn with hn | hn
    · obtain ⟨u1, hu1, c, hc, hpc⟩ := ih1 hn
      obtain ⟨u2, hu2⟩ := mmatch_suffix h2
      exact ⟨u1 ++ u2, by simp [hu1, hu2], c, by simp [hc], hpc⟩
    · obtain ⟨u1, hu1⟩ := mmatch_suffix h1
      obtain ⟨u2, hu2, c, hc, hpc⟩ := ih2 hn
      exact ⟨u1 ++ u2, by simp [hu1, hu2], c, by simp [hc], hpc⟩
  | altL h ih => exact fun hn => ih hn.1
  | altR h ih => exact fun hn => ih hn.2
  | starNil s => exact fun hn => absurd hn (by simp [needP])
  | starCons h1 hlt h2 ih1 ih2 => exact fun hn => absurd hn (by simp [needP])
  | repZ s =>
    intro hn
    exact absurd rfl hn.1
  | rep0S hhi h1 hlt h2 ih1 ih2 =>
    intro hn
    exact absurd rfl hn.1
  | repS hlo hhi h1 h2 ih1 ih2 =>
    intro hn
    obtain ⟨u1, hu1, c, hc, hpc⟩ := ih1 hn.2
    obtain ⟨u2, hu2⟩ := mmatch_suffix h2
    exact ⟨u1 ++ u2, by simp [hu1, hu2], c, by simp [hc], hpc⟩
  | look h ih => exact fun hn => absurd hn (by simp [needP])

/-- The consumed prefix of a match is bounded by `maxLen`. -/
theorem maxLen_of_match :
    ∀ {r s t}, MMatch r s t → ∀ {k}, maxLen r = some k →
      ∃ u, s = u ++ t ∧ u.length ≤ k := by
  intro r s t h
  induction h with
  | eps s =>
    intro k hk
    exact ⟨[], rfl, by simp⟩
  | chr t hpc =>
    intro k hk
    simp only [maxLen, Option.some.injEq] at hk
    exact ⟨[_], rfl, by simp [← hk]⟩
  | cat h1 h2 ih1 ih2 =>
    intro k hk
    rename_i a b s m t
    rcases hma : maxLen a with _ | x
    · simp [maxLen, hma] at hk
    rcases hmb : maxLen b with _ | y
    · simp [maxLen, hma, hmb] at hk
    simp only [maxLen, hma, hmb, Option.some.injEq] at hk
    obtain ⟨u1, hu1, hl1⟩ := ih1 hma
    obtain ⟨u2, hu2, hl2⟩ := ih2 hmb
    refine ⟨u1 ++ u2, by simp [hu1, hu2], ?_⟩
    simp only [List.length_append]
    omega
  | altL h ih =>
    intro k hk
    rename_i a b s t
    rcases hma : maxLen a with _ | x
    · simp [maxLen, hma] at hk
    rcases hmb : maxLen b with _ | y
    · simp [maxLen, hma, hmb] at hk
    simp only [maxLen, hma, hmb, Option.some.injEq] at hk
    obtain ⟨u1, hu1, hl1⟩ := ih hma
    refine ⟨u1, hu1, ?_⟩
    omega
  | altR h ih =>
    intro k hk
    rename_i a b s t
    rcases hma : maxLen a with _ | x
    · simp [maxLen, hma] at hk
    rcases hmb : maxLen b with _ | y
    · simp [maxLen, hma, hmb] at hk
    simp only [maxLen, hma, hmb, Option.some.injEq] at hk
    obtain ⟨u1, hu1, hl1⟩ := ih hmb
    refine ⟨u1, hu1, ?_⟩
    omega
  | starNil s =>
    intro k hk
    simp [maxLen] at hk
  | starCons h1 hlt h2 ih1 ih2 =>
    intro k hk
    simp [maxLen] at hk
  | repZ s =>
    intro k hk
    exact ⟨[], rfl, by simp⟩
  | rep0S hhi h1 hlt h2 ih1 ih2 =>
    intro k hk
    rename_i a hi s m t
    rcases hma : maxLen a with _ | x
    · simp [maxLen, hma] at hk
    simp only [maxLen, hma, Option.map_some', Option.some.injEq] at hk
    obtain ⟨u1, hu1, hl1⟩ := ih1 hma
    obtain ⟨u2, hu2, hl2⟩ :=
      ih2 (show _ = some (x * (hi - 1)) by simp [maxLen, hma])
    refine ⟨u1 ++ u2, by simp [hu1, hu2], ?_⟩
    simp only [List.length_append]
    have hx : x * (hi - 1) + x = x * hi := by
      have h9 : hi - 1 + 1 = hi := by omega
      calc x * (hi - 1) + x = x * (hi - 1 + 1) := by ring
      _ = x * hi := by rw [h9]
    omega
  | repS hlo hhi h1 h2 ih1 ih2 =>
    intro k hk
    rename_i a lo hi s m t
    rcases hma : maxLen a with _ | x
    · simp [maxLen, hma] at hk
    simp only [maxLen, hma, Option.map_some', Option.some.injEq] at hk
    obtain ⟨u1, hu1, hl1⟩ := ih1 hma
    obtain ⟨u2, hu2, hl2⟩ :=
      ih2 (show _ = some (x * (hi - 1)) by simp [maxLen, hma])
    refine ⟨u1 ++ u2, by simp [hu1, hu2], ?_⟩
    simp only [List.length_append]
    have hx : x * (hi - 1) + x = x * hi := by
      have h9 : hi - 1 + 1 = hi := by omega
      calc x * (hi - 1) + x = x * (hi - 1 + 1) := by ring
      _ = x * hi := by rw [h9]
    omega
  | look h ih =>
    intro k hk
    exact ⟨[], rfl, by simp⟩

/-- A lookahead-free match is stable under extending the input on the
right. -/
theorem mmatch_append :
    ∀ {r s m}, MMatch r s m → lookFree r = true →
      ∀ t, MMatch r (s ++ t) (m ++ t) := by
  intro r s m h
  induction h with
  | eps s => exact fun _ t => .eps _
  | chr t2 hpc => exact fun _ t => .chr _ hpc
  | cat h1 h2 ih1 ih2 =>
    intro hlf t
    rw [lookFree, Bool.and_eq_true] at hlf
    exact .cat (ih1 hlf.1 t) (ih2 hlf.2 t)
  | altL h ih =>
    intro hlf t
    rw [lookFree, Bool.and_eq_true] at hlf
    exact .altL (ih hlf.1 t)
  | altR h ih =>
    intro hlf t
    rw [lookFree, Bool.and_eq_true] at hlf
    exact .altR (ih hlf.2 t)
  | starNil s => exact fun _ t => .starNil _
  | starCons h1 hlt h2 ih1 ih2 =>
    intro hlf t
    exact .starCons (ih1 hlf t) (by simp; omega) (ih2 hlf t)
  | repZ s => exact fun _ t => .repZ _
  | rep0S hhi h1 hlt h2 ih1 ih2 =>
    intro hlf t
    exact .rep0S hhi (ih1 hlf t) (by simp; omega) (ih2 hlf t)
  | repS hlo hhi h1 h2 ih1 ih2 =>
    intro hlf t
    exact .repS hlo hhi (ih1 hlf t) (ih2 hlf t)
  | look h ih =>
    intro hlf
    simp [lookFree] at hlf

/-- A lookahead-free match of `u ++ t` into `t` is a whole-word match of
`u`. -/
theorem mmatch_split :
    ∀ {r s t}, MMatch r s t → lookFree r = true →
      ∀ u, s = u ++ t → MMatch r u [] := by
  intro r s t h
  induction h with
  | eps s =>
    intro _ u hu
    rw [eq_nil_of_append_eq_self hu.symm]
    exact .eps []
  | chr t2 hpc =>
    intro _ u hu
    rw [eq_singleton_of_append hu.symm]
    exact .chr [] hpc
  | cat h1 h2 ih1 ih2 =>
    intro hlf u hu
    rw [lookFree, Bool.and_eq_true] at hlf
    obtain ⟨u1, hu1⟩ := mmatch_suffix h1
    obtain ⟨u2, hu2⟩ := mmatch_suffix h2
    have hu12 : u = u1 ++ u2 := by
      apply append_cancel_r (t := _)
      rw [← hu, hu1, hu2]
      simp
    subst hu12
    have ha : MMatch _ u1 [] := ih1 hlf.1 u1 hu1
    have hb : MMatch _ u2 [] := ih2 hlf.2 u2 hu2
    have ha2 := mmatch_append ha hlf.1 u2
    simpa using MMatch.cat ha2 hb
  | altL h ih =>
    intro hlf u hu
    rw [lookFree, Bool.and_eq_true] at hlf
    exact .altL (ih hlf.1 u hu)
  | altR h ih =>
    intro hlf u hu
    rw [lookFree, Bool.and_eq_true] at hlf
    exact .altR (ih hlf.2 u hu)
  | starNil s =>
    intro _ u hu
    rw [eq_nil_of_append_eq_self hu.symm]
    exact .starNil []
  | starCons h1 hlt h2 ih1 ih2 =>
    intro hlf u hu
    obtain ⟨u1, hu1⟩ := mmatch_suffix h1
    obtain ⟨u2, hu2⟩ := mmatch_suffix h2
    have hu12 : u = u1 ++ u2 := by
      apply append_cancel_r (t := _)
      rw [← hu, hu1, hu2]
      simp
    subst hu12
    have ha : MMatch _ u1 [] := ih1 hlf u1 hu1
    have hb : MMatch _ u2 [] := ih2 hlf u2 hu2
    have ha2 := mmatch_append ha hlf u2
    have hlen : u2.length < u1.length + u2.length := by
      have := congrArg List.length hu1
      have h2l := congrArg List.length hu2
      simp at this h2l
      omega
    refine MMatch.starCons (by simpa using ha2) (by simpa using hlen) hb
  | repZ s =>
    intro _ u hu
    rw [eq_nil_of_append_eq_self hu.symm]
    exact .repZ []
  | rep0S hhi h1 hlt h2 ih1 ih2 =>
    intro hlf u hu
    obtain ⟨u1, hu1⟩ := mmatch_suffix h1
    obtain ⟨u2, hu2⟩ := mmatch_suffix h2
    have hu12 : u = u1 ++ u2 := by
      apply append_cancel_r (t := _)
      rw [← hu, hu1, hu2]
      simp
    subst hu12
    have ha : MMatch _ u1 [] := ih1 hlf u1 hu1
    have hb : MMatch _ u2 [] := ih2 hlf u2 hu2
    have ha2 := mmatch_append ha hlf u2
    have hlen : u2.length < u1.length + u2.length := by
      have := congrArg List.length hu1
      have h2l := congrArg List.length hu2
      simp at this h2l
      omega
    exact MMatch.rep0S hhi (by simpa using ha2) (by simpa using hlen) hb
  | repS hlo hhi h1 h2 ih1 ih2 =>
    intro hlf u hu
    obtain ⟨u1, hu1⟩ := mmatch_suffix h1
    obtain ⟨u2, hu2⟩ := mmatch_suffix h2
    have hu12 : u = u1 ++ u2 := by
      apply append_cancel_r (t := _)
      rw [← hu, hu1, hu2]
      simp
    subst hu12
    have ha : MMatch _ u1 [] := ih1 hlf u1 hu1
    have hb : MMatch _ u2 [] := ih2 hlf u2 hu2
    have ha2 := mmatch_append ha hlf u2
    exact MMatch.repS hlo hhi (by simpa using ha2) hb
  | look h ih =>
    intro hlf
    simp [lookFree] at hlf

/-- Construction helper: a bounded character-class repetition matches any
all-`p` block of admissible length. -/
theorem rep_chr_complete {p : Char → Bool} :
    ∀ (u t : List Char) (lo hi : Nat), (∀ c ∈ u, p c = true) →
      lo ≤ u.length → u.length ≤ hi →
      MMatch (.rep (.chr p) lo hi) (u ++ t) t := by
  intro u
  induction u with
  | nil =>
    intro t lo hi hp hlo hhi
    have : lo = 0 := by simpa using hlo
    subst this
    exact .repZ t
  | cons c u2 ih =>
    intro t lo hi hp hlo hhi
    have hhi0 : hi ≠ 0 := by simp at hhi; omega
    have hc : MMatch (.chr p) ((c :: u2) ++ t) (u2 ++ t) :=
      .chr _ (hp c (by simp))
    have hlen : (u2 ++ t).length < ((c :: u2) ++ t).length := by simp
    rcases Nat.eq_zero_or_pos lo with rfl | hpos
    · exact .rep0S hhi0 hc hlen
        (ih t 0 (hi - 1) (fun d hd => hp d (by simp [hd])) (by omega)
          (by simp at hhi ⊢; omega))
    · exact .repS (by omega) hhi0 hc
        (ih t (lo - 1) (hi - 1) (fun d hd => hp d (by simp [hd]))
          (by simp at hlo; omega) (by simp at hhi ⊢; omega))

/-- Construction helper: `\s*`-style stars match any all-`p` block. -/
theorem star_chr_complete {p : Char → Bool} :
    ∀ (u t : List Char), (∀ c ∈ u, p c = true) →
      MMatch (.star (.chr p)) (u ++ t) t := by
  intro u
  induction u with
  | nil => exact fun t _ => .starNil t
  | cons c u2 ih =>
    intro t hp
    exact .starCons (.chr _ (hp c (by simp))) (by simp)
      (ih t (fun d hd => hp d (by simp [hd])))

/-! ### Pattern-instance facts -/

theorem imp_lit {p : Char → Bool} {c : Char} (h : p c = true) :
    ∀ d, decide (d = c) = true → p d = true := by
  intro d hd
  have hd2 : d = c := of_decide_eq_true hd
  rwa [hd2]

theorem isDigitC_toNat {c : Char} (h : isDigitC c = true) :
    48 ≤ c.toNat ∧ c.toNat ≤ 57 := by
  simp only [isDigitC, Bool.and_eq_true, decide_eq_true_eq] at h
  exact ⟨h.1, h.2⟩

theorem impChars_OCTET : impChars isDigitDotC OCTET := by
  refine ⟨⟨?_, ?_, ?_⟩, ⟨?_, ?_, ?_⟩, ⟨?_, ?_⟩, ⟨?_, ?_⟩, ?_⟩
  · exact imp_lit (by decide)
  · exact imp_lit (by decide)
  · intro c h
    simp only [Bool.and_eq_true, decide_eq_true_eq] at h
    have : isDigitC c = true := by
      simp only [isDigitC, Bool.and_eq_true, decide_eq_true_eq]
      exact ⟨h.1, le_trans h.2 (by decide)⟩
    simp [isDigitDotC, this]
  · exact imp_lit (by decide)
  · intro c h
    simp only [Bool.and_eq_true, decide_eq_true_eq] at h
    have : isDigitC c = true := by
      simp only [isDigitC, Bool.and_eq_true, decide_eq_true_eq]
      exact ⟨h.1, le_trans h.2 (by decide)⟩
    simp [isDigitDotC, this]
  · intro c h
    simp [isDigitDotC, h]
  · exact imp_lit (by decide)
  · intro c h
    simp [isDigitDotC, h]
  · intro c h
    simp only [Bool.and_eq_true, decide_eq_true_eq] at h
    have : isDigitC c = true := by
      simp only [isDigitC, Bool.and_eq_true, decide_eq_true_eq]
      exact ⟨le_trans (by decide) h.1, h.2⟩
    simp [isDigitDotC, this]
  · intro c h
    simp [isDigitDotC, h]
  · intro c h
    simp [isDigitDotC, h]

theorem impChars_IPV4_FULL : impChars isDigitDotC IPV4_FULL :=
  ⟨impChars_OCTET, imp_lit (by decide), impChars_OCTET⟩

theorem impChars_H16 : impChars isHexColonC H16 := by
  intro c h
  simp [isHexColonC, h]

theorem impChars_h16Colon (lo hi : Nat) : impChars isHexColonC (h16Colon lo hi) :=
  ⟨impChars_H16, imp_lit (by decide)⟩

theorem impChars_colonH16 (lo hi : Nat) : impChars isHexColonC (colonH16 lo hi) :=
  ⟨imp_lit (by decide), impChars_H16⟩

theorem impChars_IPV6_FULL : impChars isHexColonC IPV6_FULL :=
  ⟨⟨impChars_h16Colon 7 7, impChars_H16⟩,
    ⟨impChars_h16Colon 1 7, imp_lit (by decide)⟩,
    ⟨impChars_h16Colon 1 6, imp_lit (by decide), impChars_H16⟩,
    ⟨impChars_h16Colon 1 5, impChars_colonH16 1 2⟩,
    ⟨impChars_h16Colon 1 4, impChars_colonH16 1 3⟩,
    ⟨impChars_h16Colon 1 3, impChars_colonH16 1 4⟩,
    ⟨impChars_h16Colon 1 2, impChars_colonH16 1 5⟩,
    ⟨impChars_H16, imp_lit (by decide), impChars_colonH16 1 6⟩,
    ⟨imp_lit (by decide), impChars_colonH16 1 7⟩,
    imp_lit (by decide), imp_lit (by decide)⟩

theorem impChars_WS : impChars isSpaceC WS := fun _ h => h

theorem needP_dot_IPV4_FULL :
    needP (fun c => decide (c = '.')) IPV4_FULL :=
  Or.inr ⟨by omega, Or.inl (fun _ h => h)⟩

theorem needP_colon_IPV6_FULL :
    needP (fun c => decide (c = ':')) IPV6_FULL := by
  refine ⟨?_, ?_, ?_, ?_, ?_, ?_, ?_, ?_, ?_, ?_⟩
  · exact Or.inl ⟨by omega, Or.inr (fun _ h => h)⟩
  · exact Or.inr (fun _ h => h)
  · exact Or.inr (Or.inl (fun _ h => h))
  · exact Or.inl ⟨by omega, Or.inr (fun _ h => h)⟩
  · exact Or.inl ⟨by omega, Or.inr (fun _ h => h)⟩
  · exact Or.inl ⟨by omega, Or.inr (fun _ h => h)⟩
  · exact Or.inl ⟨by omega, Or.inr (fun _ h => h)⟩
  · exact Or.inr (Or.inl (fun _ h => h))
  · exact Or.inl (fun _ h => h)
  · exact Or.inl (fun _ h => h)

theorem needP_slash_IPV4_CIDR_FULL :
    needP (fun c => decide (c = '/')) IPV4_CIDR_FULL :=
  Or.inr (Or.inl (fun _ h => h))

theorem needP_slash_IPV6_CIDR_FULL :
    needP (fun c => decide (c = '/')) IPV6_CIDR_FULL :=
  Or.inr (Or.inl (fun _ h => h))

theorem needP_dash_IPV4_RANGE_FULL :
    needP (fun c => decide (c = '-')) IPV4_RANGE_FULL :=
  Or.inr (Or.inr (Or.inl (fun _ h => h)))

theorem needP_dash_IPV6_RANGE_FULL :
    needP (fun c => decide (c = '-')) IPV6_RANGE_FULL :=
  Or.inr (Or.inr (Or.inl (fun _ h => h)))

theorem needP_colon_IPV6_CIDR_FULL :
    needP (fun c => decide (c = ':')) IPV6_CIDR_FULL :=
  Or.inl needP_colon_IPV6_FULL

theorem needP_colon_IPV6_RANGE_FULL :
    needP (fun c => decide (c = ':')) IPV6_RANGE_FULL :=
  Or.inl needP_colon_IPV6_FULL

theorem needP_dot_IPV4_CIDR_FULL :
    needP (fun c => decide (c = '.')) IPV4_CIDR_FULL :=
  Or.inl needP_dot_IPV4_FULL

theorem lookFree_IPV4_FULL : lookFree IPV4_FULL = true := rfl

theorem lookFree_IPV6_FULL : lookFree IPV6_FULL = true := rfl

theorem lookFree_SINGLE_FULL : lookFree SINGLE_FULL = true := rfl

theorem maxLen_IPV6_FULL : maxLen IPV6_FULL = some 39 := by decide

/-! ### Token-level consequences -/

theorem ipv4_token_facts {u : List Char} (h : isFullIpv4Token u = true) :
    (∀ c ∈ u, isDigitDotC c = true) ∧ ∃ c ∈ u, c = '.' := by
  rw [isFullIpv4Token, rmatch_iff] at h
  obtain ⟨w, hw, hc⟩ := chars_of_match h impChars_IPV4_FULL
  rw [List.append_nil] at hw
  subst hw
  obtain ⟨w2, hw2, c, hcmem, hcp⟩ := need_of_match h needP_dot_IPV4_FULL
  rw [List.append_nil] at hw2
  subst hw2
  exact ⟨hc, c, hcmem, of_decide_eq_true hcp⟩

theorem ipv6_token_facts {u : List Char} (h : isFullIpv6Token u = true) :
    (∀ c ∈ u, isHexColonC c = true) ∧ (∃ c ∈ u, c = ':') ∧ u.length ≤ 39 := by
  rw [isFullIpv6Token, rmatch_iff] at h
  obtain ⟨w, hw, hc⟩ := chars_of_match h impChars_IPV6_FULL
  rw [List.append_nil] at hw
  subst hw
  obtain ⟨w2, hw2, c, hcmem, hcp⟩ := need_of_match h needP_colon_IPV6_FULL
  rw [List.append_nil] at hw2
  subst hw2
  obtain ⟨w3, hw3, hlen⟩ := maxLen_of_match h maxLen_IPV6_FULL
  rw [List.append_nil] at hw3
  subst hw3
  exact ⟨hc, ⟨c, hcmem, of_decide_eq_true hcp⟩, hlen⟩

theorem isHexC_toNat {c : Char} (h : isHexC c = true) :
    (48 ≤ c.toNat ∧ c.toNat ≤ 57) ∨ (97 ≤ c.toNat ∧ c.toNat ≤ 102) ∨
      (65 ≤ c.toNat ∧ c.toNat ≤ 70) := by
  simp only [isHexC, isDigitC, Bool.or_eq_true, Bool.and_eq_true,
    decide_eq_true_eq] at h
  rcases h with (h | h) | h
  · exact Or.inl ⟨h.1, h.2⟩
  · exact Or.inr (Or.inl ⟨h.1, h.2⟩)
  · exact Or.inr (Or.inr ⟨h.1, h.2⟩)

theorem digitDot_facts {c : Char} (h : isDigitDotC c = true) :
    c ≠ '-' ∧ c ≠ '/' ∧ c ≠ ':' ∧ c ≠ ',' ∧ isSpaceC c = false := by
  simp only [isDigitDotC, Bool.or_eq_true, decide_eq_true_eq] at h
  rcases h with h | rfl
  · obtain ⟨h1, h2⟩ := isDigitC_toNat h
    refine ⟨?_, ?_, ?_, ?_, ?_⟩
    · rintro rfl
      first
      | exact absurd h1 (by decide)
      | exact absurd h2 (by decide)
    · rintro rfl
      first
      | exact absurd h1 (by decide)
      | exact absurd h2 (by decide)
    · rintro rfl
      first
      | exact absurd h1 (by decide)
      | exact absurd h2 (by decide)
    · rintro rfl
      first
      | exact absurd h1 (by decide)
      | exact absurd h2 (by decide)
    · cases hs : isSpaceC c
      · rfl
      · simp only [isSpaceC, Bool.or_eq_true, decide_eq_true_eq] at hs
        rcases hs with ((((rfl | rfl) | rfl) | rfl) | rfl) | rfl <;>
          first
          | exact absurd h1 (by decide)
          | exact absurd h2 (by decide)
  · exact ⟨by decide, by decide, by decide, by decide, by decide⟩

theorem hexColon_facts {c : Char} (h : isHexColonC c = true) :
    c ≠ '-' ∧ c ≠ '/' ∧ c ≠ ',' ∧ c ≠ '.' ∧ isSpaceC c = false := by
  simp only [isHexColonC, Bool.or_eq_true, decide_eq_true_eq] at h
  rcases h with h | rfl
  · rcases isHexC_toNat h with ⟨h1, h2⟩ | ⟨h1, h2⟩ | ⟨h1, h2⟩ <;>
      refine ⟨?_, ?_, ?_, ?_, ?_⟩ <;>
      first
      | (rintro rfl
         first
         | exact absurd h1 (by decide)
         | exact absurd h2 (by decide))
      | (cases hs : isSpaceC c
         · rfl
         · simp only [isSpaceC, Bool.or_eq_true, decide_eq_true_eq] at hs
           rcases hs with ((((rfl | rfl) | rfl) | rfl) | rfl) | rfl <;>
             first
             | exact absurd h1 (by decide)
             | exact absurd h2 (by decide))
  · exact ⟨by decide, by decide, by decide, by decide, by decide⟩

theorem allowed_of_digitDot {c : Char} (h : isDigitDotC c = true) :
    isIpAllowedC c = true := by
  simp only [isDigitDotC, Bool.or_eq_true, decide_eq_true_eq] at h
  rcases h with h | h
  · simp [isIpAllowedC, isHexC, h]
  · subst h; decide

theorem allowed_of_hexColon {c : Char} (h : isHexColonC c = true) :
    isIpAllowedC c = true := by
  simp only [isHexColonC, Bool.or_eq_true, decide_eq_true_eq] at h
  rcases h with h | h
  · simp [isIpAllowedC, h]
  · subst h; decide

/-! ### Small string lemmas -/

theorem split_at_marker {c : Char} : ∀ (u1 : List Char) {u2 r1 r2 : List Char},
    u1 ++ c :: r1 = u2 ++ c :: r2 → (∀ d ∈ u1, d ≠ c) → (∀ d ∈ u2, d ≠ c) →
    u1 = u2 ∧ r1 = r2 := by
  intro u1
  induction u1 with
  | nil =>
    intro u2 r1 r2 h h1 h2
    cases u2 with
    | nil => simpa using h
    | cons e u2' =>
      simp only [List.nil_append, List.cons_append, List.cons.injEq] at h
      exact absurd h.1.symm (h2 e (by simp))
  | cons d u1' ih =>
    intro u2 r1 r2 h h1 h2
    cases u2 with
    | nil =>
      simp only [List.cons_append, List.nil_append, List.cons.injEq] at h
      exact absurd h.1 (h1 d (by simp))
    | cons e u2' =>
      simp only [List.cons_append, List.cons.injEq] at h
      obtain ⟨rfl, h3⟩ := h
      obtain ⟨ha, hb⟩ := ih h3 (fun x hx => h1 x (by simp [hx]))
        (fun x hx => h2 x (by simp [hx]))
      exact ⟨by rw [ha], hb⟩

theorem takeWhile_all {p : Char → Bool} {l : List Char} (h : ∀ c ∈ l, p c = true) :
    l.takeWhile p = l := by
  induction l with
  | nil => rfl
  | cons c t ih =>
    simp only [List.takeWhile_cons, h c (by simp), if_true]
    rw [ih (fun d hd => h d (by simp [hd]))]

theorem parseDec_digits {ms : List Char} (h : ∀ c ∈ ms, isDigitC c = true)
    (hne : ms ≠ []) : parseDec ms = some (decVal ms) := by
  unfold parseDec
  rw [takeWhile_all h]
  cases ms with
  | nil => exact absurd rfl hne
  | cons c t => rfl

theorem idxOfDash_none {v : List Char} (h : ∀ c ∈ v, c ≠ '-') :
    idxOfDash v = none := by
  induction v with
  | nil => rfl
  | cons c t ih =>
    unfold idxOfDash
    rw [if_neg (h c (by simp))]
    rw [ih (fun d hd => h d (by simp [hd]))]
    rfl

theorem hasTripleColon_false {v : List Char} (h : ∀ c ∈ v, c ≠ ':') :
    hasTripleColon v = false := by
  induction v with
  | nil => rfl
  | cons c t ih =>
    have hc : c ≠ ':' := h c (by simp)
    have ih2 := ih (fun d hd => h d (by simp [hd]))
    unfold hasTripleColon
    split
    · rename_i heq
      rw [List.cons.injEq] at heq
      exact absurd heq.1 hc
    · rename_i x xs heq
      rw [List.cons.injEq] at heq
      rw [← heq.2]
      exact ih2
    · rfl

theorem countDC_zero {v : List Char} (h : ∀ c ∈ v, c ≠ ':') :
    countDC v = 0 := by
  induction v with
  | nil => rfl
  | cons c t ih =>
    have hc : c ≠ ':' := h c (by simp)
    have ih2 := ih (fun d hd => h d (by simp [hd]))
    unfold countDC
    split
    · rename_i heq
      rw [List.cons.injEq] at heq
      exact absurd heq.1 hc
    · rename_i x xs heq
      rw [List.cons.injEq] at heq
      rw [← heq.2]
      exact ih2
    · rfl

theorem mem_of_jsTrim {s : List Char} {c : Char} (h : c ∈ jsTrim s) : c ∈ s := by
  unfold jsTrim at h
  rw [List.mem_reverse] at h
  have h1 := (List.dropWhile_sublist (p := isSpaceC)
    (l := (s.dropWhile isSpaceC).reverse)).mem h
  rw [List.mem_reverse] at h1
  exact (List.dropWhile_sublist (p := isSpaceC) (l := s)).mem h1

theorem getLast_append_cons {u ms : List Char} {c : Char} :
    (u ++ c :: ms).getLast? = (c :: ms).getLast? := by
  rw [List.getLast?_append]
  cases h : (c :: ms).getLast? with
  | none =>
    rw [List.getLast?_eq_none_iff] at h
    exact absurd h (by simp)
  | some x => rfl

/-! ### Bounded character-class repetitions, inversion -/

theorem rep_chr_sound {p : Char → Bool} :
    ∀ (n : Nat) (lo hi : Nat) (s t : List Char), s.length ≤ n →
      MMatch (.rep (.chr p) lo hi) s t →
      ∃ u, s = u ++ t ∧ (∀ c ∈ u, p c = true) ∧ lo ≤ u.length ∧
        u.length ≤ hi := by
  intro n
  induction n with
  | zero =>
    intro lo hi s t hn h
    cases h with
    | repZ => exact ⟨[], rfl, by simp, by simp, by simp⟩
    | rep0S hhi h1 hlt h2 => omega
    | repS hlo hhi h1 h2 =>
      cases h1 with
      | chr m hc => simp at hn
  | succ n ih =>
    intro lo hi s t hn h
    cases h with
    | repZ => exact ⟨[], rfl, by simp, by simp, by simp⟩
    | rep0S hhi h1 hlt h2 =>
      rename_i m
      cases h1 with
      | chr c hc =>
        rename_i c
        obtain ⟨u2, hu2, hp2, hlo2, hhi2⟩ := ih 0 (hi - 1) m t (by simp at hn; omega) h2
        refine ⟨c :: u2, by simp [hu2], ?_, by simp, ?_⟩
        · intro c hc2
          rcases List.mem_cons.mp hc2 with rfl | hmem
          · exact hc
          · exact hp2 c hmem
        · simp
          omega
    | repS hlo hhi h1 h2 =>
      rename_i m
      cases h1 with
      | chr c hc =>
        rename_i c
        obtain ⟨u2, hu2, hp2, hlo2, hhi2⟩ := ih (lo - 1) (hi - 1) m t
          (by simp at hn; omega) h2
        refine ⟨c :: u2, by simp [hu2], ?_, ?_, ?_⟩
        · intro c hc2
          rcases List.mem_cons.mp hc2 with rfl | hmem
          · exact hc
          · exact hp2 c hmem
        · simp
          omega
        · simp
          omega

/-! ### The CIDR mask suffix languages -/

theorem mask_v4_words {s t : List Char} (h : MMatch CIDR_SUFFIX_V4 s t) :
    ∃ ms, s = '/' :: (ms ++ t) ∧ (∀ c ∈ ms, isDigitC c = true) ∧
      1 ≤ ms.length ∧ ms.length ≤ 2 ∧ decVal ms ≤ 32 := by
  have h0 : ('0' : Char).toNat = 48 := by decide
  cases h with
  | cat h1 h2 =>
    cases h1 with
    | chr m hc =>
      obtain rfl := of_decide_eq_true hc
      cases h2 with
      | altL hb =>
        cases hb with
        | cat hb1 hb2 =>
          cases hb1 with
          | chr m2 hc3 =>
            obtain rfl := of_decide_eq_true hc3
            cases hb2 with
            | chr m3 hc2 =>
              rename_i c2
              simp only [Bool.and_eq_true, decide_eq_true_eq] at hc2
              refine ⟨['3', c2], rfl, ?_, by simp, by simp, ?_⟩
              · intro c hcm
                rcases List.mem_cons.mp hcm with rfl | hcm
                · decide
                · rcases List.mem_singleton.mp hcm with rfl
                  simp only [isDigitC, Bool.and_eq_true, decide_eq_true_eq]
                  exact ⟨hc2.1, le_trans hc2.2 (by decide)⟩
              · have hb2 : c2.toNat ≤ 50 := hc2.2
                simp only [decVal, List.foldl, h0]
                have h3 : ('3' : Char).toNat = 51 := by decide
                rw [h3]
                omega
      | altR hb2 =>
        cases hb2 with
        | altL hb =>
          cases hb with
          | cat hb1 hb2 =>
            cases hb1 with
            | chr m2 hc3 =>
              rename_i c1
              cases hb2 with
              | chr m3 hc2 =>
                rename_i c2
                simp only [Bool.or_eq_true, decide_eq_true_eq] at hc3
                have hd2 := isDigitC_toNat hc2
                refine ⟨[c1, c2], rfl, ?_, by simp, by simp, ?_⟩
                · intro c hcm
                  rcases List.mem_cons.mp hcm with rfl | hcm
                  · rcases hc3 with rfl | rfl <;> decide
                  · rcases List.mem_singleton.mp hcm with rfl
                    exact hc2
                · have hb1 : c1.toNat ≤ 50 := by
                    rcases hc3 with rfl | rfl <;> decide
                  simp only [decVal, List.foldl, h0]
                  omega
        | altR hb =>
          cases hb with
          | chr m2 hc2 =>
            rename_i c1
            have hd1 := isDigitC_toNat hc2
            refine ⟨[c1], rfl, ?_, by simp, by simp, ?_⟩
            · intro c hcm
              rcases List.mem_singleton.mp hcm with rfl
              exact hc2
            · simp only [decVal, List.foldl, h0]
              omega

theorem mask_v6_words {s t : List Char} (h : MMatch CIDR_SUFFIX_V6 s t) :
    ∃ ms, s = '/' :: (ms ++ t) ∧ (∀ c ∈ ms, isDigitC c = true) ∧
      1 ≤ ms.length ∧ ms.length ≤ 3 ∧ decVal ms ≤ 128 := by
  have h0 : ('0' : Char).toNat = 48 := by decide
  cases h with
  | cat h1 h2 =>
    cases h1 with
    | chr m hc =>
      obtain rfl := of_decide_eq_true hc
      cases h2 with
      | altL hb =>
        cases hb with
        | cat hb1 hb2 =>
          cases hb1 with
          | chr m2 hc1 =>
            obtain rfl := of_decide_eq_true hc1
            cases hb2 with
            | cat hb3 hb4 =>
              cases hb3 with
              | chr m3 hc2 =>
                obtain rfl := of_decide_eq_true hc2
                cases hb4 with
                | chr m4 hc3 =>
                  rename_i c3
                  simp only [Bool.and_eq_true, decide_eq_true_eq] at hc3
                  refine ⟨['1', '2', c3], rfl, ?_, by simp, by simp, ?_⟩
                  · intro c hcm
                    rcases List.mem_cons.mp hcm with rfl | hcm
                    · decide
                    rcases List.mem_cons.mp hcm with rfl | hcm
                    · decide
                    rcases List.mem_singleton.mp hcm with rfl
                    simp only [isDigitC, Bool.and_eq_true, decide_eq_true_eq]
                    exact ⟨hc3.1, le_trans hc3.2 (by decide)⟩
                  · have hb3 : c3.toNat ≤ 56 := hc3.2
                    simp only [decVal, List.foldl, h0]
                    have e1 : ('1' : Char).toNat = 49 := by decide
                    have e2 : ('2' : Char).toNat = 50 := by decide
                    rw [e1, e2]
                    omega
      | altR hb2 =>
        cases hb2 with
        | altL hb =>
          cases hb with
          | cat hb1 hb2 =>
            cases hb1 with
            | chr m2 hc1 =>
              obtain rfl := of_decide_eq_true hc1
              cases hb2 with
              | cat hb3 hb4 =>
                cases hb3 with
                | chr m3 hc2 =>
                  rename_i c2
                  cases hb4 with
                  | chr m4 hc3 =>
                    rename_i c3
                    simp only [Bool.or_eq_true, decide_eq_true_eq] at hc2
                    have hd3 := isDigitC_toNat hc3
                    refine ⟨['1', c2, c3], rfl, ?_, by simp, by simp, ?_⟩
                    · intro c hcm
                      rcases List.mem_cons.mp hcm with rfl | hcm
                      · decide
                      rcases List.mem_cons.mp hcm with rfl | hcm
                      · rcases hc2 with rfl | rfl <;> decide
                      rcases List.mem_singleton.mp hcm with rfl
                      exact hc3
                    · have hb2 : c2.toNat ≤ 49 := by
                        rcases hc2 with rfl | rfl <;> decide
                      simp only [decVal, List.foldl, h0]
                      have e1 : ('1' : Char).toNat = 49 := by decide
                      rw [e1]
                      omega
        | altR hb =>
          rename_i mm
          obtain ⟨ms, hms, hdig, h1l, h2l⟩ :=
            @rep_chr_sound isDigitC mm.length 1 2 mm t (le_refl _) hb
          refine ⟨ms, by rw [hms], hdig, h1l, by omega, ?_⟩
          have : decVal ms ≤ 99 := by
            cases ms with
            | nil => simp [decVal]
            | cons a ms2 =>
              cases ms2 with
              | nil =>
                have hda := isDigitC_toNat (hdig a (by simp))
                simp only [decVal, List.foldl, h0]
                omega
              | cons b ms3 =>
                have hms3 : ms3 = [] := by
                  have h2x := h2l
                  simp only [List.length_cons] at h2x
                  cases ms3 with
                  | nil => rfl
                  | cons x xs => simp only [List.length_cons] at h2x; omega
                subst hms3
                have hda := isDigitC_toNat (hdig a (by simp))
                have hdb := isDigitC_toNat (hdig b (by simp))
                simp only [decVal, List.foldl, h0]
                omega
          omega

/-! ### Claim C7: MAC full/partial acceptance -/

/-- **C7.** `"AA-BB"` is partial-valid but not full-valid;
`"AA-BB-CC-DD-EE-FF, 11-22-33-44-55-66"` is full-valid while its
trailing-comma variant is not; a full single MAC is exactly six
dash-separated two-hex-digit groups; a partial single MAC is empty or one
to six groups, all but the last exactly two hex digits and the last empty
or one to two; a full list admits no empty items; and a (nonempty) input is
partial-valid exactly when it is full-valid or every item but the last is a
full MAC and the last is empty (trailing comma) or a partial MAC. -/
theorem C7_mac_validation :
    isMacPartiallyValid "AA-BB" = "" ∧
      isMacValid "AA-BB" = false ∧
      isMacValid "AA-BB-CC-DD-EE-FF, 11-22-33-44-55-66" = true ∧
      isMacValid "AA-BB-CC-DD-EE-FF, 11-22-33-44-55-66," = false ∧
      (∀ t : List Char, isSingleMacFullOk t = true ↔
        ∃ groups : List (List Char), jsTrim t = joinSep '-' groups ∧
          groups.length = 6 ∧ ∀ g ∈ groups, hex2Ok g = true) ∧
      (∀ t : List Char, isSingleMacPartialOk t = true ↔
        jsTrim t = [] ∨
          ∃ gs last, jsTrim t = joinSep '-' (gs ++ [last]) ∧
            gs.length + 1 ≤ 6 ∧ (∀ g ∈ gs, g ≠ [] ∧ hex2Ok g = true) ∧
            (last = [] ∨ hex12Ok last = true)) ∧
      (∀ value : String, isMacValid value = true ↔
        jsTrim value.data = [] ∨
          ∀ raw ∈ splitCh ',' value.data,
            jsTrim raw ≠ [] ∧ isSingleMacFullOk (jsTrim raw) = true) ∧
      (∀ init last, macItemsOk (init ++ [last]) = true ↔
        (∀ raw ∈ init, isSingleMacFullOk (jsTrim raw) = true) ∧
          (jsTrim last = [] ∨ isSingleMacPartialOk (jsTrim last) = true)) ∧
      (∀ value : String, jsTrim value.data ≠ [] →
        (isMacPartiallyValid value = "" ↔
          isMacValid value = true ∨
            macItemsOk (splitCh ',' value.data) = true)) :=
  ⟨by decide, by decide, by decide, by decide, isSingleMacFullOk_iff,
    isSingleMacPartialOk_iff, isMacValid_iff, macItemsOk_append,
    isMacPartiallyValid_empty_iff⟩

/-- Witness for C7's hypothesis-bearing part at the concrete input
`"AA-BB,"` (trailing comma after a partial MAC). -/
theorem C7_witness :
    isMacPartiallyValid "AA-BB," = "" ↔
      isMacValid "AA-BB," = true ∨
        macItemsOk (splitCh ',' ("AA-BB,".data)) = true :=
  C7_mac_validation.2.2.2.2.2.2.2.2 "AA-BB," (by decide)

/-! ### Claim C2: the family-mismatch verdict and its priority -/

/-- **C2.** `isIpPartiallyValid "192.168.1.1-::1"` reports the
family-mismatch message (kind `VersionMismatch`); and for every rejected
input in which a range mixes the two families (the mismatch detector of the
source, `hasIpVersionMismatchInRange`, fires), the reported message is the
family-mismatch one — it has the highest classifier priority, whatever
other classifier conditions also hold. -/
theorem C2_version_mismatch_priority :
    isIpPartiallyValid "192.168.1.1-::1" = TEXT_IP_VERSION_MISMATCH ∧
      ipVerdictKind "192.168.1.1-::1" = some ErrorKind.VersionMismatch ∧
      ∀ value : String, isIpPartiallyValid value ≠ "" →
        hasIpVersionMismatchInRange value.data = true →
        isIpPartiallyValid value = TEXT_IP_VERSION_MISMATCH := by
  refine ⟨by decide, by decide, ?_⟩
  intro value hrej hmis
  by_cases h1 : jsTrim value.data = []
  · simp [isIpPartiallyValid, h1] at hrej
  by_cases h2 : isIpValid value = true
  · simp [isIpPartiallyValid, h1, h2] at hrej
  by_cases h3 : isIpPartialAllowed value.data = true
  · simp [isIpPartiallyValid, h1, h2, h3] at hrej
  · simp [isIpPartiallyValid, h1, h2, h3, hmis]

/-- Witness for C2's quantified part at `"zz,192.168.1.1-::1"`, an input on
which both the disallowed-character condition and the mismatch condition
hold: the mismatch message still wins. -/
theorem C2_witness :
    isIpPartiallyValid "zz,192.168.1.1-::1" = TEXT_IP_VERSION_MISMATCH :=
  (C2_version_mismatch_priority.2.2 "zz,192.168.1.1-::1" (by decide) (by decide))

/-! ### Claim C6: double IPv6 compression -/

/-- **C6.** `"2001:db8::1::1"` (two `::` compressions) is rejected by the
full validator, the structural over-specification condition of the full
schema fires on it (`ipv6OverspecOk` is false since the token has more than
one `::`), and the partial validator rejects it with the generic
format message, i.e. kind `InvalidFormat` — not `VersionMismatch`,
`InvalidChars`, `RangeOrder`, the range-format message or `InvalidSubnet`. -/
theorem C6_double_compression :
    isIpValid "2001:db8::1::1" = false ∧
      ipv6OverspecOk "2001:db8::1::1".data = false ∧
      countDC "2001:db8::1::1".data = 2 ∧
      isIpPartiallyValid "2001:db8::1::1" = TEXT_IP_FORMAT ∧
      ipVerdictKind "2001:db8::1::1" = some ErrorKind.InvalidFormat := by
  refine ⟨by decide, by decide, by decide, by decide, by decide⟩

/-! ### Claim C8: empty and whitespace-only input -/

/-- **C8.** Every empty or whitespace-only input is accepted by all four
entry points. -/
theorem C8_whitespace_valid (value : String)
    (h : ∀ c ∈ value.data, isSpaceC c = true) :
    isIpValid value = true ∧ isIpPartiallyValid value = "" ∧
      isMacValid value = true ∧ isMacPartiallyValid value = "" := by
  have ht : jsTrim value.data = [] := jsTrim_of_all_space h
  refine ⟨?_, ?_, ?_, ?_⟩
  · simp [isIpValid, ht]
  · simp [isIpPartiallyValid, ht]
  · simp [isMacValid, ht]
  · simp [isMacPartiallyValid, ht]

/-- Witness for C8 at the two-space input. -/
theorem C8_witness :
    isIpValid "  " = true ∧ isIpPartiallyValid "  " = "" ∧
      isMacValid "  " = true ∧ isMacPartiallyValid "  " = "" :=
  C8_whitespace_valid "  " (by decide)

/-! ### Claim C9: totality, closed verdict sets, fail-open parsing -/

/-- **C9.** Every input yields a verdict drawn from the closed message
tables (the four validators are total Lean functions, so no input can
abort); and the CIDR mask guards only ever fire after their
`Number.parseInt` succeeded — a parsing failure leaves the guard
untriggered. -/
theorem C9_totality (value : String) :
    isIpPartiallyValid value ∈
        ["", TEXT_IP_VERSION_MISMATCH, TEXT_ALLOWED_CHARS, TEXT_RANGE_ORDER,
          TEXT_RANGE_ALLOWED, TEXT_INVALID_SUBNET, TEXT_IP_FORMAT] ∧
      isMacPartiallyValid value ∈
        ["", TEXT_ALLOWED_CHARS, TEXT_MAC_LIST, TEXT_INVALID_MAC] ∧
      (cidrV4MaskGuard value.data = true →
        ∃ item ∈ splitCh ',' value.data, ∃ rp ∈ splitCh '-' item,
          (parseDec (jsTrim ((splitCh '/' rp).getD 1 []))).isSome = true) ∧
      (cidrV6MaskGuard value.data = true →
        ∃ item ∈ splitCh ',' value.data, ∃ rp ∈ splitCh '-' item,
          (parseDec (jsTrim ((splitCh '/' rp).getD 1 []))).isSome = true) := by
  refine ⟨?_, ?_, ?_, ?_⟩
  · simp only [isIpPartiallyValid]
    repeat' split
    all_goals simp
  · simp only [isMacPartiallyValid]
    repeat' split
    all_goals simp
  · intro hg
    obtain ⟨item, hi, hitem⟩ := List.any_eq_true.mp hg
    obtain ⟨rp, hr, hrp⟩ := List.any_eq_true.mp hitem
    refine ⟨item, hi, rp, hr, ?_⟩
    rcases hp : parseDec (jsTrim ((splitCh '/' rp).getD 1 [])) with _ | m
    · rw [List.getD_eq_getElem?_getD] at hp
      simp [hp] at hrp
    · simp [hp]
  · intro hg
    obtain ⟨item, hi, hitem⟩ := List.any_eq_true.mp hg
    obtain ⟨rp, hr, hrp⟩ := List.any_eq_true.mp hitem
    refine ⟨item, hi, rp, hr, ?_⟩
    rcases hp : parseDec (jsTrim ((splitCh '/' rp).getD 1 [])) with _ | m
    · rw [List.getD_eq_getElem?_getD] at hp
      simp [hp] at hrp
    · simp [hp]

/-! ### Supporting facts for the CIDR mask analysis -/

theorem digit_facts {c : Char} (h : isDigitC c = true) :
    c ≠ '-' ∧ c ≠ '/' ∧ c ≠ ':' ∧ c ≠ ',' ∧ isSpaceC c = false ∧ c ≠ '.' := by
  have hd := digitDot_facts (c := c) (by simp [isDigitDotC, h])
  refine ⟨hd.1, hd.2.1, hd.2.2.1, hd.2.2.2.1, hd.2.2.2.2, ?_⟩
  intro hc
  rw [hc] at h
  exact absurd h (by decide)

theorem contains_true_of_mem {l : List Char} {a : Char} (h : a ∈ l) :
    l.contains a = true := by simpa using h

theorem contains_false_of {l : List Char} {a : Char} (h : ∀ c ∈ l, c ≠ a) :
    l.contains a = false := by
  simp
  intro hm
  exact absurd rfl (h a hm)

theorem any_not_false_of {l : List Char} {p : Char → Bool}
    (h : ∀ c ∈ l, p c = true) : (l.any fun c => !p c) = false := by
  cases hb : l.any (fun c => !p c) with
  | false => rfl
  | true =>
    obtain ⟨c, hc, hp⟩ := List.any_eq_true.mp hb
    rw [h c hc] at hp
    simp at hp

theorem getLast_ne_of_all {l : List Char} {a : Char} (h : ∀ c ∈ l, c ≠ a) :
    l.getLast? ≠ some a := by
  induction l with
  | nil => simp
  | cons c t ih =>
    cases t with
    | nil =>
      rw [List.getLast?_singleton]
      simpa using h c (by simp)
    | cons d t2 =>
      rw [List.getLast?_cons_cons]
      exact ih (fun x hx => h x (List.mem_cons_of_mem c hx))

theorem dotAny_of_not_space {c : Char} (h : isSpaceC c = false) :
    isDotAnyC c = true := by
  simp only [isSpaceC, Bool.or_eq_false_iff, decide_eq_false_iff_not] at h
  simp [isDotAnyC, h.1.1.1.2, h.1.1.2]

theorem hasTripleColon_decomp : ∀ {l : List Char}, hasTripleColon l = true →
    ∃ u w, l = u ++ ':' :: ':' :: ':' :: w := by
  intro l
  induction l with
  | nil => intro h; exact absurd h (by simp [hasTripleColon])
  | cons a t ih =>
    intro h
    unfold hasTripleColon at h
    split at h
    · rename_i heq
      exact ⟨[], _, heq⟩
    · rename_i x xs heq
      rw [List.cons.injEq] at heq
      obtain ⟨rfl, rfl⟩ := heq
      obtain ⟨u, w, huw⟩ := ih h
      exact ⟨a :: u, w, by simp [huw]⟩
    · exact absurd h (by simp)

theorem tripleColon_mpr : ∀ (u w : List Char),
    hasTripleColon (u ++ ':' :: ':' :: ':' :: w) = true := by
  intro u w
  induction u with
  | nil => rfl
  | cons a u2 ih =>
    rw [List.cons_append]
    unfold hasTripleColon
    split
    · rfl
    · rename_i x xs heq
      rw [List.cons.injEq] at heq
      rw [← heq.2]
      exact ih
    · rename_i heq
      simp at heq

theorem hasTripleColon_append_false {addr ms : List Char}
    (h1 : hasTripleColon addr = false) (h2 : ∀ c ∈ ms, c ≠ ':') :
    hasTripleColon (addr ++ '/' :: ms) = false := by
  cases hb : hasTripleColon (addr ++ '/' :: ms) with
  | false => rfl
  | true =>
    exfalso
    obtain ⟨u, w, huw⟩ := hasTripleColon_decomp hb
    rcases List.append_eq_append_iff.mp huw with ⟨a2, ha1, ha2⟩ | ⟨c2, hc1, hc2⟩
    · cases a2 with
      | nil => simp at ha2
      | cons x a3 =>
        rw [List.cons_append, List.cons.injEq] at ha2
        have hmem : (':' : Char) ∈ ms := by rw [ha2.2]; simp
        exact absurd rfl (h2 ':' hmem)
    · cases c2 with
      | nil => simp at hc2
      | cons x1 c1 =>
        rw [List.cons_append, List.cons.injEq] at hc2
        obtain ⟨hx1, hc2⟩ := hc2
        cases c1 with
        | nil => simp at hc2
        | cons x2 c2b =>
          rw [List.cons_append, List.cons.injEq] at hc2
          obtain ⟨hx2, hc2⟩ := hc2
          cases c2b with
          | nil => simp at hc2
          | cons x3 c3 =>
            rw [List.cons_append, List.cons.injEq] at hc2
            obtain ⟨hx3, -⟩ := hc2
            rw [← hx1, ← hx2, ← hx3] at hc1
            have hmp := tripleColon_mpr u c3
            rw [← hc1] at hmp
            rw [h1] at hmp
            exact absurd hmp (by decide)

theorem v4_not_v6 {u : List Char} (h4 : isFullIpv4Token u = true) :
    isFullIpv6Token u = false := by
  cases hb : isFullIpv6Token u with
  | false => rfl
  | true =>
    exfalso
    obtain ⟨-, ⟨c, hcm, rfl⟩, -⟩ := ipv6_token_facts hb
    exact absurd rfl ((digitDot_facts ((ipv4_token_facts h4).1 _ hcm)).2.2.1)

theorem v6_not_v4 {u : List Char} (h6 : isFullIpv6Token u = true) :
    isFullIpv4Token u = false := by
  cases hb : isFullIpv4Token u with
  | false => rfl
  | true =>
    rw [v4_not_v6 hb] at h6
    exact absurd h6 (by decide)

theorem cidrv4_token_false {addr ms : List Char}
    (haddr : isFullIpv4Token addr = true) (hval : 32 < decVal ms) :
    isValidCidrV4Token (addr ++ '/' :: ms) = false := by
  cases hb : isValidCidrV4Token (addr ++ '/' :: ms) with
  | false => rfl
  | true =>
    exfalso
    rw [isValidCidrV4Token, rmatch_iff] at hb
    cases hb with
    | cat h1 h2 =>
      obtain ⟨ms2, hm2, hdig2, hlo2, hhi2, hv2⟩ := mask_v4_words h2
      obtain ⟨u, hu, hcu⟩ := chars_of_match h1 impChars_IPV4_FULL
      rw [hm2] at hu
      simp only [List.append_nil] at hu
      obtain ⟨-, hms⟩ := split_at_marker addr hu
        (fun d hd => (digitDot_facts ((ipv4_token_facts haddr).1 d hd)).2.1)
        (fun d hd => (digitDot_facts (hcu d hd)).2.1)
      rw [← hms] at hv2
      omega

theorem cidrv6_token_false {addr ms : List Char}
    (haddr : isFullIpv6Token addr = true) (hval : 128 < decVal ms) :
    isValidCidrV6Token (addr ++ '/' :: ms) = false := by
  cases hb : isValidCidrV6Token (addr ++ '/' :: ms) with
  | false => rfl
  | true =>
    exfalso
    rw [isValidCidrV6Token, rmatch_iff] at hb
    cases hb with
    | cat h1 h2 =>
      obtain ⟨ms2, hm2, hdig2, hlo2, hhi2, hv2⟩ := mask_v6_words h2
      obtain ⟨u, hu, hcu⟩ := chars_of_match h1 impChars_IPV6_FULL
      rw [hm2] at hu
      simp only [List.append_nil] at hu
      obtain ⟨-, hms⟩ := split_at_marker addr hu
        (fun d hd => (hexColon_facts ((ipv6_token_facts haddr).1 d hd)).2.1)
        (fun d hd => (hexColon_facts (hcu d hd)).2.1)
      rw [← hms] at hv2
      omega


/-! ### Guard evaluation on a single complete-address CIDR token -/

theorem guards_common {addr ms : List Char}
    (hAsp : ∀ c ∈ addr, isSpaceC c = false)
    (hAnc : ∀ c ∈ addr, c ≠ ',')
    (hAnd : ∀ c ∈ addr, c ≠ '-')
    (hAnsl : ∀ c ∈ addr, c ≠ '/')
    (hms : ∀ c ∈ ms, isDigitC c = true) :
    jsTrim (addr ++ '/' :: ms) = addr ++ '/' :: ms ∧
    splitCh ',' (addr ++ '/' :: ms) = [addr ++ '/' :: ms] ∧
    splitCh '-' (addr ++ '/' :: ms) = [addr ++ '/' :: ms] ∧
    splitCh '/' (addr ++ '/' :: ms) = [addr, ms] ∧
    hasTrailingDotAfterFullIpv4 (addr ++ '/' :: ms) = false ∧
    rangeDashGuard (addr ++ '/' :: ms) = false ∧
    bareItemGuard (addr ++ '/' :: ms) = false ∧
    hasRangeOrderViolation (addr ++ '/' :: ms) = false ∧
    hasIpVersionMismatchInRange (addr ++ '/' :: ms) = false ∧
    (addr ++ '/' :: ms).contains '-' = false := by
  have hsp : ∀ c ∈ addr ++ '/' :: ms, isSpaceC c = false := by
    intro c hc
    rcases List.mem_append.mp hc with hc | hc
    · exact hAsp c hc
    · rcases List.mem_cons.mp hc with rfl | hc
      · decide
      · exact (digit_facts (hms c hc)).2.2.2.2.1
  have hnc : ∀ c ∈ addr ++ '/' :: ms, c ≠ ',' := by
    intro c hc
    rcases List.mem_append.mp hc with hc | hc
    · exact hAnc c hc
    · rcases List.mem_cons.mp hc with rfl | hc
      · decide
      · exact (digit_facts (hms c hc)).2.2.2.1
  have hnd : ∀ c ∈ addr ++ '/' :: ms, c ≠ '-' := by
    intro c hc
    rcases List.mem_append.mp hc with hc | hc
    · exact hAnd c hc
    · rcases List.mem_cons.mp hc with rfl | hc
      · decide
      · exact (digit_facts (hms c hc)).1
  have htrim : jsTrim (addr ++ '/' :: ms) = addr ++ '/' :: ms :=
    jsTrim_of_no_space hsp
  have hsplitc := splitCh_no_sep ',' _ hnc
  have hsplitd := splitCh_no_sep '-' _ hnd
  have hsplits : splitCh '/' (addr ++ '/' :: ms) = [addr, ms] := by
    rw [splitCh_append_sep '/' addr ms hAnsl,
      splitCh_no_sep '/' ms (fun c hc => (digit_facts (hms c hc)).2.1)]
  refine ⟨htrim, hsplitc, hsplitd, hsplits, ?_, ?_, ?_, ?_, ?_,
    contains_false_of hnd⟩
  · have hlast : ¬ (('/' :: ms).getLast? = some '.') :=
      getLast_ne_of_all (fun c hcm => by
        rcases List.mem_cons.mp hcm with rfl | hcm
        · decide
        · exact (digit_facts (hms c hcm)).2.2.2.2.2)
    unfold hasTrailingDotAfterFullIpv4
    rw [hsplitc]
    simp [hsplitd, htrim, hlast, getLast_append_cons]
  · unfold rangeDashGuard
    rw [hsplitc]
    simp [idxOfDash_none hnd]
  · unfold bareItemGuard
    rw [hsplitc]
    simp
  · unfold hasRangeOrderViolation
    rw [hsplitc]
    simp [hsplitd]
  · unfold hasIpVersionMismatchInRange
    rw [hsplitc]
    simp [hsplitd]

theorem v4_guards {addr ms : List Char}
    (haddr : isFullIpv4Token addr = true) (hms : ∀ c ∈ ms, isDigitC c = true) :
    hasTripleColon (addr ++ '/' :: ms) = false ∧
    ipv6StructGuard (addr ++ '/' :: ms) = false ∧
    cidrV6MaskGuard (addr ++ '/' :: ms) = false ∧
    ((addr ++ '/' :: ms).any fun c => !isIpAllowedC c) = false ∧
    (addr ++ '/' :: ms).contains ':' = false := by
  have hA := (ipv4_token_facts haddr).1
  have hnocol : ∀ c ∈ addr ++ '/' :: ms, c ≠ ':' := by
    intro c hc
    rcases List.mem_append.mp hc with hc | hc
    · exact (digitDot_facts (hA c hc)).2.2.1
    · rcases List.mem_cons.mp hc with rfl | hc
      · decide
      · exact (digit_facts (hms c hc)).2.2.1
  obtain ⟨htrim, hsplitc, hsplitd, hsplits, -, -, -, -, -, -⟩ :=
    guards_common (fun c hc => (digitDot_facts (hA c hc)).2.2.2.2)
      (fun c hc => (digitDot_facts (hA c hc)).2.2.2.1)
      (fun c hc => (digitDot_facts (hA c hc)).1)
      (fun c hc => (digitDot_facts (hA c hc)).2.1) hms
  have htrimA : jsTrim addr = addr :=
    jsTrim_of_no_space (fun c hc => (digitDot_facts (hA c hc)).2.2.2.2)
  have htrimM : jsTrim ms = ms :=
    jsTrim_of_no_space (fun c hc => (digit_facts (hms c hc)).2.2.2.2.1)
  have hAcolM : ':' ∉ addr :=
    fun hm => absurd rfl ((digitDot_facts (hA ':' hm)).2.2.1)
  have hMcolM : ':' ∉ ms :=
    fun hm => absurd rfl ((digit_facts (hms ':' hm)).2.2.1)
  refine ⟨hasTripleColon_false hnocol, ?_, ?_, ?_, contains_false_of hnocol⟩
  · unfold ipv6StructGuard
    rw [hsplitc]
    simp [hsplitd, hsplits, htrimA, htrimM, hAcolM, hMcolM]
  · unfold cidrV6MaskGuard
    rw [hsplitc]
    simp [hsplitd, hsplits, htrimA, htrimM, v4_not_v6 haddr]
  · apply any_not_false_of
    intro c hc
    rcases List.mem_append.mp hc with hc | hc
    · exact allowed_of_digitDot (hA c hc)
    · rcases List.mem_cons.mp hc with rfl | hc
      · decide
      · exact allowed_of_digitDot (by simp [isDigitDotC, hms c hc])

theorem v6_guards {addr ms : List Char}
    (haddr : isFullIpv6Token addr = true)
    (hstruct : ipv6TokenCond addr = false)
    (htc : hasTripleColon addr = false)
    (hms : ∀ c ∈ ms, isDigitC c = true) :
    hasTripleColon (addr ++ '/' :: ms) = false ∧
    ipv6StructGuard (addr ++ '/' :: ms) = false ∧
    cidrV4MaskGuard (addr ++ '/' :: ms) = false ∧
    ((addr ++ '/' :: ms).any fun c => !isIpAllowedC c) = false ∧
    (addr ++ '/' :: ms).contains ':' = true := by
  have hA := (ipv6_token_facts haddr).1
  obtain ⟨htrim, hsplitc, hsplitd, hsplits, -, -, -, -, -, -⟩ :=
    guards_common (fun c hc => (hexColon_facts (hA c hc)).2.2.2.2)
      (fun c hc => (hexColon_facts (hA c hc)).2.2.1)
      (fun c hc => (hexColon_facts (hA c hc)).1)
      (fun c hc => (hexColon_facts (hA c hc)).2.1) hms
  have htrimA : jsTrim addr = addr :=
    jsTrim_of_no_space (fun c hc => (hexColon_facts (hA c hc)).2.2.2.2)
  have htrimM : jsTrim ms = ms :=
    jsTrim_of_no_space (fun c hc => (digit_facts (hms c hc)).2.2.2.2.1)
  have hMcolM : ':' ∉ ms :=
    fun hm => absurd rfl ((digit_facts (hms ':' hm)).2.2.1)
  obtain ⟨ccol, hccm, rfl⟩ := (ipv6_token_facts haddr).2.1
  refine ⟨hasTripleColon_append_false htc
      (fun c hc => (digit_facts (hms c hc)).2.2.1), ?_, ?_, ?_,
    contains_true_of_mem (List.mem_append_left _ hccm)⟩
  · unfold ipv6StructGuard
    rw [hsplitc]
    simp [hsplitd, hsplits, htrimA, htrimM, hMcolM, hstruct]
  · unfold cidrV4MaskGuard
    rw [hsplitc]
    simp [hsplitd, hsplits, htrimA, htrimM, v6_not_v4 haddr]
  · apply any_not_false_of
    intro c hc
    rcases List.mem_append.mp hc with hc | hc
    · exact allowed_of_hexColon (hA c hc)
    · rcases List.mem_cons.mp hc with rfl | hc
      · decide
      · exact allowed_of_hexColon (by simp [isHexColonC, isHexC, hms c hc])

theorem partial_allowed_msg {value : String}
    (h : isIpPartialAllowed value.data = true) : isIpPartiallyValid value = "" := by
  simp [isIpPartiallyValid, h]

theorem subnet_msg_of {value : String}
    (h0 : ¬ (jsTrim value.data = []))
    (h1 : isIpValid value = false)
    (h2 : isIpPartialAllowed value.data = false)
    (h3 : hasIpVersionMismatchInRange value.data = false)
    (h4 : (value.data.any fun c => !isIpAllowedC c) = false)
    (h5 : hasRangeOrderViolation value.data = false)
    (h6 : '-' ∉ value.data)
    (h7 : '/' ∈ value.data) :
    isIpPartiallyValid value = TEXT_INVALID_SUBNET := by
  simp [isIpPartiallyValid, h0, h1, h2, h3, h4, h5, h6, h7]


/-! ### The four CIDR scenarios: complete address, digit mask -/

theorem v4_cidr_accept {value : String} {addr ms : List Char}
    (hv : value.data = addr ++ '/' :: ms)
    (haddr : isFullIpv4Token addr = true) (hms : ∀ c ∈ ms, isDigitC c = true)
    (hlen : ms.length ≤ 2) (hval : decVal ms ≤ 32) :
    isIpPartiallyValid value = "" := by
  apply partial_allowed_msg
  rw [hv]
  have hA := (ipv4_token_facts haddr).1
  obtain ⟨htrim, hsplitc, hsplitd, hsplits, g1, g2, g3, g8, g9, -⟩ :=
    guards_common (fun c hc => (digitDot_facts (hA c hc)).2.2.2.2)
      (fun c hc => (digitDot_facts (hA c hc)).2.2.2.1)
      (fun c hc => (digitDot_facts (hA c hc)).1)
      (fun c hc => (digitDot_facts (hA c hc)).2.1) hms
  obtain ⟨g4, g5, g7, -, -⟩ := v4_guards haddr hms
  have htrimM : jsTrim ms = ms :=
    jsTrim_of_no_space (fun c hc => (digit_facts (hms c hc)).2.2.2.2.1)
  have g6 : cidrV4MaskGuard (addr ++ '/' :: ms) = false := by
    by_cases hms0 : ms = []
    · subst hms0
      unfold cidrV4MaskGuard
      rw [hsplitc]
      simp [hsplitd, hsplits, jsTrim]
    · have hpd : parseDec ms = some (decVal ms) := parseDec_digits hms hms0
      unfold cidrV4MaskGuard
      rw [hsplitc]
      simp [hsplitd, hsplits, htrimM, hpd, Nat.not_lt.mpr hval]
  have hTne : ¬ (jsTrim (addr ++ '/' :: ms) = []) := by
    rw [htrim]
    simp
  have hmatch : rmatch PARTIAL_LIST (addr ++ '/' :: ms) = true := by
    rw [rmatch_iff]
    have h0 : MMatch IPV4_FULL addr [] := rmatch_iff.mp haddr
    have hfull : MMatch IPV4_FULL (addr ++ '/' :: ms) ('/' :: ms) := by
      have h2 := mmatch_append h0 lookFree_IPV4_FULL ('/' :: ms)
      simpa using h2
    have hrep : MMatch (.rep (.chr isDigitC) 0 2) ms [] := by
      have h2 := rep_chr_complete ms [] 0 2 hms (by omega) hlen
      simpa using h2
    have hopt : MMatch (opt (.cat (lit '/') (.rep (.chr isDigitC) 0 2)))
        ('/' :: ms) [] := .altL (.cat (.chr ms (by decide)) hrep)
    have hsp : MMatch SINGLE_PARTIAL (addr ++ '/' :: ms) [] :=
      .altL (.cat hfull hopt)
    exact .cat (.starNil _) (.cat hsp (.cat (.starNil [])
      (.cat (.altR (.eps [])) (.starNil []))))
  unfold isIpPartialAllowed
  simp [hTne, g1, g2, g3, g4, g5, g6, g7, g8, g9, hmatch]

theorem v4_cidr_reject {value : String} {addr ms : List Char}
    (hv : value.data = addr ++ '/' :: ms)
    (haddr : isFullIpv4Token addr = true) (hms : ∀ c ∈ ms, isDigitC c = true)
    (hval : 32 < decVal ms) :
    isIpPartiallyValid value = TEXT_INVALID_SUBNET := by
  have hA := (ipv4_token_facts haddr).1
  have hms0 : ms ≠ [] := by
    intro h
    rw [h] at hval
    simp [decVal] at hval
  obtain ⟨htrim, hsplitc, hsplitd, hsplits, g1, g2, g3, g8, g9, -⟩ :=
    guards_common (fun c hc => (digitDot_facts (hA c hc)).2.2.2.2)
      (fun c hc => (digitDot_facts (hA c hc)).2.2.2.1)
      (fun c hc => (digitDot_facts (hA c hc)).1)
      (fun c hc => (digitDot_facts (hA c hc)).2.1) hms
  obtain ⟨g4, g5, g7, hany, -⟩ := v4_guards haddr hms
  have htrimA : jsTrim addr = addr :=
    jsTrim_of_no_space (fun c hc => (digitDot_facts (hA c hc)).2.2.2.2)
  have htrimM : jsTrim ms = ms :=
    jsTrim_of_no_space (fun c hc => (digit_facts (hms c hc)).2.2.2.2.1)
  have hpd : parseDec ms = some (decVal ms) := parseDec_digits hms hms0
  have hEm : ms.isEmpty = false := isEmpty_false_iff.mpr hms0
  have g6 : cidrV4MaskGuard (addr ++ '/' :: ms) = true := by
    unfold cidrV4MaskGuard
    rw [hsplitc]
    simp [hsplitd, hsplits, htrimA, htrimM, hpd, hval, hEm, haddr]
  have hvcolM : ':' ∉ addr ++ '/' :: ms := by
    intro hm
    rcases List.mem_append.mp hm with hm | hm
    · exact absurd rfl ((digitDot_facts (hA ':' hm)).2.2.1)
    · rcases List.mem_cons.mp hm with h | hm
      · exact absurd h (by decide)
      · exact absurd rfl ((digit_facts (hms ':' hm)).2.2.1)
  have hvdashM : '-' ∉ addr ++ '/' :: ms := by
    intro hm
    rcases List.mem_append.mp hm with hm | hm
    · exact absurd rfl ((digitDot_facts (hA '-' hm)).1)
    · rcases List.mem_cons.mp hm with h | hm
      · exact absurd h (by decide)
      · exact absurd rfl ((digit_facts (hms '-' hm)).1)
  have hvmem : '/' ∈ addr ++ '/' :: ms := by simp
  have hvE : (addr ++ '/' :: ms).isEmpty = false := isEmpty_false_iff.mpr (by simp)
  have hcidr := cidrv4_token_false haddr hval
  have hctok : cidrTokensOk (addr ++ '/' :: ms) = false := by
    unfold cidrTokensOk
    rw [hsplitc]
    simp [hsplitd, htrim, hvE, hvmem, hvcolM, hcidr]
  have hvalid : isIpValid value = false := by
    simp only [isIpValid, hv, htrim]
    rw [if_neg (by simp : ¬ (addr ++ '/' :: ms = []))]
    unfold ipFullCheck
    simp [hctok]
  have hTne : ¬ (jsTrim (addr ++ '/' :: ms) = []) := by
    rw [htrim]
    simp
  have hpa : isIpPartialAllowed (addr ++ '/' :: ms) = false := by
    unfold isIpPartialAllowed
    simp [hTne, g1, g2, g3, g4, g5, g6]
  refine subnet_msg_of ?_ hvalid ?_ ?_ ?_ ?_ ?_ ?_
  · rw [hv]
    exact hTne
  · rw [hv]
    exact hpa
  · rw [hv]
    exact g9
  · rw [hv]
    exact hany
  · rw [hv]
    exact g8
  · rw [hv]
    exact hvdashM
  · rw [hv]
    exact hvmem

theorem v6_cidr_accept {value : String} {addr ms : List Char}
    (hv : value.data = addr ++ '/' :: ms)
    (haddr : isFullIpv6Token addr = true)
    (hstruct : ipv6TokenCond addr = false)
    (htc : hasTripleColon addr = false)
    (hms : ∀ c ∈ ms, isDigitC c = true)
    (hlen : ms.length ≤ 3) (hval : decVal ms ≤ 128) :
    isIpPartiallyValid value = "" := by
  apply partial_allowed_msg
  rw [hv]
  have hA := (ipv6_token_facts haddr).1
  have hlen39 := (ipv6_token_facts haddr).2.2
  obtain ⟨htrim, hsplitc, hsplitd, hsplits, g1, g2, g3, g8, g9, -⟩ :=
    guards_common (fun c hc => (hexColon_facts (hA c hc)).2.2.2.2)
      (fun c hc => (hexColon_facts (hA c hc)).2.2.1)
      (fun c hc => (hexColon_facts (hA c hc)).1)
      (fun c hc => (hexColon_facts (hA c hc)).2.1) hms
  obtain ⟨g4, g5, g6, -, -⟩ := v6_guards haddr hstruct htc hms
  have htrimM : jsTrim ms = ms :=
    jsTrim_of_no_space (fun c hc => (digit_facts (hms c hc)).2.2.2.2.1)
  have g7 : cidrV6MaskGuard (addr ++ '/' :: ms) = false := by
    by_cases hms0 : ms = []
    · subst hms0
      unfold cidrV6MaskGuard
      rw [hsplitc]
      simp [hsplitd, hsplits, jsTrim]
    · have hpd : parseDec ms = some (decVal ms) := parseDec_digits hms hms0
      unfold cidrV6MaskGuard
      rw [hsplitc]
      simp [hsplitd, hsplits, htrimM, hpd, Nat.not_lt.mpr hval]
  have hTne : ¬ (jsTrim (addr ++ '/' :: ms) = []) := by
    rw [htrim]
    simp
  have hmatch : rmatch PARTIAL_LIST (addr ++ '/' :: ms) = true := by
    rw [rmatch_iff]
    obtain ⟨ccol, hccm, rflc⟩ := (ipv6_token_facts haddr).2.1
    subst rflc
    obtain ⟨u1, u2, hdec⟩ := List.append_of_mem hccm
    have hrep : MMatch (.rep (.chr isHexColonC) 1 39) (addr ++ '/' :: ms)
        ('/' :: ms) :=
      rep_chr_complete addr ('/' :: ms) 1 39 hA
        (List.length_pos.mpr (List.ne_nil_of_mem hccm)) hlen39
    have hlook : MMatch (.cat (.star (.chr isDotAnyC)) (lit ':'))
        (addr ++ '/' :: ms) (u2 ++ '/' :: ms) := by
      rw [hdec]
      simp only [List.append_assoc, List.cons_append]
      exact MMatch.cat (star_chr_complete u1 (':' :: (u2 ++ '/' :: ms))
        (fun c hc => dotAny_of_not_space
          (hexColon_facts (hA c (by rw [hdec]; exact List.mem_append_left _ hc))).2.2.2.2))
        (.chr _ (by decide))
    have hfull6 : MMatch IPV6_PARTIAL (addr ++ '/' :: ms) ('/' :: ms) :=
      .cat (.look hlook) hrep
    have hrep3 : MMatch (.rep (.chr isDigitC) 0 3) ms [] := by
      have h2 := rep_chr_complete ms [] 0 3 hms (by omega) hlen
      simpa using h2
    have hopt : MMatch (opt (.cat (lit '/') (.rep (.chr isDigitC) 0 3)))
        ('/' :: ms) [] := .altL (.cat (.chr ms (by decide)) hrep3)
    have hsp : MMatch SINGLE_PARTIAL (addr ++ '/' :: ms) [] :=
      .altR (.altR (.altL (.cat hfull6 hopt)))
    exact .cat (.starNil _) (.cat hsp (.cat (.starNil [])
      (.cat (.altR (.eps [])) (.starNil []))))
  unfold isIpPartialAllowed
  simp [hTne, g1, g2, g3, g4, g5, g6, g7, g8, g9, hmatch]

theorem v6_cidr_reject {value : String} {addr ms : List Char}
    (hv : value.data = addr ++ '/' :: ms)
    (haddr : isFullIpv6Token addr = true)
    (hstruct : ipv6TokenCond addr = false)
    (htc : hasTripleColon addr = false)
    (hms : ∀ c ∈ ms, isDigitC c = true)
    (hval : 128 < decVal ms) :
    isIpPartiallyValid value = TEXT_INVALID_SUBNET := by
  have hA := (ipv6_token_facts haddr).1
  have hms0 : ms ≠ [] := by
    intro h
    rw [h] at hval
    simp [decVal] at hval
  obtain ⟨htrim, hsplitc, hsplitd, hsplits, g1, g2, g3, g8, g9, -⟩ :=
    guards_common (fun c hc => (hexColon_facts (hA c hc)).2.2.2.2)
      (fun c hc => (hexColon_facts (hA c hc)).2.2.1)
      (fun c hc => (hexColon_facts (hA c hc)).1)
      (fun c hc => (hexColon_facts (hA c hc)).2.1) hms
  obtain ⟨g4, g5, g6, hany, -⟩ := v6_guards haddr hstruct htc hms
  have htrimA : jsTrim addr = addr :=
    jsTrim_of_no_space (fun c hc => (hexColon_facts (hA c hc)).2.2.2.2)
  have htrimM : jsTrim ms = ms :=
    jsTrim_of_no_space (fun c hc => (digit_facts (hms c hc)).2.2.2.2.1)
  have hpd : parseDec ms = some (decVal ms) := parseDec_digits hms hms0
  have hEm : ms.isEmpty = false := isEmpty_false_iff.mpr hms0
  have g7 : cidrV6MaskGuard (addr ++ '/' :: ms) = true := by
    unfold cidrV6MaskGuard
    rw [hsplitc]
    simp [hsplitd, hsplits, htrimA, htrimM, hpd, hval, hEm, haddr]
  obtain ⟨ccol, hccm, rflc⟩ := (ipv6_token_facts haddr).2.1
  subst rflc
  have hvcol : ':' ∈ addr ++ '/' :: ms := List.mem_append_left _ hccm
  have hvdashM : '-' ∉ addr ++ '/' :: ms := by
    intro hm
    rcases List.mem_append.mp hm with hm | hm
    · exact absurd rfl ((hexColon_facts (hA '-' hm)).1)
    · rcases List.mem_cons.mp hm with h | hm
      · exact absurd h (by decide)
      · exact absurd rfl ((digit_facts (hms '-' hm)).1)
  have hvmem : '/' ∈ addr ++ '/' :: ms := by simp
  have hvE : (addr ++ '/' :: ms).isEmpty = false := isEmpty_false_iff.mpr (by simp)
  have hcidr := cidrv6_token_false haddr hval
  have hctok : cidrTokensOk (addr ++ '/' :: ms) = false := by
    unfold cidrTokensOk
    rw [hsplitc]
    simp [hsplitd, htrim, hvE, hvmem, hvcol, hcidr]
  have hvalid : isIpValid value = false := by
    simp only [isIpValid, hv, htrim]
    rw [if_neg (by simp : ¬ (addr ++ '/' :: ms = []))]
    unfold ipFullCheck
    simp [hctok]
  have hTne : ¬ (jsTrim (addr ++ '/' :: ms) = []) := by
    rw [htrim]
    simp
  have hpa : isIpPartialAllowed (addr ++ '/' :: ms) = false := by
    unfold isIpPartialAllowed
    simp [hTne, g1, g2, g3, g4, g5, g6, g7]
  refine subnet_msg_of ?_ hvalid ?_ ?_ ?_ ?_ ?_ ?_
  · rw [hv]
    exact hTne
  · rw [hv]
    exact hpa
  · rw [hv]
    exact g9
  · rw [hv]
    exact hany
  · rw [hv]
    exact g8
  · rw [hv]
    exact hvdashM
  · rw [hv]
    exact hvmem


/-! ### Claim C3: the CIDR mask bound in partial mode -/

/-- **C3 (amended).**  Concrete parts: `"192.168.1.1/33"` is rejected with
kind `InvalidSubnet` while `"192.168.1.1/3"` is accepted.  General part: for
a token `addr/ms` whose address part is a complete IPv4 address and whose
mask part is a digit string of at most 2 digits (the most the partial
grammar admits), the partial validator accepts exactly when the mask value
is at most 32, and any violation is reported as the subnet message; for a
complete IPv6 address that also passes the partial mode's structural
colon-pattern conditions, the same holds with 3 digits and bound 128. -/
theorem C3_cidr_mask_bound :
    (isIpPartiallyValid "192.168.1.1/33" = TEXT_INVALID_SUBNET ∧
      ipVerdictKind "192.168.1.1/33" = some ErrorKind.InvalidSubnet ∧
      isIpPartiallyValid "192.168.1.1/3" = "") ∧
    (∀ addr ms : List Char, isFullIpv4Token addr = true →
      (∀ c ∈ ms, isDigitC c = true) → ms.length ≤ 2 →
      ((isIpPartiallyValid (String.mk (addr ++ '/' :: ms)) = "" ↔
          decVal ms ≤ 32) ∧
        (32 < decVal ms →
          isIpPartiallyValid (String.mk (addr ++ '/' :: ms)) =
            TEXT_INVALID_SUBNET))) ∧
    (∀ addr ms : List Char, isFullIpv6Token addr = true →
      ipv6TokenCond addr = false → hasTripleColon addr = false →
      (∀ c ∈ ms, isDigitC c = true) → ms.length ≤ 3 →
      ((isIpPartiallyValid (String.mk (addr ++ '/' :: ms)) = "" ↔
          decVal ms ≤ 128) ∧
        (128 < decVal ms →
          isIpPartiallyValid (String.mk (addr ++ '/' :: ms)) =
            TEXT_INVALID_SUBNET))) := by
  refine ⟨⟨by decide, by decide, by decide⟩, ?_, ?_⟩
  · intro addr ms haddr hms hlen
    refine ⟨⟨?_, fun hle => v4_cidr_accept rfl haddr hms hlen hle⟩,
      fun hgt => v4_cidr_reject rfl haddr hms hgt⟩
    intro hmsg
    by_contra hgt
    rw [Nat.not_le] at hgt
    rw [v4_cidr_reject rfl haddr hms hgt] at hmsg
    exact absurd hmsg (by decide)
  · intro addr ms haddr hstruct htc hms hlen
    refine ⟨⟨?_, fun hle => v6_cidr_accept rfl haddr hstruct htc hms hlen hle⟩,
      fun hgt => v6_cidr_reject rfl haddr hstruct htc hms hgt⟩
    intro hmsg
    by_contra hgt
    rw [Nat.not_le] at hgt
    rw [v6_cidr_reject rfl haddr hstruct htc hms hgt] at hmsg
    exact absurd hmsg (by decide)

/-- **C3, counterexample to the literal claim.**  The claim says a token
with a complete address part is rejected exactly when the typed mask digits
parse to a number exceeding the bound.  `"192.168.1.1/004"` has a complete
IPv4 address part and its mask digits parse to 4 ≤ 32, yet the validator
rejects it (three mask digits exceed what the partial grammar admits); and
`"1:2:3:4:5:6:7::/1"` has a complete IPv6 address part with mask value
1 ≤ 128, yet it is rejected (the partial mode's structural colon conditions
reject the address itself). -/
theorem C3_counterexample :
    isFullIpv4Token "192.168.1.1".data = true ∧
    parseDec "004".data = some 4 ∧
    isIpPartiallyValid "192.168.1.1/004" = TEXT_INVALID_SUBNET ∧
    isFullIpv6Token "1:2:3:4:5:6:7::".data = true ∧
    parseDec "1".data = some 1 ∧
    isIpPartiallyValid "1:2:3:4:5:6:7::/1" = TEXT_INVALID_SUBNET := by
  exact ⟨by decide, by decide, by decide, by decide, by decide, by decide⟩

/-- **C3, witness.**  The amended theorem applied at `"10.0.0.1/33"`
(rejected, subnet message) and `"fe80::1/64"` (accepted). -/
theorem C3_witness :
    isIpPartiallyValid (String.mk ("10.0.0.1".data ++ '/' :: "33".data)) =
      TEXT_INVALID_SUBNET ∧
    isIpPartiallyValid (String.mk ("fe80::1".data ++ '/' :: "64".data)) = "" := by
  constructor
  · exact (C3_cidr_mask_bound.2.1 "10.0.0.1".data "33".data (by decide)
      (by decide) (by decide)).2 (by decide)
  · exact ((C3_cidr_mask_bound.2.2 "fe80::1".data "64".data (by decide)
      (by decide) (by decide) (by decide) (by decide)).1).mpr (by decide)


/-! ### Monotonicity of the character-set and needed-character predicates -/

theorem impChars_mono {p q : Char → Bool} (hpq : ∀ c, p c = true → q c = true) :
    ∀ r, impChars p r → impChars q r := by
  intro r
  induction r with
  | eps => exact fun _ => trivial
  | chr f => exact fun h c hc => hpq c (h c hc)
  | cat a b iha ihb => exact fun h => ⟨iha h.1, ihb h.2⟩
  | alt a b iha ihb => exact fun h => ⟨iha h.1, ihb h.2⟩
  | star a iha => exact fun h => iha h
  | rep a lo hi iha => exact fun h => iha h
  | look a iha => exact fun _ => trivial

theorem needP_mono {p q : Char → Bool} (hpq : ∀ c, p c = true → q c = true) :
    ∀ r, needP p r → needP q r := by
  intro r
  induction r with
  | eps => exact fun h => h.elim
  | chr f => exact fun h c hc => hpq c (h c hc)
  | cat a b iha ihb =>
    exact fun h => h.elim (fun h1 => Or.inl (iha h1)) (fun h2 => Or.inr (ihb h2))
  | alt a b iha ihb => exact fun h => ⟨iha h.1, ihb h.2⟩
  | star a iha => exact fun h => h.elim
  | rep a lo hi iha => exact fun h => ⟨h.1, iha h.2⟩
  | look a iha => exact fun h => h.elim

theorem star_chr_sound {p : Char → Bool} :
    ∀ (n : Nat) (s t : List Char), s.length ≤ n →
      MMatch (.star (.chr p)) s t →
      ∃ u, s = u ++ t ∧ ∀ c ∈ u, p c = true := by
  intro n
  induction n with
  | zero =>
    intro s t hn h
    cases h with
    | starNil => exact ⟨[], rfl, by simp⟩
    | starCons h1 hlt h2 => omega
  | succ n ih =>
    intro s t hn h
    cases h with
    | starNil => exact ⟨[], rfl, by simp⟩
    | starCons h1 hlt h2 =>
      rename_i m
      cases h1 with
      | chr c hc =>
        rename_i c
        obtain ⟨u2, hu2, hp2⟩ := ih m t (by simp at hn; omega) h2
        refine ⟨c :: u2, by simp [hu2], ?_⟩
        intro d hd
        rcases List.mem_cons.mp hd with rfl | hd
        · exact hc
        · exact hp2 d hd

theorem splitCh_append_left {sep : Char} : ∀ (x : List Char) {y : List Char}
    {h0 : List Char} {t0 : List (List Char)}, (∀ c ∈ x, c ≠ sep) →
    splitCh sep y = h0 :: t0 → splitCh sep (x ++ y) = (x ++ h0) :: t0 := by
  intro x
  induction x with
  | nil =>
    intro y h0 t0 hx hy
    simpa using hy
  | cons c x2 ih =>
    intro y h0 t0 hx hy
    rw [List.cons_append]
    unfold splitCh
    rw [if_neg (hx c (by simp))]
    rw [ih (fun d hd => hx d (by simp [hd])) hy]
    rfl

/-! ### Character facts for the `SINGLE_FULL` alternatives -/

theorem tok_facts {c : Char} (h : tokC c = true) :
    c ≠ ',' ∧ c ≠ '-' ∧ isSpaceC c = false := by
  simp only [tokC, Bool.or_eq_true, decide_eq_true_eq] at h
  rcases h with (h | h) | h
  · exact ⟨(digitDot_facts h).2.2.2.1, (digitDot_facts h).1,
      (digitDot_facts h).2.2.2.2⟩
  · exact ⟨(hexColon_facts h).2.2.1, (hexColon_facts h).1,
      (hexColon_facts h).2.2.2.2⟩
  · subst h
    exact ⟨by decide, by decide, by decide⟩

theorem space_facts {c : Char} (h : isSpaceC c = true) :
    c ≠ ',' ∧ c ≠ '-' ∧ c ≠ '.' ∧ c ≠ ':' := by
  simp only [isSpaceC, Bool.or_eq_true, decide_eq_true_eq] at h
  rcases h with ((((h | h) | h) | h) | h) | h <;> subst h <;>
    exact ⟨by decide, by decide, by decide, by decide⟩

theorem range_facts {c : Char} (h : rangeC c = true) : c ≠ ',' := by
  simp only [rangeC, Bool.or_eq_true, decide_eq_true_eq] at h
  rcases h with (h | h) | h
  · exact (tok_facts h).1
  · exact (space_facts h).1
  · subst h
    decide

theorem tok_of_digit {c : Char} (h : isDigitC c = true) : tokC c = true := by
  simp [tokC, isDigitDotC, h]

theorem tok_of_digitDot {c : Char} (h : isDigitDotC c = true) : tokC c = true := by
  simp [tokC, h]

theorem tok_of_hexColon {c : Char} (h : isHexColonC c = true) : tokC c = true := by
  simp [tokC, h]

theorem range_of_tok {c : Char} (h : tokC c = true) : rangeC c = true := by
  simp [rangeC, h]

theorem range_of_space {c : Char} (h : isSpaceC c = true) : rangeC c = true := by
  simp [rangeC, h]

theorem impChars_tok_SUF4 : impChars tokC CIDR_SUFFIX_V4 := by
  refine ⟨?_, ⟨?_, ?_⟩, ⟨?_, ?_⟩, ?_⟩
  · intro c hc
    rw [of_decide_eq_true hc]
    decide
  · intro c hc
    rw [of_decide_eq_true hc]
    decide
  · intro c hc
    simp only [Bool.and_eq_true, decide_eq_true_eq] at hc
    exact tok_of_digit (by
      simp only [isDigitC, Bool.and_eq_true, decide_eq_true_eq]
      exact ⟨hc.1, le_trans hc.2 (by decide)⟩)
  · intro c hc
    simp only [Bool.or_eq_true, decide_eq_true_eq] at hc
    rcases hc with rfl | rfl <;> decide
  · intro c hc
    exact tok_of_digit hc
  · intro c hc
    exact tok_of_digit hc

theorem impChars_tok_SUF6 : impChars tokC CIDR_SUFFIX_V6 := by
  refine ⟨?_, ⟨?_, ?_, ?_⟩, ⟨?_, ?_, ?_⟩, ?_⟩
  · intro c hc
    rw [of_decide_eq_true hc]
    decide
  · intro c hc
    rw [of_decide_eq_true hc]
    decide
  · intro c hc
    rw [of_decide_eq_true hc]
    decide
  · intro c hc
    simp only [Bool.and_eq_true, decide_eq_true_eq] at hc
    exact tok_of_digit (by
      simp only [isDigitC, Bool.and_eq_true, decide_eq_true_eq]
      exact ⟨hc.1, le_trans hc.2 (by decide)⟩)
  · intro c hc
    rw [of_decide_eq_true hc]
    decide
  · intro c hc
    simp only [Bool.or_eq_true, decide_eq_true_eq] at hc
    rcases hc with rfl | rfl <;> decide
  · intro c hc
    exact tok_of_digit hc
  · intro c hc
    exact tok_of_digit hc

theorem impChars_tok_IPV4 : impChars tokC IPV4_FULL :=
  impChars_mono (fun _ h => tok_of_digitDot h) _ impChars_IPV4_FULL

theorem impChars_tok_IPV6 : impChars tokC IPV6_FULL :=
  impChars_mono (fun _ h => tok_of_hexColon h) _ impChars_IPV6_FULL

theorem impChars_range_R4 : impChars rangeC IPV4_RANGE_FULL := by
  refine ⟨?_, ?_, ?_, ?_, ?_⟩
  · exact impChars_mono (fun _ h => range_of_tok (tok_of_digitDot h)) _
      impChars_IPV4_FULL
  · exact impChars_mono (fun _ h => range_of_space h) _ impChars_WS
  · intro c hc
    rw [of_decide_eq_true hc]
    decide
  · exact impChars_mono (fun _ h => range_of_space h) _ impChars_WS
  · exact impChars_mono (fun _ h => range_of_tok (tok_of_digitDot h)) _
      impChars_IPV4_FULL

theorem impChars_range_R6 : impChars rangeC IPV6_RANGE_FULL := by
  refine ⟨?_, ?_, ?_, ?_, ?_⟩
  · exact impChars_mono (fun _ h => range_of_tok (tok_of_hexColon h)) _
      impChars_IPV6_FULL
  · exact impChars_mono (fun _ h => range_of_space h) _ impChars_WS
  · intro c hc
    rw [of_decide_eq_true hc]
    decide
  · exact impChars_mono (fun _ h => range_of_space h) _ impChars_WS
  · exact impChars_mono (fun _ h => range_of_tok (tok_of_hexColon h)) _
      impChars_IPV6_FULL

theorem impChars_nc_SINGLE :
    impChars (fun c => !decide (c = ',')) SINGLE_FULL := by
  have htok : ∀ c, tokC c = true → (!decide (c = ',')) = true :=
    fun c h => by simp [(tok_facts h).1]
  have hrange : ∀ c, rangeC c = true → (!decide (c = ',')) = true :=
    fun c h => by simp [range_facts h]
  exact ⟨impChars_mono htok _ ⟨impChars_tok_IPV4, impChars_tok_SUF4⟩,
    impChars_mono hrange _ impChars_range_R4,
    impChars_mono htok _ impChars_tok_IPV4,
    impChars_mono htok _ ⟨impChars_tok_IPV6, impChars_tok_SUF6⟩,
    impChars_mono hrange _ impChars_range_R6,
    impChars_mono htok _ impChars_tok_IPV6⟩

theorem needP_dc_SINGLE :
    needP (fun c => decide (c = '.') || decide (c = ':')) SINGLE_FULL := by
  have hdot : needP (fun c => decide (c = '.') || decide (c = ':')) IPV4_FULL :=
    needP_mono (fun c h => by simp [h]) _ needP_dot_IPV4_FULL
  have hcol : needP (fun c => decide (c = '.') || decide (c = ':')) IPV6_FULL :=
    needP_mono (fun c h => by simp [h]) _ needP_colon_IPV6_FULL
  exact ⟨Or.inl hdot, Or.inl hdot, hdot, Or.inl hcol, Or.inl hcol, hcol⟩

theorem mem_dropWhile_of {p : Char → Bool} {l : List Char} {c : Char}
    (hm : c ∈ l) (hc : p c = false) : c ∈ l.dropWhile p := by
  have hsplit := List.takeWhile_append_dropWhile (p := p) (l := l)
  rw [← hsplit] at hm
  rcases List.mem_append.mp hm with h | h
  · have := List.mem_takeWhile_imp h
    rw [hc] at this
    exact absurd this (by decide)
  · exact h

theorem mem_jsTrim_of_mem {s : List Char} {c : Char} (hm : c ∈ s)
    (hs : isSpaceC c = false) : c ∈ jsTrim s := by
  unfold jsTrim
  rw [List.mem_reverse]
  exact mem_dropWhile_of (List.mem_reverse.mpr (mem_dropWhile_of hm hs)) hs


/-! ### Decomposing a `FULL_LIST` match into its comma items -/

theorem nc_of {c : Char} (h : (!decide (c = ',')) = true) : c ≠ ',' := by
  simpa using h

theorem star_iter_decomp :
    ∀ (n : Nat) {s t : List Char}, s.length ≤ n →
      MMatch (.star (.cat WS (.cat (lit ',') (.cat WS SINGLE_FULL)))) s t →
      (∀ c ∈ t, isSpaceC c = true) →
      (∀ c ∈ (splitCh ',' s).headD [], isSpaceC c = true) ∧
        (∀ item ∈ (splitCh ',' s).tail, ItemOk item) := by
  intro n
  induction n with
  | zero =>
    intro s t hn h ht
    cases h with
    | starNil =>
      rw [splitCh_no_sep ',' s (fun c hc => (space_facts (ht c hc)).1)]
      exact ⟨ht, by simp⟩
    | starCons h1 hlt h2 => omega
  | succ n ih =>
    intro s t hn h ht
    cases h with
    | starNil =>
      rw [splitCh_no_sep ',' s (fun c hc => (space_facts (ht c hc)).1)]
      exact ⟨ht, by simp⟩
    | starCons h1 hlt h2 =>
      rename_i m
      cases h1 with
      | cat hwsA hrest =>
        rename_i m1
        cases hrest with
        | cat hcomma hrest2 =>
          rename_i m2
          cases hcomma with
          | chr t2 hcc =>
            have hceq := of_decide_eq_true hcc
            subst hceq
            cases hrest2 with
            | cat hwsB hsf =>
              rename_i m3
              obtain ⟨wA, hwAeq, hwAsp⟩ :=
                star_chr_sound s.length s _ (le_refl _) hwsA
              obtain ⟨wB, hwBeq, hwBsp⟩ :=
                star_chr_sound m2.length m2 m3 (le_refl _) hwsB
              obtain ⟨u1, hu1eq, hu1nc⟩ := chars_of_match hsf impChars_nc_SINGLE
              have hsfm : MMatch SINGLE_FULL u1 [] :=
                mmatch_split hsf lookFree_SINGLE_FULL u1 hu1eq
              obtain ⟨hm, rm, hmx⟩ : ∃ hm rm, splitCh ',' m = hm :: rm := by
                cases hx : splitCh ',' m with
                | nil => exact absurd hx (splitCh_ne_nil ',' m)
                | cons a b => exact ⟨a, b, rfl⟩
              obtain ⟨ihm1, ihm2⟩ := ih (s := m) (t := t)
                (by have := hlt; omega) h2 ht
              rw [hmx] at ihm1 ihm2
              simp only [List.headD_cons] at ihm1
              simp only [List.tail_cons] at ihm2
              have hs1 : splitCh ',' (u1 ++ m) = (u1 ++ hm) :: rm :=
                splitCh_append_left u1 (fun c hc => nc_of (hu1nc c hc)) hmx
              have hs2 : splitCh ',' (wB ++ (u1 ++ m)) =
                  (wB ++ (u1 ++ hm)) :: rm :=
                splitCh_append_left wB
                  (fun c hc => (space_facts (hwBsp c hc)).1) hs1
              have hsfull : splitCh ',' s =
                  wA :: (wB ++ (u1 ++ hm)) :: rm := by
                rw [hwAeq,
                  splitCh_append_sep ','  wA _
                    (fun c hc => (space_facts (hwAsp c hc)).1),
                  show m2 = wB ++ (u1 ++ m) from by rw [hwBeq, hu1eq], hs2]
              rw [hsfull]
              refine ⟨?_, ?_⟩
              · simp only [List.headD_cons]
                exact hwAsp
              · simp only [List.tail_cons]
                intro item hitem
                rcases List.mem_cons.mp hitem with rfl | hitem
                · exact ⟨wB, u1, hm, by simp, hwBsp, ihm1, hsfm⟩
                · exact ihm2 item hitem

theorem full_list_decomp {v : List Char} (h : MMatch FULL_LIST v []) :
    ∀ item ∈ splitCh ',' v, ItemOk item := by
  cases h with
  | cat hws hrest =>
    rename_i m1
    cases hrest with
    | cat hsf hrest2 =>
      rename_i m2
      cases hrest2 with
      | cat hstar hws2 =>
        rename_i m3
        obtain ⟨w0, hw0, hw0sp⟩ := star_chr_sound v.length v m1 (le_refl _) hws
        obtain ⟨w3, hw3, hw3sp⟩ := star_chr_sound m3.length m3 [] (le_refl _) hws2
        rw [List.append_nil] at hw3
        obtain ⟨u0, hu0, hu0nc⟩ := chars_of_match hsf impChars_nc_SINGLE
        have hsfm : MMatch SINGLE_FULL u0 [] :=
          mmatch_split hsf lookFree_SINGLE_FULL u0 hu0
        have hm3sp : ∀ c ∈ m3, isSpaceC c = true := fun c hc =>
          hw3sp c (hw3 ▸ hc)
        obtain ⟨ih1, ih2⟩ := star_iter_decomp m2.length (le_refl _) hstar hm3sp
        obtain ⟨hm, rm, hmx⟩ : ∃ hm rm, splitCh ',' m2 = hm :: rm := by
          cases hx : splitCh ',' m2 with
          | nil => exact absurd hx (splitCh_ne_nil ',' m2)
          | cons a b => exact ⟨a, b, rfl⟩
        rw [hmx] at ih1 ih2
        simp only [List.headD_cons] at ih1
        simp only [List.tail_cons] at ih2
        have hsfull : splitCh ',' v = (w0 ++ (u0 ++ hm)) :: rm := by
          rw [hw0, hu0]
          exact splitCh_append_left w0
            (fun c hc => (space_facts (hw0sp c hc)).1)
            (splitCh_append_left u0 (fun c hc => nc_of (hu0nc c hc)) hmx)
        rw [hsfull]
        intro item hitem
        rcases List.mem_cons.mp hitem with rfl | hitem
        · exact ⟨w0, u0, hm, by simp, hw0sp, ih1, hsfm⟩
        · exact ih2 item hitem

theorem fullmatch_pad {w p q : List Char} (h : MMatch FULL_LIST w [])
    (hp : ∀ c ∈ p, isSpaceC c = true) (hq : ∀ c ∈ q, isSpaceC c = true) :
    MMatch FULL_LIST (p ++ w ++ q) [] := by
  cases h with
  | cat hws hrest =>
    rename_i m1
    cases hrest with
    | cat hsf hrest2 =>
      rename_i m2
      cases hrest2 with
      | cat hstar hws2 =>
        rename_i m3
        obtain ⟨w0, hw0, hw0sp⟩ := star_chr_sound w.length w m1 (le_refl _) hws
        obtain ⟨w3, hw3, hw3sp⟩ := star_chr_sound m3.length m3 [] (le_refl _) hws2
        rw [List.append_nil] at hw3
        have c1 : MMatch WS (p ++ w ++ q) (m1 ++ q) := by
          have hws3 : MMatch WS ((p ++ w0) ++ (m1 ++ q)) (m1 ++ q) :=
            star_chr_complete (p ++ w0) (m1 ++ q) (fun c hc => by
              rcases List.mem_append.mp hc with hc | hc
              · exact hp c hc
              · exact hw0sp c hc)
          have heq : (p ++ w0) ++ (m1 ++ q) = p ++ w ++ q := by
            rw [hw0]
            simp
          rwa [heq] at hws3
        have c2 : MMatch SINGLE_FULL (m1 ++ q) (m2 ++ q) :=
          mmatch_append hsf lookFree_SINGLE_FULL q
        have c3 : MMatch
            (.star (.cat WS (.cat (lit ',') (.cat WS SINGLE_FULL))))
            (m2 ++ q) (m3 ++ q) :=
          mmatch_append hstar rfl q
        have c4 : MMatch WS (m3 ++ q) [] := by
          have hws4 : MMatch WS ((m3 ++ q) ++ []) [] :=
            star_chr_complete (m3 ++ q) [] (fun c hc => by
              rcases List.mem_append.mp hc with hc | hc
              · rw [hw3] at hc
                exact hw3sp c hc
              · exact hq c hc)
          simpa using hws4
        exact MMatch.cat c1 (MMatch.cat c2 (MMatch.cat c3 c4))


/-! ### Claim C5: the bare-token list guard -/

theorem jsTrim_decomp (s : List Char) :
    ∃ p q, s = p ++ jsTrim s ++ q ∧ (∀ c ∈ p, isSpaceC c = true) ∧
      (∀ c ∈ q, isSpaceC c = true) := by
  refine ⟨s.takeWhile isSpaceC,
    ((s.dropWhile isSpaceC).reverse.takeWhile isSpaceC).reverse, ?_, ?_, ?_⟩
  · have hsplit1 := (List.takeWhile_append_dropWhile (p := isSpaceC) (l := s)).symm
    have hsplit2 : s.dropWhile isSpaceC = jsTrim s ++
        ((s.dropWhile isSpaceC).reverse.takeWhile isSpaceC).reverse := by
      unfold jsTrim
      rw [← List.reverse_append, List.takeWhile_append_dropWhile,
        List.reverse_reverse]
    rw [hsplit2] at hsplit1
    simpa [List.append_assoc] using hsplit1
  · exact fun c hc => List.mem_takeWhile_imp hc
  · intro c hc
    rw [List.mem_reverse] at hc
    exact List.mem_takeWhile_imp hc

theorem partialAllowed_false_of_bare {v : List Char} (h0 : ¬ (jsTrim v = []))
    (hb : bareItemGuard v = true) : isIpPartialAllowed v = false := by
  unfold isIpPartialAllowed
  rw [if_neg h0]
  split
  · rfl
  · split
    · rfl
    · simp [hb]

theorem bare_rejects {value : String}
    (hlen : 1 < (splitCh ',' value.data).length)
    (hbare : ∃ raw ∈ (splitCh ',' value.data).dropLast,
      jsTrim raw ≠ [] ∧ '.' ∉ jsTrim raw ∧ ':' ∉ jsTrim raw ∧
      '/' ∉ jsTrim raw ∧ '-' ∉ jsTrim raw) :
    isIpPartiallyValid value ≠ "" := by
  obtain ⟨raw, hmem, hne, hdot, hcol, hsl, hdash⟩ := hbare
  have hguard : bareItemGuard value.data = true := by
    unfold bareItemGuard
    rw [Bool.and_eq_true]
    refine ⟨decide_eq_true hlen, List.any_eq_true.mpr ⟨raw, hmem, ?_⟩⟩
    have e0 : (jsTrim raw).isEmpty = false := isEmpty_false_iff.mpr hne
    have e1 : (jsTrim raw).contains '.' = false :=
      contains_false_of (fun c hc he => hdot (he ▸ hc))
    have e2 : (jsTrim raw).contains ':' = false :=
      contains_false_of (fun c hc he => hcol (he ▸ hc))
    have e3 : (jsTrim raw).contains '/' = false :=
      contains_false_of (fun c hc he => hsl (he ▸ hc))
    have e4 : (jsTrim raw).contains '-' = false :=
      contains_false_of (fun c hc he => hdash (he ▸ hc))
    simp [e0]
    exact ⟨⟨⟨hdot, hcol⟩, hsl⟩, hdash⟩
  have hTne : ¬ (jsTrim value.data = []) := by
    intro hnil
    rw [jsTrim_eq_nil_iff] at hnil
    have hsp : splitCh ',' value.data = [value.data] :=
      splitCh_no_sep ',' _ (fun c hc => (space_facts (hnil c hc)).1)
    rw [hsp] at hlen
    simp at hlen
  have hpa : isIpPartialAllowed value.data = false :=
    partialAllowed_false_of_bare hTne hguard
  have hvalid : isIpValid value = false := by
    cases hb : isIpValid value with
    | false => rfl
    | true =>
      exfalso
      have hfull0 : rmatch FULL_LIST (jsTrim value.data) = true := by
        simp only [isIpValid] at hb
        rw [if_neg hTne] at hb
        unfold ipFullCheck at hb
        simp only [Bool.and_eq_true] at hb
        exact hb.1.1.1.1.1
      obtain ⟨p, q, hdec, hp, hq⟩ := jsTrim_decomp value.data
      have hfull : MMatch FULL_LIST value.data [] := by
        have hpad := fullmatch_pad (rmatch_iff.mp hfull0) hp hq
        rwa [← hdec] at hpad
      have hitem : ItemOk raw :=
        full_list_decomp hfull raw ((List.dropLast_sublist _).subset hmem)
      obtain ⟨w1, s1, w2, hraweq, hw1, hw2, hsf⟩ := hitem
      obtain ⟨u, hueq, c, hcm, hcp⟩ := need_of_match hsf needP_dc_SINGLE
      rw [List.append_nil] at hueq
      subst hueq
      simp only [Bool.or_eq_true, decide_eq_true_eq] at hcp
      have hcraw : c ∈ raw := by
        rw [hraweq]
        exact List.mem_append_left _ (List.mem_append_right _ hcm)
      rcases hcp with rfl | rfl
      · exact hdot (mem_jsTrim_of_mem hcraw (by decide))
      · exact hcol (mem_jsTrim_of_mem hcraw (by decide))
  intro hmsg
  simp [isIpPartiallyValid, hTne, hvalid, hpa] at hmsg
  repeat' split at hmsg
  all_goals exact absurd hmsg (by decide)


/-- **C5.**  Bare-token list guard: `"12,22,22,22,22"` is rejected, and in
general any comma list with more than one item in which some item other
than the last is nonempty after trimming yet contains none of `.`, `:`,
`/`, `-` is rejected by the partial validator. -/
theorem C5_bare_item_guard :
    isIpPartiallyValid "12,22,22,22,22" ≠ "" ∧
    (∀ value : String, 1 < (splitCh ',' value.data).length →
      (∃ raw ∈ (splitCh ',' value.data).dropLast,
        jsTrim raw ≠ [] ∧ '.' ∉ jsTrim raw ∧ ':' ∉ jsTrim raw ∧
        '/' ∉ jsTrim raw ∧ '-' ∉ jsTrim raw) →
      isIpPartiallyValid value ≠ "") :=
  ⟨by decide, fun _ hlen hbare => bare_rejects hlen hbare⟩

/-- **C5, witness.**  The general statement applied to `"7,8"`. -/
theorem C5_witness : isIpPartiallyValid "7,8" ≠ "" := by
  refine C5_bare_item_guard.2 "7,8" (by decide) ⟨"7".data, ?_, ?_, ?_, ?_, ?_, ?_⟩
  · decide
  · decide
  · decide
  · decide
  · decide
  · decide


/-! ### Claim C4: range order and the numeric address semantics -/

theorem dropWhile_append_sat {f : Char → Bool} :
    ∀ (p y : List Char), (∀ c ∈ p, f c = true) →
      (p ++ y).dropWhile f = y.dropWhile f := by
  intro p
  induction p with
  | nil => intro y h; rfl
  | cons c p2 ih =>
    intro y h
    rw [List.cons_append, List.dropWhile_cons, if_pos (h c (by simp))]
    exact ih y (fun d hd => h d (by simp [hd]))

theorem jsTrim_pad {p x q : List Char} (hp : ∀ c ∈ p, isSpaceC c = true)
    (hq : ∀ c ∈ q, isSpaceC c = true) (hx : ∀ c ∈ x, isSpaceC c = false)
    (hne : x ≠ []) : jsTrim (p ++ x ++ q) = x := by
  unfold jsTrim
  rw [List.append_assoc, dropWhile_append_sat p _ hp]
  cases x with
  | nil => exact absurd rfl hne
  | cons c x2 =>
    rw [List.cons_append, List.dropWhile_cons, if_neg (by rw [hx c (by simp)]; simp)]
    rw [show (c :: (x2 ++ q)).reverse = q.reverse ++ (c :: x2).reverse from by simp]
    rw [dropWhile_append_sat q.reverse _
      (fun d hd => hq d (List.mem_reverse.mp hd))]
    rw [dropWhile_eq_self_of (fun d hd => hx d (by
      rw [List.mem_reverse] at hd
      exact hd))]
    rw [List.reverse_reverse]

theorem v4_token_ne_nil {u : List Char} (h : isFullIpv4Token u = true) :
    u ≠ [] := by
  intro he
  rw [he] at h
  exact absurd h (by decide)

theorem v6_token_ne_nil {u : List Char} (h : isFullIpv6Token u = true) :
    u ≠ [] := by
  intro he
  rw [he] at h
  exact absurd h (by decide)

theorem valid_guards {value : String} (h : isIpValid value = true) :
    hasRangeOrderViolation (jsTrim value.data) = false ∧
      hasIpVersionMismatchInRange (jsTrim value.data) = false := by
  by_cases hT : jsTrim value.data = []
  · rw [hT]
    exact ⟨by decide, by decide⟩
  · simp only [isIpValid] at h
    rw [if_neg hT] at h
    unfold ipFullCheck at h
    simp only [Bool.and_eq_true] at h
    refine ⟨?_, ?_⟩
    · have h1 := h.1.2
      simpa using h1
    · have h2 := h.2
      simpa using h2

theorem order_v4_of_guard {v item : List Char}
    (hord : hasRangeOrderViolation v = false) (hm : item ∈ splitCh ',' v)
    (h2 : (splitCh '-' item).length = 2)
    (hL : isFullIpv4Token (jsTrim ((splitCh '-' item).getD 0 [])) = true)
    (hR : isFullIpv4Token (jsTrim ((splitCh '-' item).getD 1 [])) = true)
    {nl nr : Nat}
    (hnl : ipv4ToNumber (jsTrim ((splitCh '-' item).getD 0 [])) = some nl)
    (hnr : ipv4ToNumber (jsTrim ((splitCh '-' item).getD 1 [])) = some nr) :
    nl ≤ nr := by
  by_contra hgt
  rw [Nat.not_le] at hgt
  have hbody := (List.any_eq_false.mp hord) item hm
  apply hbody
  have hq0 : (splitCh '-' item).getD 0 [] = (splitCh '-' item)[0] := by
    rw [List.getD_eq_getElem]
  have hq1 : (splitCh '-' item).getD 1 [] = (splitCh '-' item)[1] := by
    rw [List.getD_eq_getElem]
  rw [hq0] at hL hnl
  rw [hq1] at hR hnr
  simp [h2, hL, hR, hnl, hnr, hgt, v4_token_ne_nil hL, v4_token_ne_nil hR]

set_option maxHeartbeats 1000000 in
theorem order_v6_of_guard {v item : List Char}
    (hord : hasRangeOrderViolation v = false) (hm : item ∈ splitCh ',' v)
    (h2 : (splitCh '-' item).length = 2)
    (hL : isFullIpv6Token (jsTrim ((splitCh '-' item).getD 0 [])) = true)
    (hR : isFullIpv6Token (jsTrim ((splitCh '-' item).getD 1 [])) = true)
    {nl nr : Nat}
    (hnl : ipv6ToBigInt (jsTrim ((splitCh '-' item).getD 0 [])) = some nl)
    (hnr : ipv6ToBigInt (jsTrim ((splitCh '-' item).getD 1 [])) = some nr) :
    nl ≤ nr := by
  by_contra hgt
  rw [Nat.not_le] at hgt
  have hbody := (List.any_eq_false.mp hord) item hm
  apply hbody
  have hq0 : (splitCh '-' item).getD 0 [] = (splitCh '-' item)[0] := by
    rw [List.getD_eq_getElem]
  have hq1 : (splitCh '-' item).getD 1 [] = (splitCh '-' item)[1] := by
    rw [List.getD_eq_getElem]
  rw [hq0] at hL hnl
  rw [hq1] at hR hnr
  simp [h2, hL, hR, hnl, hnr, hgt, v6_token_ne_nil hL, v6_token_ne_nil hR]

theorem ipv4ToNumber_packs {d1 d2 d3 d4 : List Char}
    (h1 : d1 ≠ []) (h2 : d2 ≠ []) (h3 : d3 ≠ []) (h4 : d4 ≠ [])
    (h1d : ∀ c ∈ d1, isDigitC c = true) (h2d : ∀ c ∈ d2, isDigitC c = true)
    (h3d : ∀ c ∈ d3, isDigitC c = true) (h4d : ∀ c ∈ d4, isDigitC c = true) :
    ipv4ToNumber (d1 ++ '.' :: (d2 ++ '.' :: (d3 ++ '.' :: d4))) =
      some (((decVal d1 * 256 + decVal d2) * 256 + decVal d3) * 256 +
        decVal d4) := by
  have hs : splitCh '.' (d1 ++ '.' :: (d2 ++ '.' :: (d3 ++ '.' :: d4))) =
      [d1, d2, d3, d4] := by
    rw [splitCh_append_sep '.' d1 _
        (fun c hc => (digit_facts (h1d c hc)).2.2.2.2.2),
      splitCh_append_sep '.' d2 _
        (fun c hc => (digit_facts (h2d c hc)).2.2.2.2.2),
      splitCh_append_sep '.' d3 _
        (fun c hc => (digit_facts (h3d c hc)).2.2.2.2.2),
      splitCh_no_sep '.' d4
        (fun c hc => (digit_facts (h4d c hc)).2.2.2.2.2)]
  unfold ipv4ToNumber
  rw [hs]
  simp [parseDec_digits h1d h1, parseDec_digits h2d h2,
    parseDec_digits h3d h3, parseDec_digits h4d h4]


theorem hex_ne_colon {c : Char} (h : isHexC c = true) : c ≠ ':' := by
  intro he
  rw [he] at h
  exact absurd h (by decide)

theorem parseHex_hex {g : List Char} (h : ∀ c ∈ g, isHexC c = true)
    (hne : g ≠ []) : parseHex g = some (hexVal g) := by
  unfold parseHex
  rw [takeWhile_all h]
  cases g with
  | nil => exact absurd rfl hne
  | cons c t => rfl

theorem hexDigitVal_lt {c : Char} (h : isHexC c = true) : hexDigitVal c < 16 := by
  have e0 : ('0' : Char).toNat = 48 := by decide
  have ea : ('a' : Char).toNat = 97 := by decide
  have eA : ('A' : Char).toNat = 65 := by decide
  unfold hexDigitVal
  rcases isHexC_toNat h with ⟨h1, h2⟩ | ⟨h1, h2⟩ | ⟨h1, h2⟩
  · have hd : isDigitC c = true := by
      simp only [isDigitC, Bool.and_eq_true, decide_eq_true_eq]
      exact ⟨h1, h2⟩
    rw [if_pos hd, e0]
    omega
  · have hd : ¬ (isDigitC c = true) := by
      simp only [isDigitC, Bool.and_eq_true, decide_eq_true_eq]
      intro hcon
      have h2n : c.toNat ≤ 57 := hcon.2
      omega
    have haf : (decide ('a' ≤ c) && decide (c ≤ 'f')) = true := by
      simp only [Bool.and_eq_true, decide_eq_true_eq]
      exact ⟨h1, h2⟩
    rw [if_neg hd, if_pos haf, ea]
    omega
  · have hd : ¬ (isDigitC c = true) := by
      simp only [isDigitC, Bool.and_eq_true, decide_eq_true_eq]
      intro hcon
      have h2n : c.toNat ≤ 57 := hcon.2
      omega
    have haf : ¬ ((decide ('a' ≤ c) && decide (c ≤ 'f')) = true) := by
      simp only [Bool.and_eq_true, decide_eq_true_eq]
      intro hcon
      have h1n : 97 ≤ c.toNat := hcon.1
      omega
    rw [if_neg hd, if_neg haf, eA]
    omega

theorem hexVal_bound : ∀ (g : List Char) (a : Nat),
    (∀ c ∈ g, isHexC c = true) →
    g.foldl (fun acc c => acc * 16 + hexDigitVal c) a < (a + 1) * 16 ^ g.length := by
  intro g
  induction g with
  | nil =>
    intro a h
    simpa using Nat.lt_succ_self a
  | cons c g2 ih =>
    intro a h
    have hd := hexDigitVal_lt (h c (by simp))
    have ih2 := ih (a * 16 + hexDigitVal c) (fun d hd2 => h d (by simp [hd2]))
    simp only [List.foldl_cons, List.length_cons]
    calc g2.foldl (fun acc c => acc * 16 + hexDigitVal c)
          (a * 16 + hexDigitVal c) <
        (a * 16 + hexDigitVal c + 1) * 16 ^ g2.length := ih2
      _ ≤ ((a + 1) * 16) * 16 ^ g2.length := by
          apply Nat.mul_le_mul_right
          omega
      _ = (a + 1) * 16 ^ (g2.length + 1) := by ring

theorem hexVal_lt {g : List Char} (h : ∀ c ∈ g, isHexC c = true)
    (hlen : g.length ≤ 4) : hexVal g < 65536 := by
  have hb := hexVal_bound g 0 h
  have hp : (16 : Nat) ^ g.length ≤ 16 ^ 4 :=
    Nat.pow_le_pow_right (by norm_num) hlen
  unfold hexVal
  omega

theorem shl16_or {r v : Nat} (h : v < 65536) : (r <<< 16) ||| v = r * 65536 + v := by
  have h2 : v < 2 ^ 16 := h
  apply Nat.eq_of_testBit_eq
  intro i
  rw [Nat.testBit_lor, Nat.testBit_shiftLeft]
  have hrhs : r * 65536 + v = 2 ^ 16 * r + v := by ring
  rw [hrhs, Nat.testBit_mul_pow_two_add r h2 i]
  by_cases hi : i < 16
  · rw [if_pos hi]
    simp [Nat.not_le.mpr hi]
  · rw [if_neg hi]
    have hvi : v.testBit i = false := Nat.testBit_lt_two_pow
      (lt_of_lt_of_le h2 (Nat.pow_le_pow_right (by norm_num) (Nat.not_lt.mp hi)))
    simp [Nat.not_lt.mp hi, hvi]

/-! ### `::`-compression: traversing joined colon groups -/

theorem countDC_cons_ne {c : Char} {t : List Char} (hc : c ≠ ':') :
    countDC (c :: t) = countDC t := by
  conv_lhs => unfold countDC
  split
  · rename_i heq
    rw [List.cons.injEq] at heq
    exact absurd heq.1 hc
  · rename_i x xs heq
    rw [List.cons.injEq] at heq
    rw [heq.2]
  · rename_i heq
    simp at heq

theorem countDC_colon_cons {d : Char} {t : List Char} (hd : d ≠ ':') :
    countDC (':' :: d :: t) = countDC (d :: t) := by
  conv_lhs => unfold countDC
  split
  · rename_i heq
    rw [List.cons.injEq] at heq
    obtain ⟨-, heq2⟩ := heq
    rw [List.cons.injEq] at heq2
    exact absurd heq2.1 hd
  · rename_i x xs heq
    rw [List.cons.injEq] at heq
    rw [heq.2]
  · rename_i heq
    simp at heq

theorem countDC_dc (t : List Char) : countDC (':' :: ':' :: t) = countDC t + 1 := rfl

theorem countDC_through_chars : ∀ (u w : List Char), (∀ c ∈ u, c ≠ ':') →
    countDC (u ++ w) = countDC w := by
  intro u
  induction u with
  | nil => intro w h; rfl
  | cons c u2 ih =>
    intro w h
    rw [List.cons_append, countDC_cons_ne (h c (by simp))]
    exact ih w (fun d hd => h d (by simp [hd]))

theorem splitDC_cons_ne {c : Char} {t : List Char} (hc : c ≠ ':')
    {h0 : List Char} {t0 : List (List Char)} (ht : splitDC t = h0 :: t0) :
    splitDC (c :: t) = (c :: h0) :: t0 := by
  unfold splitDC
  split
  · rename_i heq
    rw [List.cons.injEq] at heq
    exact absurd heq.1 hc
  · rename_i x xs heq
    rw [List.cons.injEq] at heq
    rw [← heq.1, ← heq.2, ht]
  · rename_i heq
    simp at heq

theorem splitDC_colon_cons {d : Char} {t : List Char} (hd : d ≠ ':')
    {h0 : List Char} {t0 : List (List Char)} (ht : splitDC (d :: t) = h0 :: t0) :
    splitDC (':' :: d :: t) = (':' :: h0) :: t0 := by
  unfold splitDC
  split
  · rename_i heq
    rw [List.cons.injEq] at heq
    obtain ⟨-, heq2⟩ := heq
    rw [List.cons.injEq] at heq2
    exact absurd heq2.1 hd
  · rename_i x xs heq
    rw [List.cons.injEq] at heq
    rw [← heq.1, ← heq.2, ht]
  · rename_i heq
    simp at heq

theorem splitDC_dc (t : List Char) : splitDC (':' :: ':' :: t) = [] :: splitDC t := rfl

theorem splitDC_through_chars : ∀ (u w : List Char), (∀ c ∈ u, c ≠ ':') →
    ∀ {h0 : List Char} {t0 : List (List Char)}, splitDC w = h0 :: t0 →
    splitDC (u ++ w) = (u ++ h0) :: t0 := by
  intro u
  induction u with
  | nil =>
    intro w h h0 t0 hw
    simpa using hw
  | cons c u2 ih =>
    intro w h h0 t0 hw
    rw [List.cons_append,
      splitDC_cons_ne (h c (by simp)) (ih w (fun d hd => h d (by simp [hd])) hw)]
    rfl

theorem join_head_hex : ∀ (gs : List (List Char)),
    (∀ g ∈ gs, g ≠ [] ∧ ∀ c ∈ g, isHexC c = true) → gs ≠ [] →
    ∃ d t2, joinSep ':' gs = d :: t2 ∧ isHexC d = true := by
  intro gs h hne
  cases gs with
  | nil => exact absurd rfl hne
  | cons g r =>
    obtain ⟨hgne, hghex⟩ := h g (by simp)
    cases g with
    | nil => exact absurd rfl hgne
    | cons d g2 =>
      cases r with
      | nil => exact ⟨d, g2, rfl, hghex d (by simp)⟩
      | cons g3 r2 => exact ⟨d, g2 ++ ':' :: joinSep ':' (g3 :: r2), rfl,
          hghex d (by simp)⟩

theorem countDC_join : ∀ (gs : List (List Char)),
    (∀ g ∈ gs, g ≠ [] ∧ ∀ c ∈ g, isHexC c = true) →
    ∀ w, countDC (joinSep ':' gs ++ w) = countDC w := by
  intro gs
  induction gs with
  | nil =>
    intro h w
    rfl
  | cons g r ih =>
    intro h w
    have hghex := (h g (by simp)).2
    have hr : ∀ g2 ∈ r, g2 ≠ [] ∧ ∀ c ∈ g2, isHexC c = true :=
      fun g2 hg2 => h g2 (by simp [hg2])
    cases r with
    | nil =>
      show countDC (g ++ w) = countDC w
      exact countDC_through_chars g w
        (fun c hc => hex_ne_colon (hghex c hc))
    | cons g2 r2 =>
      show countDC ((g ++ ':' :: joinSep ':' (g2 :: r2)) ++ w) = countDC w
      obtain ⟨d, t2, hdt, hdhex⟩ := join_head_hex (g2 :: r2) hr (by simp)
      rw [List.append_assoc, List.cons_append,
        countDC_through_chars g _ (fun c hc => hex_ne_colon (hghex c hc)),
        hdt, List.cons_append, countDC_colon_cons (hex_ne_colon hdhex),
        ← List.cons_append, ← hdt]
      exact ih hr w

theorem splitDC_join : ∀ (gs : List (List Char)),
    (∀ g ∈ gs, g ≠ [] ∧ ∀ c ∈ g, isHexC c = true) →
    ∀ w {h0 : List Char} {t0 : List (List Char)}, splitDC w = h0 :: t0 →
    splitDC (joinSep ':' gs ++ w) = ((joinSep ':' gs) ++ h0) :: t0 := by
  intro gs
  induction gs with
  | nil =>
    intro h w h0 t0 hw
    simpa using hw
  | cons g r ih =>
    intro h w h0 t0 hw
    have hghex := (h g (by simp)).2
    have hr : ∀ g2 ∈ r, g2 ≠ [] ∧ ∀ c ∈ g2, isHexC c = true :=
      fun g2 hg2 => h g2 (by simp [hg2])
    cases r with
    | nil =>
      show splitDC (g ++ w) = ((g : List Char) ++ h0) :: t0
      exact splitDC_through_chars g w
        (fun c hc => hex_ne_colon (hghex c hc)) hw
    | cons g2 r2 =>
      obtain ⟨d, t2, hdt, hdhex⟩ := join_head_hex (g2 :: r2) hr (by simp)
      have hin : splitDC (joinSep ':' (g2 :: r2) ++ w) =
          ((joinSep ':' (g2 :: r2)) ++ h0) :: t0 := ih hr w hw
      rw [hdt] at hin
      simp only [List.cons_append] at hin
      have hcol := splitDC_colon_cons (hex_ne_colon hdhex) hin
      have hthru := splitDC_through_chars g (':' :: d :: (t2 ++ w))
        (fun c hc => hex_ne_colon (hghex c hc)) hcol
      show splitDC ((g ++ ':' :: joinSep ':' (g2 :: r2)) ++ w) =
        ((g ++ ':' :: joinSep ':' (g2 :: r2)) ++ h0) :: t0
      rw [hdt]
      simp only [List.append_assoc, List.cons_append]
      simp only [List.cons_append] at hthru
      exact hthru


theorem fold_pack : ∀ (gs : List (List Char)) (a : Nat),
    (∀ g ∈ gs, g ≠ [] ∧ g.length ≤ 4 ∧ ∀ c ∈ g, isHexC c = true) →
    (gs.map (fun g => parseHex (if g = [] then ['0'] else g))).foldl packGroup
        (some a) =
      some ((gs.map hexVal).foldl (fun acc v => acc * 65536 + v) a) := by
  intro gs
  induction gs with
  | nil => intro a h; rfl
  | cons g r ih =>
    intro a h
    obtain ⟨hne, hlen, hhex⟩ := h g (by simp)
    have hr : ∀ g2 ∈ r, g2 ≠ [] ∧ g2.length ≤ 4 ∧ ∀ c ∈ g2, isHexC c = true :=
      fun g2 hg2 => h g2 (by simp [hg2])
    simp only [List.map_cons, List.foldl_cons]
    rw [if_neg hne, parseHex_hex hhex hne]
    show (r.map (fun g => parseHex (if g = [] then ['0'] else g))).foldl
        packGroup (some ((a <<< 16) ||| hexVal g)) = _
    rw [shl16_or (hexVal_lt hhex hlen)]
    exact ih (a * 65536 + hexVal g) hr

theorem packs_bound : ∀ (vs : List Nat) (a : Nat), (∀ v ∈ vs, v < 65536) →
    vs.foldl (fun acc v => acc * 65536 + v) a < (a + 1) * 65536 ^ vs.length := by
  intro vs
  induction vs with
  | nil =>
    intro a h
    simpa using Nat.lt_succ_self a
  | cons v vs2 ih =>
    intro a h
    have hv := h v (by simp)
    have ih2 := ih (a * 65536 + v) (fun d hd2 => h d (by simp [hd2]))
    simp only [List.foldl_cons, List.length_cons]
    calc vs2.foldl (fun acc v => acc * 65536 + v) (a * 65536 + v) <
        (a * 65536 + v + 1) * 65536 ^ vs2.length := ih2
      _ ≤ ((a + 1) * 65536) * 65536 ^ vs2.length := by
          apply Nat.mul_le_mul_right
          omega
      _ = (a + 1) * 65536 ^ (vs2.length + 1) := by ring

theorem ipv6ToBigInt_packs {gsL gsR : List (List Char)}
    (hL : ∀ g ∈ gsL, g ≠ [] ∧ g.length ≤ 4 ∧ ∀ c ∈ g, isHexC c = true)
    (hR : ∀ g ∈ gsR, g ≠ [] ∧ g.length ≤ 4 ∧ ∀ c ∈ g, isHexC c = true) :
    ipv6ToBigInt (joinSep ':' gsL ++ ':' :: ':' :: joinSep ':' gsR) =
      some ((gsL.map hexVal ++
        List.replicate (8 - (gsL.length + gsR.length)) 0 ++
        gsR.map hexVal).foldl (fun acc v => acc * 65536 + v) 0) := by
  have hLw : ∀ g ∈ gsL, g ≠ [] ∧ ∀ c ∈ g, isHexC c = true :=
    fun g hg => ⟨(hL g hg).1, (hL g hg).2.2⟩
  have hRw : ∀ g ∈ gsR, g ≠ [] ∧ ∀ c ∈ g, isHexC c = true :=
    fun g hg => ⟨(hR g hg).1, (hR g hg).2.2⟩
  have hcnt : countDC (joinSep ':' gsL ++ ':' :: ':' :: joinSep ':' gsR) = 1 := by
    rw [countDC_join gsL hLw, countDC_dc]
    have h0 : countDC (joinSep ':' gsR) = 0 := by
      have hx := countDC_join gsR hRw []
      rwa [List.append_nil] at hx
    rw [h0]
  have hsplit : splitDC (joinSep ':' gsL ++ ':' :: ':' :: joinSep ':' gsR) =
      [joinSep ':' gsL, joinSep ':' gsR] := by
    have h1 : splitDC (joinSep ':' gsR) = [joinSep ':' gsR] := by
      have hx : splitDC (joinSep ':' gsR ++ []) =
          ((joinSep ':' gsR) ++ []) :: [] := splitDC_join gsR hRw [] rfl
      simp only [List.append_nil] at hx
      exact hx
    have h2 : splitDC (':' :: ':' :: joinSep ':' gsR) =
        [] :: [joinSep ':' gsR] := by
      rw [splitDC_dc, h1]
    have h3 := splitDC_join gsL hLw _ h2
    rwa [List.append_nil] at h3
  have hLcase : (if joinSep ':' gsL = [] then []
      else splitCh ':' (joinSep ':' gsL)) = gsL := by
    cases gsL with
    | nil => rfl
    | cons g r =>
      obtain ⟨d, t2, hdt, -⟩ := join_head_hex (g :: r) hLw (by simp)
      rw [if_neg (by rw [hdt]; simp)]
      exact splitCh_joinSep ':' (g :: r) (by simp)
        (fun p hp c hc => hex_ne_colon (((hLw p hp).2) c hc))
  have hRcase : (if joinSep ':' gsR = [] then []
      else splitCh ':' (joinSep ':' gsR)) = gsR := by
    cases gsR with
    | nil => rfl
    | cons g r =>
      obtain ⟨d, t2, hdt, -⟩ := join_head_hex (g :: r) hRw (by simp)
      rw [if_neg (by rw [hdt]; simp)]
      exact splitCh_joinSep ':' (g :: r) (by simp)
        (fun p hp c hc => hex_ne_colon (((hRw p hp).2) c hc))
  have hall : ∀ g ∈ gsL ++
      List.replicate (8 - (gsL.length + gsR.length)) ['0'] ++ gsR,
      g ≠ [] ∧ g.length ≤ 4 ∧ ∀ c ∈ g, isHexC c = true := by
    intro g hg
    rcases List.mem_append.mp hg with hg | hg
    · rcases List.mem_append.mp hg with hg | hg
      · exact hL g hg
      · have he := List.eq_of_mem_replicate hg
        subst he
        exact ⟨by simp, by simp, by decide⟩
    · exact hR g hg
  have hfold := fold_pack
    (gsL ++ List.replicate (8 - (gsL.length + gsR.length)) ['0'] ++ gsR) 0 hall
  have hmap : ((gsL ++ List.replicate (8 - (gsL.length + gsR.length)) ['0'] ++
      gsR).map hexVal) = gsL.map hexVal ++
      List.replicate (8 - (gsL.length + gsR.length)) 0 ++ gsR.map hexVal := by
    simp [List.map_append, List.map_replicate,
      show hexVal ['0'] = 0 from by decide]
  rw [hmap] at hfold
  unfold ipv6ToBigInt
  rw [if_neg (show ¬ (countDC (joinSep ':' gsL ++ ':' :: ':' ::
    joinSep ':' gsR) = 0) from by rw [hcnt]; simp)]
  simp only [hsplit, List.getD_cons_zero, List.getD_cons_succ, hLcase, hRcase]
  exact hfold


theorem item_range_sides {item : List Char} (hit : ItemOk item)
    (hdash : (splitCh '-' item).length = 2) :
    (isFullIpv4Token (jsTrim ((splitCh '-' item).getD 0 [])) = true ∧
        isFullIpv4Token (jsTrim ((splitCh '-' item).getD 1 [])) = true) ∨
      (isFullIpv6Token (jsTrim ((splitCh '-' item).getD 0 [])) = true ∧
        isFullIpv6Token (jsTrim ((splitCh '-' item).getD 1 [])) = true) := by
  obtain ⟨w1, s1, w2, hraweq, hw1, hw2, hsf⟩ := hit
  have hdm : '-' ∈ item := by
    by_contra hnd
    rw [splitCh_no_sep '-' item (fun c hc he => hnd (he ▸ hc))] at hdash
    simp at hdash
  have hds : '-' ∈ s1 := by
    rw [hraweq] at hdm
    rcases List.mem_append.mp hdm with hmm | hmm
    · rcases List.mem_append.mp hmm with hmm | hmm
      · exact absurd rfl (space_facts (hw1 '-' hmm)).2.1
      · exact hmm
    · exact absurd rfl (space_facts (hw2 '-' hmm)).2.1
  cases hsf with
  | altL h4c =>
    exfalso
    obtain ⟨u, hueq, hch⟩ :=
      chars_of_match h4c ⟨impChars_tok_IPV4, impChars_tok_SUF4⟩
    rw [List.append_nil] at hueq
    subst hueq
    exact absurd rfl (tok_facts (hch '-' hds)).2.1
  | altR h1 =>
    cases h1 with
    | altL hr4 =>
      left
      cases hr4 with
      | cat hLm hrest =>
        rename_i mL
        cases hrest with
        | cat hwsA hrest2 =>
          rename_i mA
          cases hrest2 with
          | cat hdashm hrest3 =>
            rename_i mB
            cases hdashm with
            | chr tB hdc =>
              have hdeq := of_decide_eq_true hdc
              subst hdeq
              cases hrest3 with
              | cat hwsB hRm =>
                rename_i mC
                obtain ⟨L, hLeq, hLch⟩ := chars_of_match hLm impChars_IPV4_FULL
                have hLm2 : MMatch IPV4_FULL L [] :=
                  mmatch_split hLm lookFree_IPV4_FULL L hLeq
                obtain ⟨wA, hwAeq, hwAsp⟩ :=
                  star_chr_sound mL.length mL _ (le_refl _) hwsA
                obtain ⟨wB, hwBeq, hwBsp⟩ :=
                  star_chr_sound mB.length mB mC (le_refl _) hwsB
                obtain ⟨R0, hReq, hRch0⟩ := chars_of_match hRm impChars_IPV4_FULL
                rw [List.append_nil] at hReq
                have hRch : ∀ c ∈ mC, isDigitDotC c = true := fun c hc =>
                  hRch0 c (hReq ▸ hc)
                obtain ⟨L2, hL2eq, d1, hd1m, hd1p⟩ :=
                  need_of_match hLm needP_dot_IPV4_FULL
                have hLL : L2 = L := append_cancel_r (hL2eq.symm.trans hLeq)
                obtain ⟨R2, hR2eq, d2, hd2m, hd2p⟩ :=
                  need_of_match hRm needP_dot_IPV4_FULL
                rw [List.append_nil] at hR2eq
                have hitem2 : item = (w1 ++ L ++ wA) ++ '-' :: (wB ++ mC ++ w2) := by
                  rw [hraweq, hLeq, hwAeq, hwBeq]
                  simp [List.append_assoc]
                have hsp : splitCh '-' item =
                    [w1 ++ L ++ wA, wB ++ mC ++ w2] := by
                  rw [hitem2,
                    splitCh_append_sep '-' _ _ (fun c hc => by
                      rcases List.mem_append.mp hc with hc | hc
                      · rcases List.mem_append.mp hc with hc | hc
                        · exact (space_facts (hw1 c hc)).2.1
                        · exact (digitDot_facts (hLch c hc)).1
                      · exact (space_facts (hwAsp c hc)).2.1),
                    splitCh_no_sep '-' _ (fun c hc => by
                      rcases List.mem_append.mp hc with hc | hc
                      · rcases List.mem_append.mp hc with hc | hc
                        · exact (space_facts (hwBsp c hc)).2.1
                        · exact (digitDot_facts (hRch c hc)).1
                      · exact (space_facts (hw2 c hc)).2.1)]
                have hg0 : (splitCh '-' item).getD 0 [] = w1 ++ L ++ wA := by
                  rw [hsp]
                  rfl
                have hg1 : (splitCh '-' item).getD 1 [] = wB ++ mC ++ w2 := by
                  rw [hsp]
                  rfl
                have hLtrim : jsTrim (w1 ++ L ++ wA) = L :=
                  jsTrim_pad hw1 hwAsp
                    (fun c hc => (digitDot_facts (hLch c hc)).2.2.2.2)
                    (List.ne_nil_of_mem (hLL ▸ hd1m))
                have hRtrim : jsTrim (wB ++ mC ++ w2) = mC :=
                  jsTrim_pad hwBsp hw2
                    (fun c hc => (digitDot_facts (hRch c hc)).2.2.2.2)
                    (List.ne_nil_of_mem (hR2eq ▸ hd2m : d2 ∈ mC))
                rw [hg0, hg1, hLtrim, hRtrim]
                exact ⟨rmatch_iff.mpr hLm2, rmatch_iff.mpr hRm⟩
    | altR h2 =>
      cases h2 with
      | altL hip4 =>
        exfalso
        obtain ⟨u, hueq, hch⟩ := chars_of_match hip4 impChars_tok_IPV4
        rw [List.append_nil] at hueq
        subst hueq
        exact absurd rfl (tok_facts (hch '-' hds)).2.1
      | altR h3 =>
        cases h3 with
        | altL h6c =>
          exfalso
          obtain ⟨u, hueq, hch⟩ :=
            chars_of_match h6c ⟨impChars_tok_IPV6, impChars_tok_SUF6⟩
          rw [List.append_nil] at hueq
          subst hueq
          exact absurd rfl (tok_facts (hch '-' hds)).2.1
        | altR h4 =>
          cases h4 with
          | altL hr6 =>
            right
            cases hr6 with
            | cat hLm hrest =>
              rename_i mL
              cases hrest with
              | cat hwsA hrest2 =>
                rename_i mA
                cases hrest2 with
                | cat hdashm hrest3 =>
                  rename_i mB
                  cases hdashm with
                  | chr tB hdc =>
                    have hdeq := of_decide_eq_true hdc
                    subst hdeq
                    cases hrest3 with
                    | cat hwsB hRm =>
                      rename_i mC
                      obtain ⟨L, hLeq, hLch⟩ :=
                        chars_of_match hLm impChars_IPV6_FULL
                      have hLm2 : MMatch IPV6_FULL L [] :=
                        mmatch_split hLm lookFree_IPV6_FULL L hLeq
                      obtain ⟨wA, hwAeq, hwAsp⟩ :=
                        star_chr_sound mL.length mL _ (le_refl _) hwsA
                      obtain ⟨wB, hwBeq, hwBsp⟩ :=
                        star_chr_sound mB.length mB mC (le_refl _) hwsB
                      obtain ⟨R0, hReq, hRch0⟩ :=
                        chars_of_match hRm impChars_IPV6_FULL
                      rw [List.append_nil] at hReq
                      have hRch : ∀ c ∈ mC, isHexColonC c = true := fun c hc =>
                        hRch0 c (hReq ▸ hc)
                      obtain ⟨L2, hL2eq, d1, hd1m, hd1p⟩ :=
                        need_of_match hLm needP_colon_IPV6_FULL
                      have hLL : L2 = L := append_cancel_r (hL2eq.symm.trans hLeq)
                      obtain ⟨R2, hR2eq, d2, hd2m, hd2p⟩ :=
                        need_of_match hRm needP_colon_IPV6_FULL
                      rw [List.append_nil] at hR2eq
                      have hitem2 : item =
                          (w1 ++ L ++ wA) ++ '-' :: (wB ++ mC ++ w2) := by
                        rw [hraweq, hLeq, hwAeq, hwBeq]
                        simp [List.append_assoc]
                      have hsp : splitCh '-' item =
                          [w1 ++ L ++ wA, wB ++ mC ++ w2] := by
                        rw [hitem2,
                          splitCh_append_sep '-' _ _ (fun c hc => by
                            rcases List.mem_append.mp hc with hc | hc
                            · rcases List.mem_append.mp hc with hc | hc
                              · exact (space_facts (hw1 c hc)).2.1
                              · exact (hexColon_facts (hLch c hc)).1
                            · exact (space_facts (hwAsp c hc)).2.1),
                          splitCh_no_sep '-' _ (fun c hc => by
                            rcases List.mem_append.mp hc with hc | hc
                            · rcases List.mem_append.mp hc with hc | hc
                              · exact (space_facts (hwBsp c hc)).2.1
                              · exact (hexColon_facts (hRch c hc)).1
                            · exact (space_facts (hw2 c hc)).2.1)]
                      have hg0 : (splitCh '-' item).getD 0 [] =
                          w1 ++ L ++ wA := by
                        rw [hsp]
                        rfl
                      have hg1 : (splitCh '-' item).getD 1 [] =
                          wB ++ mC ++ w2 := by
                        rw [hsp]
                        rfl
                      have hLtrim : jsTrim (w1 ++ L ++ wA) = L :=
                        jsTrim_pad hw1 hwAsp
                          (fun c hc => (hexColon_facts (hLch c hc)).2.2.2.2)
                          (List.ne_nil_of_mem (hLL ▸ hd1m))
                      have hRtrim : jsTrim (wB ++ mC ++ w2) = mC :=
                        jsTrim_pad hwBsp hw2
                          (fun c hc => (hexColon_facts (hRch c hc)).2.2.2.2)
                          (List.ne_nil_of_mem (hR2eq ▸ hd2m : d2 ∈ mC))
                      rw [hg0, hg1, hLtrim, hRtrim]
                      exact ⟨rmatch_iff.mpr hLm2, rmatch_iff.mpr hRm⟩
          | altR hip6 =>
            exfalso
            obtain ⟨u, hueq, hch⟩ := chars_of_match hip6 impChars_tok_IPV6
            rw [List.append_nil] at hueq
            subst hueq
            exact absurd rfl (tok_facts (hch '-' hds)).2.1


theorem valid_full_match {value : String} (h : isIpValid value = true)
    (hT : ¬ (jsTrim value.data = [])) :
    MMatch FULL_LIST (jsTrim value.data) [] := by
  simp only [isIpValid] at h
  rw [if_neg hT] at h
  unfold ipFullCheck at h
  simp only [Bool.and_eq_true] at h
  exact rmatch_iff.mp h.1.1.1.1.1

/-- **C4.**  Full-mode range order.  Concrete parts: `"192.168.1.1"` is
full-valid, `"192.168.1.10-192.168.1.2"` is not.  A full-valid value has no
range-order violation and no version mismatch; every item of it that splits
on `-` into two parts has trimmed sides that are complete addresses of the
same family, with numeric start ≤ numeric end whenever the numeric values
exist.  The IPv4 numeric value packs the four octets big-endian (a 32-bit
value when every octet is in range), and the IPv6 value expands `::` into
`8 − (leftGroupCount + rightGroupCount)` zero groups and packs the eight
groups big-endian in base 2¹⁶ (a 128-bit value). -/
theorem C4_range_order :
    (isIpValid "192.168.1.1" = true ∧
      isIpValid "192.168.1.10-192.168.1.2" = false) ∧
    (∀ value : String, isIpValid value = true →
      hasRangeOrderViolation (jsTrim value.data) = false ∧
        hasIpVersionMismatchInRange (jsTrim value.data) = false) ∧
    (∀ value : String, isIpValid value = true →
      ∀ item ∈ splitCh ',' (jsTrim value.data),
        (splitCh '-' item).length = 2 →
        ((isFullIpv4Token (jsTrim ((splitCh '-' item).getD 0 [])) = true ∧
            isFullIpv4Token (jsTrim ((splitCh '-' item).getD 1 [])) = true ∧
            ∀ nl nr,
              ipv4ToNumber (jsTrim ((splitCh '-' item).getD 0 [])) = some nl →
              ipv4ToNumber (jsTrim ((splitCh '-' item).getD 1 [])) = some nr →
              nl ≤ nr) ∨
          (isFullIpv6Token (jsTrim ((splitCh '-' item).getD 0 [])) = true ∧
            isFullIpv6Token (jsTrim ((splitCh '-' item).getD 1 [])) = true ∧
            ∀ nl nr,
              ipv6ToBigInt (jsTrim ((splitCh '-' item).getD 0 [])) = some nl →
              ipv6ToBigInt (jsTrim ((splitCh '-' item).getD 1 [])) = some nr →
              nl ≤ nr))) ∧
    (∀ d1 d2 d3 d4 : List Char, d1 ≠ [] → d2 ≠ [] → d3 ≠ [] → d4 ≠ [] →
      (∀ c ∈ d1, isDigitC c = true) → (∀ c ∈ d2, isDigitC c = true) →
      (∀ c ∈ d3, isDigitC c = true) → (∀ c ∈ d4, isDigitC c = true) →
      ipv4ToNumber (d1 ++ '.' :: (d2 ++ '.' :: (d3 ++ '.' :: d4))) =
        some (((decVal d1 * 256 + decVal d2) * 256 + decVal d3) * 256 +
          decVal d4) ∧
      (decVal d1 ≤ 255 → decVal d2 ≤ 255 → decVal d3 ≤ 255 → decVal d4 ≤ 255 →
        ((decVal d1 * 256 + decVal d2) * 256 + decVal d3) * 256 + decVal d4 <
          2 ^ 32)) ∧
    (∀ gsL gsR : List (List Char),
      (∀ g ∈ gsL, g ≠ [] ∧ g.length ≤ 4 ∧ ∀ c ∈ g, isHexC c = true) →
      (∀ g ∈ gsR, g ≠ [] ∧ g.length ≤ 4 ∧ ∀ c ∈ g, isHexC c = true) →
      ipv6ToBigInt (joinSep ':' gsL ++ ':' :: ':' :: joinSep ':' gsR) =
        some ((gsL.map hexVal ++
          List.replicate (8 - (gsL.length + gsR.length)) 0 ++
          gsR.map hexVal).foldl (fun acc v => acc * 65536 + v) 0) ∧
      (gsL.length + gsR.length ≤ 8 →
        (gsL.map hexVal ++
          List.replicate (8 - (gsL.length + gsR.length)) 0 ++
          gsR.map hexVal).foldl (fun acc v => acc * 65536 + v) 0 < 2 ^ 128)) := by
  refine ⟨⟨by decide, by decide⟩, ?_, ?_, ?_, ?_⟩
  · exact fun value h => valid_guards h
  · intro value h item hm hdash
    by_cases hT : jsTrim value.data = []
    · rw [hT] at hm
      simp [splitCh] at hm
      subst hm
      simp [splitCh] at hdash
    · have hfull := valid_full_match h hT
      have hord := (valid_guards h).1
      have hit := full_list_decomp hfull item hm
      rcases item_range_sides hit hdash with ⟨hL, hR⟩ | ⟨hL, hR⟩
      · exact Or.inl ⟨hL, hR, fun nl nr hnl hnr =>
          order_v4_of_guard hord hm hdash hL hR hnl hnr⟩
      · exact Or.inr ⟨hL, hR, fun nl nr hnl hnr =>
          order_v6_of_guard hord hm hdash hL hR hnl hnr⟩
  · intro d1 d2 d3 d4 h1 h2 h3 h4 h1d h2d h3d h4d
    refine ⟨ipv4ToNumber_packs h1 h2 h3 h4 h1d h2d h3d h4d, ?_⟩
    intro b1 b2 b3 b4
    have hp : (2 : Nat) ^ 32 = 4294967296 := by norm_num
    omega
  · intro gsL gsR hgl hgr
    refine ⟨ipv6ToBigInt_packs hgl hgr, ?_⟩
    intro hlen
    have hvb : ∀ v ∈ gsL.map hexVal ++
        List.replicate (8 - (gsL.length + gsR.length)) 0 ++ gsR.map hexVal,
        v < 65536 := by
      intro v hv
      rcases List.mem_append.mp hv with hv | hv
      · rcases List.mem_append.mp hv with hv | hv
        · obtain ⟨g, hg, rfl⟩ := List.mem_map.mp hv
          exact hexVal_lt (hgl g hg).2.2 (hgl g hg).2.1
        · rw [List.eq_of_mem_replicate hv]
          norm_num
      · obtain ⟨g, hg, rfl⟩ := List.mem_map.mp hv
        exact hexVal_lt (hgr g hg).2.2 (hgr g hg).2.1
    have hb := packs_bound _ 0 hvb
    have hlen8 : (gsL.map hexVal ++
        List.replicate (8 - (gsL.length + gsR.length)) 0 ++
        gsR.map hexVal).length = 8 := by
      simp [List.length_append, List.length_map, List.length_replicate]
      omega
    rw [hlen8] at hb
    have hpow : (0 + 1) * 65536 ^ 8 = 2 ^ 128 := by norm_num
    omega

/-- **C4, witness.**  The general parts applied to `"10.0.0.1-10.0.0.2"`,
to the octet strings of `"192.168.1.1"`, and to the group lists of
`"ff::1"`. -/
theorem C4_witness :
    (hasRangeOrderViolation (jsTrim "10.0.0.1-10.0.0.2".data) = false ∧
      hasIpVersionMismatchInRange (jsTrim "10.0.0.1-10.0.0.2".data) = false) ∧
    ipv4ToNumber ("192".data ++ '.' :: ("168".data ++ '.' ::
        ("1".data ++ '.' :: "1".data))) =
      some (((decVal "192".data * 256 + decVal "168".data) * 256 +
        decVal "1".data) * 256 + decVal "1".data) ∧
    ipv6ToBigInt (joinSep ':' [['f', 'f']] ++ ':' :: ':' ::
        joinSep ':' [['1']]) =
      some (([['f', 'f']].map hexVal ++
        List.replicate (8 - ([['f', 'f']].length + [['1']].length)) 0 ++
        [['1']].map hexVal).foldl (fun acc v => acc * 65536 + v) 0) := by
  refine ⟨C4_range_order.2.1 "10.0.0.1-10.0.0.2" (by decide), ?_, ?_⟩
  · exact (C4_range_order.2.2.2.1 "192".data "168".data "1".data "1".data
      (by decide) (by decide) (by decide) (by decide)
      (by decide) (by decide) (by decide) (by decide)).1
  · exact (C4_range_order.2.2.2.2 [['f', 'f']] [['1']]
      (by decide) (by decide)).1


end NetVal
